import Mathlib

/-!
Verification development for the supernodal sparse LU core
(`faer-libs/faer-sparse/src/lu.rs`) and the permutation/matrix operator
facade (`faer-libs/faer-core/src/matrix_ops.rs`).

The Rust code is embedded shallowly: pure functions become Lean functions,
in-place mutation becomes explicit state passing, machine indices become
`Nat` with explicit overflow checks where the source checks them, and
fallible code returns `Except`/`Option`.  The scalar field `E` is
instantiated at exact rational arithmetic represented by explicit integer
fractions (`Fr`, numerator and denominator, compared by cross
multiplication) so that every concrete observation is kernel-decidable;
conjugation is threaded as an explicit function together with the `Conj`
flag, mirroring the `_with_conj` entry points.

External collaborators that the spec lists as out of scope (dense kernels,
`permute_rows`, the panel LU with partial pivoting) are not under `src/`;
they are modelled from the spec where used, with doc comments marking each
such definition.
-/

set_option maxRecDepth 8000

namespace FaerLu

/-! ### Scalars -/

/-- The scalar field `E`, instantiated at exact rational arithmetic: an
unreduced fraction `n / d`.  Two fractions are semantically equal when they
cross-multiply equally (`Fr.eqvB`); all the field operations used by the
code are represented exactly. -/
structure Fr where
  n : ℤ
  d : ℤ
deriving DecidableEq, Repr

namespace Fr

/-- Additive identity (`E::faer_zero`). -/
def zero : Fr := ⟨0, 1⟩

/-- Multiplicative identity (`E::faer_one`). -/
def one : Fr := ⟨1, 1⟩

/-- Addition (`faer_add`). -/
def add (a b : Fr) : Fr := ⟨a.n * b.d + b.n * a.d, a.d * b.d⟩

/-- Subtraction (`faer_sub`). -/
def sub (a b : Fr) : Fr := ⟨a.n * b.d - b.n * a.d, a.d * b.d⟩

/-- Multiplication (`faer_mul`). -/
def mul (a b : Fr) : Fr := ⟨a.n * b.n, a.d * b.d⟩

/-- Negation (`faer_neg`). -/
def neg (a : Fr) : Fr := ⟨-a.n, a.d⟩

/-- Division (used by the triangular-solve and panel-LU kernels). -/
def div (a b : Fr) : Fr := ⟨a.n * b.d, a.d * b.n⟩

/-- Sum of a list of scalars (the dense kernels' inner accumulation). -/
def sum (l : List Fr) : Fr := l.foldr add zero

/-- Semantic equality of fractions, by cross multiplication. -/
def eqvB (a b : Fr) : Bool := a.n * b.d == b.n * a.d

/-- Semantic equality of lists of fractions. -/
def eqvLB : List Fr → List Fr → Bool
  | [], [] => true
  | a :: as, b :: bs => a.eqvB b && eqvLB as bs
  | _, _ => false

/-- `|a| < |b|`, by cross multiplication of absolute values (the partial
pivoting comparison). -/
def absLtB (a b : Fr) : Bool := (a.n * b.d).natAbs < (b.n * a.d).natAbs

/-- `a = 0` semantically (denominators are kept nonzero by construction). -/
def isZero (a : Fr) : Bool := a.n == 0

/-- The rational value denoted by a fraction. -/
def toQ (a : Fr) : ℚ := (a.n : ℚ) / (a.d : ℚ)

end Fr

/-- Integer-literal fraction. -/
def fr (z : ℤ) : Fr := ⟨z, 1⟩

/-- `faer_core::Conj`: whether the left-hand side of a kernel is to be
conjugated. -/
inductive ConjFlag
  | no
  | yes
deriving DecidableEq, Repr

/-- Error type mirroring `FaerError` (the variants used in `lu.rs`). -/
inductive FaerErr
  | outOfMemory
  | indexOverflow
deriving DecidableEq, Repr

/-- Apply the conjugation function `cj` when the flag says `yes`,
mirroring how `_with_conj` kernels treat their coefficient matrix. -/
def apC (cj : Fr → Fr) : ConjFlag → Fr → Fr
  | .no => fun x => x
  | .yes => cj

/-- Sum `f 0 + f 1 + ... + f (k-1)`, the accumulation performed by the
dense kernels' inner loops. -/
def listSum (k : ℕ) (f : ℕ → Fr) : Fr :=
  Fr.sum ((List.range k).map f)

/-- A dense column-major matrix viewed through its indexing function
(`MatRef`/`MatMut` in `faer_core`): entry `(i, j)` is the value at row `i`,
column `j`; row and column counts are carried separately where a routine
asserts on them. -/
def Matr : Type := ℕ → ℕ → Fr

/-- A dense right-hand side with its shape, mirroring `MatMut` where the
code asserts on `rhs.nrows()`. -/
structure MatQ where
  nrows : ℕ
  ncols : ℕ
  entry : Matr

/-- `faer_core::permutation::PermutationRef`: a forward and an inverse
index array. -/
structure PermPair where
  fwd : List ℕ
  inv : List ℕ
deriving DecidableEq, Repr

/-- `PermutationRef::inverse`: swap the two arrays. -/
def PermPair.inverse (p : PermPair) : PermPair := ⟨p.inv, p.fwd⟩

/-- Modelled from the spec: the external collaborator
`faer_core::permutation::permute_rows` ("Row-permutation applier for dense
matrices (forward and inverse)"), whose source is not under `src/`.  Row
`i` of the result is row `fwd i` of the source, which is exactly the
matrix action of a permutation in the in-source operator facade
(`matrix_ops.rs`, `MatMul<Dense> for Perm`: `out.write(i, j,
rhs.read(fwd[i], j))`, validated there by `test_perm_mul`). -/
def permute_rows (p : PermPair) (x : Matr) : Matr :=
  fun i j => x (p.fwd.getD i 0) j

end FaerLu

namespace FaerLu

/-! ### The stored supernodal factorization (`SupernodalLu<I, E>`) -/

/-- `faer_sparse::lu::supernodal::SupernodalLu`, with `I = ℕ` and the
scalar at `Fr`: per-supernode L-panels (column-major `row_count × s_size`)
and Uᵀ-panels (column-major `col_count × s_size`, read through a transposed
view), all packed into flat arrays addressed by the `*_col_ptr_*` offset
arrays. -/
structure SupernodalLuQ where
  nrows : ℕ
  ncols : ℕ
  nsupernodes : ℕ
  supernode_ptr : List ℕ
  l_col_ptr_for_row_ind : List ℕ
  l_col_ptr_for_val : List ℕ
  l_row_ind : List ℕ
  l_val : List Fr
  ut_col_ptr_for_row_ind : List ℕ
  ut_col_ptr_for_val : List ℕ
  ut_row_ind : List ℕ
  ut_val : List Fr
deriving DecidableEq, Repr

/-- Modelled from the spec: the dense kernel
`solve_unit_lower_triangular_in_place_with_conj` restricted to the rows
`[sb, sb+k)` of `X` (the diagonal block position), by forward substitution
with an implicit unit diagonal.  `L` is indexed from `(0,0)`. -/
def blockUnitLowerSolve (cj : Fr → Fr) (c : ConjFlag) (L : Matr) (sb k : ℕ) (X : Matr) :
    Matr :=
  (List.range k).foldl
    (fun X i => fun r j =>
      if r = sb + i then
        (X (sb + i) j).sub (listSum i (fun p => (apC cj c (L i p)).mul (X (sb + p) j)))
      else X r j)
    X

/-- Modelled from the spec: the dense kernel
`solve_upper_triangular_in_place_with_conj` (non-unit diagonal) on rows
`[sb, sb+k)` of `X`, by backward substitution. -/
def blockUpperSolve (cj : Fr → Fr) (c : ConjFlag) (U : Matr) (sb k : ℕ) (X : Matr) :
    Matr :=
  ((List.range k).reverse).foldl
    (fun X i => fun r j =>
      if r = sb + i then
        ((X (sb + i) j).sub
            (listSum (k - (i + 1))
              (fun q => (apC cj c (U i (i + 1 + q))).mul (X (sb + (i + 1 + q)) j)))).div
          (apC cj c (U i i))
      else X r j)
    X

/-- Modelled from the spec: `solve_unit_upper_triangular_in_place_with_conj`
applied to `L_top.transpose()` on rows `[sb, sb+k)` of `X`: backward
substitution against the transposed unit-lower block. -/
def blockUnitUpperSolveTrans (cj : Fr → Fr) (c : ConjFlag) (L : Matr) (sb k : ℕ)
    (X : Matr) : Matr :=
  ((List.range k).reverse).foldl
    (fun X i => fun r j =>
      if r = sb + i then
        (X (sb + i) j).sub
          (listSum (k - (i + 1))
            (fun q => (apC cj c (L (i + 1 + q) i)).mul (X (sb + (i + 1 + q)) j)))
      else X r j)
    X

/-- Modelled from the spec: `solve_lower_triangular_in_place_with_conj`
applied to `U_left.transpose()` (non-unit) on rows `[sb, sb+k)` of `X`:
forward substitution against the transposed upper block. -/
def blockLowerSolveTrans (cj : Fr → Fr) (c : ConjFlag) (U : Matr) (sb k : ℕ)
    (X : Matr) : Matr :=
  (List.range k).foldl
    (fun X i => fun r j =>
      if r = sb + i then
        ((X (sb + i) j).sub (listSum i (fun p => (apC cj c (U p i)).mul (X (sb + p) j)))).div
          (apC cj c (U i i))
      else X r j)
    X

/-- The scatter-subtract loop `X[i, j] -= work[idx, j]` over an enumerated
index slice, shared by `l_solve` and `u_solve_transpose`. -/
def scatterSub (inds : List ℕ) (work : Matr) (X : Matr) : Matr :=
  inds.enum.foldl
    (fun X pr => fun r j => if r = pr.2 then (X pr.2 j).sub (work pr.1 j) else X r j)
    X

/-- The body of the supernode loop of
`SupernodalLu::l_solve_in_place_with_conj` (forward L-solve). -/
def lSolveStep (lu : SupernodalLuQ) (cj : Fr → Fr) (c : ConjFlag) (X : Matr) (s : ℕ) :
    Matr :=
  let sb := lu.supernode_ptr.getD s 0
  let se := lu.supernode_ptr.getD (s + 1) 0
  let ssize := se - sb
  let roff := lu.l_col_ptr_for_row_ind.getD s 0
  let h := lu.l_col_ptr_for_row_ind.getD (s + 1) 0 - roff
  let voff := lu.l_col_ptr_for_val.getD s 0
  let L : Matr := fun i j => lu.l_val.getD (voff + j * h + i) Fr.zero
  let Lbot : Matr := fun i j => L (ssize + i) j
  let X1 := blockUnitLowerSolve cj c L sb ssize X
  let work : Matr := fun idx j =>
    listSum ssize (fun p => (apC cj c (Lbot idx p)).mul (X1 (sb + p) j))
  let tail := ((lu.l_row_ind.drop roff).take h).drop ssize
  scatterSub tail work X1

/-- `SupernodalLu::l_solve_in_place_with_conj`: supernodes visited in
increasing order `0, 1, ..., S-1`. -/
def l_solve_in_place_with_conj (lu : SupernodalLuQ) (cj : Fr → Fr) (c : ConjFlag)
    (X : Matr) : Matr :=
  (List.range lu.nsupernodes).foldl (lSolveStep lu cj c) X

/-- The body of the supernode loop of
`SupernodalLu::u_solve_in_place_with_conj` (backward U-solve). -/
def uSolveStep (lu : SupernodalLuQ) (cj : Fr → Fr) (c : ConjFlag) (X : Matr) (s : ℕ) :
    Matr :=
  let sb := lu.supernode_ptr.getD s 0
  let se := lu.supernode_ptr.getD (s + 1) 0
  let ssize := se - sb
  let roff := lu.l_col_ptr_for_row_ind.getD s 0
  let h := lu.l_col_ptr_for_row_ind.getD (s + 1) 0 - roff
  let uroff := lu.ut_col_ptr_for_row_ind.getD s 0
  let w := lu.ut_col_ptr_for_row_ind.getD (s + 1) 0 - uroff
  let voff := lu.l_col_ptr_for_val.getD s 0
  let uvoff := lu.ut_col_ptr_for_val.getD s 0
  let L : Matr := fun i j => lu.l_val.getD (voff + j * h + i) Fr.zero
  let Uright : Matr := fun i p => lu.ut_val.getD (uvoff + i * w + p) Fr.zero
  let inds := (lu.ut_row_ind.drop uroff).take w
  let work : Matr := fun idx j => X (inds.getD idx 0) j
  let X1 : Matr := fun r j =>
    if sb ≤ r ∧ r < se then
      (X r j).sub (listSum w (fun p => (apC cj c (Uright (r - sb) p)).mul (work p j)))
    else X r j
  blockUpperSolve cj c L sb ssize X1

/-- `SupernodalLu::u_solve_in_place_with_conj`: supernodes visited in
decreasing order `S-1, ..., 1, 0`. -/
def u_solve_in_place_with_conj (lu : SupernodalLuQ) (cj : Fr → Fr) (c : ConjFlag)
    (X : Matr) : Matr :=
  ((List.range lu.nsupernodes).reverse).foldl (uSolveStep lu cj c) X

/-- The body of the supernode loop of
`SupernodalLu::l_solve_transpose_in_place_with_conj`. -/
def lSolveTransStep (lu : SupernodalLuQ) (cj : Fr → Fr) (c : ConjFlag) (X : Matr)
    (s : ℕ) : Matr :=
  let sb := lu.supernode_ptr.getD s 0
  let se := lu.supernode_ptr.getD (s + 1) 0
  let ssize := se - sb
  let roff := lu.l_col_ptr_for_row_ind.getD s 0
  let h := lu.l_col_ptr_for_row_ind.getD (s + 1) 0 - roff
  let voff := lu.l_col_ptr_for_val.getD s 0
  let L : Matr := fun i j => lu.l_val.getD (voff + j * h + i) Fr.zero
  let Lbot : Matr := fun i j => L (ssize + i) j
  let tail := ((lu.l_row_ind.drop roff).take h).drop ssize
  let work : Matr := fun idx j => X (tail.getD idx 0) j
  let X1 : Matr := fun r j =>
    if sb ≤ r ∧ r < se then
      (X r j).sub
        (listSum (h - ssize) (fun idx => (apC cj c (Lbot idx (r - sb))).mul (work idx j)))
    else X r j
  blockUnitUpperSolveTrans cj c L sb ssize X1

/-- `SupernodalLu::l_solve_transpose_in_place_with_conj`: supernodes
visited in decreasing order, opposite to `l_solve_in_place_with_conj`. -/
def l_solve_transpose_in_place_with_conj (lu : SupernodalLuQ) (cj : Fr → Fr)
    (c : ConjFlag) (X : Matr) : Matr :=
  ((List.range lu.nsupernodes).reverse).foldl (lSolveTransStep lu cj c) X

/-- The body of the supernode loop of
`SupernodalLu::u_solve_transpose_in_place_with_conj`. -/
def uSolveTransStep (lu : SupernodalLuQ) (cj : Fr → Fr) (c : ConjFlag) (X : Matr)
    (s : ℕ) : Matr :=
  let sb := lu.supernode_ptr.getD s 0
  let se := lu.supernode_ptr.getD (s + 1) 0
  let ssize := se - sb
  let roff := lu.l_col_ptr_for_row_ind.getD s 0
  let h := lu.l_col_ptr_for_row_ind.getD (s + 1) 0 - roff
  let uroff := lu.ut_col_ptr_for_row_ind.getD s 0
  let w := lu.ut_col_ptr_for_row_ind.getD (s + 1) 0 - uroff
  let voff := lu.l_col_ptr_for_val.getD s 0
  let uvoff := lu.ut_col_ptr_for_val.getD s 0
  let L : Matr := fun i j => lu.l_val.getD (voff + j * h + i) Fr.zero
  let Uright : Matr := fun i p => lu.ut_val.getD (uvoff + i * w + p) Fr.zero
  let inds := (lu.ut_row_ind.drop uroff).take w
  let X1 := blockLowerSolveTrans cj c L sb ssize X
  let work : Matr := fun p j =>
    listSum ssize (fun i => (apC cj c (Uright i p)).mul (X1 (sb + i) j))
  scatterSub inds work X1

/-- `SupernodalLu::u_solve_transpose_in_place_with_conj`: supernodes
visited in increasing order, opposite to `u_solve_in_place_with_conj`. -/
def u_solve_transpose_in_place_with_conj (lu : SupernodalLuQ) (cj : Fr → Fr)
    (c : ConjFlag) (X : Matr) : Matr :=
  (List.range lu.nsupernodes).foldl (uSolveTransStep lu cj c) X

/-- `SupernodalLu::solve_in_place_with_conj`: assert squareness and the
right-hand-side row count, permute rows by `row_perm` into a temporary,
L-forward-solve, U-back-solve, then permute the temporary's rows by
`col_perm` into the output. -/
def solve_in_place_with_conj (lu : SupernodalLuQ) (row_perm col_perm : PermPair)
    (cj : Fr → Fr) (c : ConjFlag) (rhs : MatQ) : Option MatQ :=
  if lu.nrows = lu.ncols ∧ lu.nrows = rhs.nrows then
    let temp := permute_rows row_perm rhs.entry
    let temp := l_solve_in_place_with_conj lu cj c temp
    let temp := u_solve_in_place_with_conj lu cj c temp
    some ⟨rhs.nrows, rhs.ncols, permute_rows col_perm temp⟩
  else none

/-- `SupernodalLu::solve_transpose_in_place_with_conj`: assert squareness
and the right-hand-side row count, permute rows by `col_perm` into a
temporary, transposed U-solve, transposed L-solve, then permute the
temporary's rows by `row_perm.inverse()` into the output. -/
def solve_transpose_in_place_with_conj (lu : SupernodalLuQ)
    (row_perm col_perm : PermPair) (cj : Fr → Fr) (c : ConjFlag) (rhs : MatQ) :
    Option MatQ :=
  if lu.nrows = lu.ncols ∧ lu.nrows = rhs.nrows then
    let temp := permute_rows col_perm rhs.entry
    let temp := u_solve_transpose_in_place_with_conj lu cj c temp
    let temp := l_solve_transpose_in_place_with_conj lu cj c temp
    some ⟨rhs.nrows, rhs.ncols, permute_rows row_perm.inverse temp⟩
  else none

end FaerLu

namespace FaerLu

/-! ### Concrete instances for the solve entry points -/

/-- A square stored factorization with identity factors: three singleton
supernodes, `L = U = I₃`, empty U-panels. -/
def lu3cyc : SupernodalLuQ where
  nrows := 3
  ncols := 3
  nsupernodes := 3
  supernode_ptr := [0, 1, 2, 3]
  l_col_ptr_for_row_ind := [0, 1, 2, 3]
  l_col_ptr_for_val := [0, 1, 2, 3]
  l_row_ind := [0, 1, 2]
  l_val := [Fr.one, Fr.one, Fr.one]
  ut_col_ptr_for_row_ind := [0, 0, 0, 0]
  ut_col_ptr_for_val := [0, 0, 0, 0]
  ut_row_ind := []
  ut_val := []

/-- The identity row permutation on three rows. -/
def permId3 : PermPair := ⟨[0, 1, 2], [0, 1, 2]⟩

/-- A non-involutive column permutation (a 3-cycle). -/
def permCyc3 : PermPair := ⟨[1, 2, 0], [2, 0, 1]⟩

/-- The unique matrix `A` with `Pr · A · Pc^T = I₃` for `Pr = id` and
`Pc = permCyc3`: column `permCyc3.fwd j` of `A` is `e_j`. -/
def A3 : Matr := fun i j =>
  if i = 0 ∧ j = 1 then Fr.one
  else if i = 1 ∧ j = 2 then Fr.one
  else if i = 2 ∧ j = 0 then Fr.one
  else Fr.zero

/-- A concrete right-hand side `b = (10, 20, 30)ᵀ`. -/
def rhs3 : MatQ :=
  ⟨3, 1, fun i j =>
    if j = 0 then
      (if i = 0 then fr 10 else if i = 1 then fr 20 else if i = 2 then fr 30 else Fr.zero)
    else Fr.zero⟩

/-- Dense matrix-times-matrix used to check `A · x = b` on the samples. -/
def matVecQ (A : Matr) (n : ℕ) (x : Matr) : Matr :=
  fun i j => listSum n (fun k => (A i k).mul (x k j))

/-- First column of a `Matr`, sampled on three rows. -/
def vec3 (x : Matr) : List Fr := [x 0 0, x 1 0, x 2 0]

/-- The composition the claim (and the spec) prescribe for `solve`: permute
rows by `Pr`, L-forward-solve, U-back-solve, then inverse-permute rows by
`Pc⁻¹`. -/
def c1SpecComposition (lu : SupernodalLuQ) (row_perm col_perm : PermPair)
    (cj : Fr → Fr) (c : ConjFlag) (rhs : MatQ) : Matr :=
  permute_rows col_perm.inverse
    (u_solve_in_place_with_conj lu cj c
      (l_solve_in_place_with_conj lu cj c (permute_rows row_perm rhs.entry)))

/-- C1: the final row permutation of `solve_in_place_with_conj` is applied
with the forward array of `col_perm` (computing `Pc · X`), not with its
inverse (`Pc⁻¹ · X`) as the claim states.  At the identity factorization
with `Pr = id` and the 3-cycle `Pc = permCyc3` on `b = (10,20,30)ᵀ`: the
code returns `(20,30,10)ᵀ`, the claimed composition returns `(30,10,20)ᵀ`,
the claimed composition satisfies `A x = b`, and the code's result does
not. -/
theorem C1_solve_exit_perm_uses_forward_col_perm :
    ((solve_in_place_with_conj lu3cyc permId3 permCyc3 (fun x => x) .no rhs3).map
        (fun r => Fr.eqvLB (vec3 r.entry) [fr 20, fr 30, fr 10])) = some true
    ∧ Fr.eqvLB (vec3 (c1SpecComposition lu3cyc permId3 permCyc3 (fun x => x) .no rhs3))
        [fr 30, fr 10, fr 20] = true
    ∧ Fr.eqvLB
        (vec3 (matVecQ A3 3 (c1SpecComposition lu3cyc permId3 permCyc3 (fun x => x) .no rhs3)))
        (vec3 rhs3.entry) = true
    ∧ ((solve_in_place_with_conj lu3cyc permId3 permCyc3 (fun x => x) .no rhs3).map
        (fun r => Fr.eqvLB (vec3 (matVecQ A3 3 r.entry)) (vec3 rhs3.entry))) = some false := by
  refine ⟨?_, ?_, ?_, ?_⟩ <;> decide

/-- C7: `solve_transpose_in_place_with_conj` is exactly: permute rows by
`Pc` (forward array of `col_perm`) on entry, transposed U-solve over
supernodes in increasing order (opposite of the untransposed U-solve),
transposed L-solve over supernodes in decreasing order (opposite of the
untransposed L-solve), then permute rows by `Pr⁻¹` (`row_perm.inverse()`)
on exit. -/
theorem C7_solve_transpose_structure (lu : SupernodalLuQ) (rp cp : PermPair)
    (cj : Fr → Fr) (c : ConjFlag) (rhs : MatQ)
    (hsq : lu.nrows = lu.ncols) (hr : lu.nrows = rhs.nrows) :
    solve_transpose_in_place_with_conj lu rp cp cj c rhs =
      some ⟨rhs.nrows, rhs.ncols,
        permute_rows rp.inverse
          (((List.range lu.nsupernodes).reverse).foldl (lSolveTransStep lu cj c)
            ((List.range lu.nsupernodes).foldl (uSolveTransStep lu cj c)
              (permute_rows cp rhs.entry)))⟩ := by
  unfold solve_transpose_in_place_with_conj
  rw [if_pos ⟨hsq, hr⟩]
  rfl

/-- Witness for C7 at a concrete square factorization and right-hand side. -/
theorem C7_solve_transpose_structure_witness :
    lu3cyc.nrows = lu3cyc.ncols ∧ lu3cyc.nrows = rhs3.nrows ∧
      solve_transpose_in_place_with_conj lu3cyc permId3 permCyc3 (fun x => x) .no rhs3 =
        some ⟨rhs3.nrows, rhs3.ncols,
          permute_rows permId3.inverse
            (((List.range lu3cyc.nsupernodes).reverse).foldl
              (lSolveTransStep lu3cyc (fun x => x) .no)
              ((List.range lu3cyc.nsupernodes).foldl
                (uSolveTransStep lu3cyc (fun x => x) .no)
                (permute_rows permCyc3 rhs3.entry)))⟩ :=
  ⟨by decide, by decide,
    C7_solve_transpose_structure lu3cyc permId3 permCyc3 (fun x => x) .no rhs3
      (by decide) (by decide)⟩

end FaerLu

namespace FaerLu

/-! ### Growable buffers (`resize_index`, `resize_scalar`,
`resize_maybe_uninit_scalar`)

A Rust `Vec` is modelled as a capacity plus its logical contents; the
length is the content-list length.  Allocation success of each
`try_reserve` call is decided by an oracle (one Boolean per unit buffer of
the scalar group, in `faer_map` order).  A state whose content length
exceeds its capacity is an invalidated buffer. -/

/-- A `Vec<E::Unit>`: capacity and contents (`len = content.length`). -/
structure VecB where
  cap : ℕ
  content : List Fr
deriving DecidableEq, Repr

/-- `Vec::try_reserve` / `Vec::try_reserve_exact` with outcome decided by
`ok`: on success capacity grows to cover `len + additional` (exact) or with
amortized doubling (non-exact); on failure the vector is untouched. -/
def tryReserve (ok : Bool) (exact : Bool) (v : VecB) (additional : ℕ) : Option VecB :=
  if ok then
    let needed := v.content.length + additional
    some ⟨if exact then max v.cap needed else max v.cap (max needed (2 * v.cap)), v.content⟩
  else none

/-- The infallible `Vec::resize(max(n, len), zeroed())`: never shrinks,
grows capacity unconditionally when needed (an infallible allocation). -/
def vecResizeZero (v : VecB) (n : ℕ) : VecB :=
  let newLen := max n v.content.length
  ⟨max v.cap newLen, v.content ++ List.replicate (newLen - v.content.length) Fr.zero⟩

/-- `Vec::set_len(n)`: sets the length without touching the capacity; a
grown tail reads uninitialized memory (modelled as zeros).  If `n`
exceeds the capacity the `Vec` invariant is violated. -/
def setLenRaw (v : VecB) (n : ℕ) : VecB :=
  ⟨v.cap, (v.content ++ List.replicate (n - v.content.length) Fr.zero).take n⟩

/-- `faer_sparse::lu::supernodal::resize_scalar`: over the unit buffers of
the group, with a shared `failed` flag; note that the infallible
`v.resize(..)` runs even when the `try_reserve` of the same unit just
failed. -/
def resize_scalar (oracle : ℕ → Bool) (n : ℕ) (exact reserve_only : Bool)
    (v : List VecB) : Except FaerErr Unit × List VecB :=
  let step := fun (st : Bool × List VecB) (pr : ℕ × VecB) =>
    let failed := st.1
    if failed then (failed, st.2 ++ [pr.2])
    else
      let res := tryReserve (oracle pr.1) exact pr.2 (n - pr.2.content.length)
      let failed1 := res.isNone
      let u1 := res.getD pr.2
      let u2 := if !reserve_only then vecResizeZero u1 n else u1
      (failed1, st.2 ++ [u2])
  let out := (v.enum).foldl step (false, [])
  (if out.1 then .error .outOfMemory else .ok (), out.2)

/-- `faer_sparse::lu::supernodal::resize_maybe_uninit_scalar`: like
`resize_scalar` but with `set_len(n)` in place of the zero-filling resize;
`set_len` runs even when the `try_reserve` of the same unit just failed. -/
def resize_maybe_uninit_scalar (oracle : ℕ → Bool) (n : ℕ)
    (v : List VecB) : Except FaerErr Unit × List VecB :=
  let step := fun (st : Bool × List VecB) (pr : ℕ × VecB) =>
    let failed := st.1
    if failed then (failed, st.2 ++ [pr.2])
    else
      let res := tryReserve (oracle pr.1) false pr.2 (n - pr.2.content.length)
      let failed1 := res.isNone
      let u1 := res.getD pr.2
      (failed1, st.2 ++ [setLenRaw u1 n])
  let out := (v.enum).foldl step (false, [])
  (if out.1 then .error .outOfMemory else .ok (), out.2)

/-- `faer_sparse::lu::supernodal::resize_index`: reserve with an early
`?`-return on failure, then (unless `reserve_only`) the zero-filling
resize. -/
def resize_index (ok : Bool) (n : ℕ) (exact reserve_only : Bool) (v : VecB) :
    Except FaerErr Unit × VecB :=
  match tryReserve ok exact v (n - v.content.length) with
  | none => (.error .outOfMemory, v)
  | some v1 => (.ok (), if !reserve_only then vecResizeZero v1 n else v1)

instance {ε α : Type} [DecidableEq ε] [DecidableEq α] : DecidableEq (Except ε α) :=
  fun x y =>
    match x, y with
    | .ok a, .ok b => if h : a = b then isTrue (by rw [h]) else isFalse (by simp [h])
    | .error a, .error b => if h : a = b then isTrue (by rw [h]) else isFalse (by simp [h])
    | .ok _, .error _ => isFalse (by simp)
    | .error _, .ok _ => isFalse (by simp)

/-- C8: on allocation failure the resizes do return `Err(OutOfMemory)`,
but `resize_maybe_uninit_scalar` still runs `set_len(n)` — the buffer's
length changes from 0 to 1 and exceeds the capacity (an invalidated
`Vec`) — and `resize_scalar` still runs the infallible `Vec::resize`
after the failed reservation — contents and capacity change.  Only
`resize_index` leaves the buffer untouched on failure. -/
theorem C8_resize_mutates_buffer_on_failed_reservation :
    resize_maybe_uninit_scalar (fun _ => false) 1 [⟨0, []⟩] =
        (.error .outOfMemory, [⟨0, [Fr.zero]⟩])
    ∧ (resize_maybe_uninit_scalar (fun _ => false) 1 [⟨0, []⟩]).2.all
        (fun u => u.cap < u.content.length) = true
    ∧ resize_scalar (fun _ => false) 5 false false [⟨0, []⟩] =
        (.error .outOfMemory, [⟨5, List.replicate 5 Fr.zero⟩])
    ∧ resize_index false 5 false false ⟨0, []⟩ = (.error .outOfMemory, ⟨0, []⟩) := by
  refine ⟨?_, ?_, ?_, ?_⟩ <;> decide

end FaerLu


namespace FaerLu

/-! ### Inputs of the numeric factorization -/

/-- `SparseColMatRef<I, E>`: compressed sparse column storage. -/
structure SparseQ where
  nrows : ℕ
  ncols : ℕ
  colPtr : List ℕ
  rowInd : List ℕ
  val : List Fr
deriving DecidableEq, Repr

namespace SparseQ

/-- `row_indices_of_col_raw(c)`. -/
def rowIndicesOfCol (A : SparseQ) (c : ℕ) : List ℕ :=
  let lo := A.colPtr.getD c 0
  let hi := A.colPtr.getD (c + 1) 0
  (A.rowInd.drop lo).take (hi - lo)

/-- `values_of_col(c)`. -/
def valuesOfCol (A : SparseQ) (c : ℕ) : List Fr :=
  let lo := A.colPtr.getD c 0
  let hi := A.colPtr.getD (c + 1) 0
  (A.val.drop lo).take (hi - lo)

/-- The zipped iteration `zip(row_ind, val)` of one column. -/
def entriesOfCol (A : SparseQ) (c : ℕ) : List (ℕ × Fr) :=
  (A.rowIndicesOfCol c).zip (A.valuesOfCol c)

/-- `compute_nnz()`: the number of stored entries, as the sum of the
column lengths (the quantity the scatter loops traverse). -/
def computeNnz (A : SparseQ) : ℕ :=
  ((List.range A.ncols).map (fun c => (A.rowIndicesOfCol c).length)).sum

end SparseQ

/-- `faer_sparse::lu::supernodal::SymbolicSupernodalLu` (with `NONE`
rendered as `Option`); the numeric phase reads `super_etree` only for its
length (`n_supernodes`). -/
structure SymbolicLuQ where
  supernode_ptr : List ℕ
  super_etree : List (Option ℕ)
  supernode_postorder : List ℕ
  supernode_postorder_inv : List ℕ
  descendant_count : List ℕ
deriving DecidableEq, Repr

/-- The `assert!` sites of `factorize_supernodal_numeric_lu` that the
embedding models as failures (a fired assert aborts the call). -/
inductive AssertSite
  | entryArgs
  | leftoverL
  | leftoverU
  | leftoverEnd
  | activeTakenL
  | activeCountL
  | activeTakenU
  | activeCountU
  | rgtlCheck
deriving DecidableEq, Repr

/-- `faer_sparse::lu::supernodal::LuError`. -/
inductive LuErr
  | generic (e : FaerErr)
  | symbolicSingular (k : ℕ)
deriving DecidableEq, Repr

/-- Outcomes of the embedded factorization: a returned `LuError`, or a
fired `assert!`. -/
inductive EmbErr
  | luErr (e : LuErr)
  | assertFail (s : AssertSite)
deriving DecidableEq, Repr

/-! ### First-order array helpers

Arrays and dense scratch matrices are plain lists.  A column-major
`h × k` matrix is a flat list read by `mget h m i j = m[j*h + i]`
(mirroring `from_column_major_slice(_, h, k)`); `MatU8` is a flat Boolean
list read by `bget h m i j = m[i + j*h]`. -/

/-- `slice::swap` on a list, with an explicit out-of-range default. -/
def swapLD {α : Type} (dflt : α) (l : List α) (a b : ℕ) : List α :=
  (l.set a (l.getD b dflt)).set b (l.getD a dflt)

/-- Column-major read of an `h`-row matrix. -/
def mget (h : ℕ) (m : List Fr) (i j : ℕ) : Fr := m.getD (j * h + i) Fr.zero

/-- Column-major write of an `h`-row matrix. -/
def mset (h : ℕ) (m : List Fr) (i j : ℕ) (v : Fr) : List Fr := m.set (j * h + i) v

/-- `MatU8` read (`data[row + col * nrows]`, `1` rendered as `true`). -/
def bget (h : ℕ) (m : List Bool) (i j : ℕ) : Bool := m.getD (i + j * h) false

/-- `MatU8` write. -/
def bset (h : ℕ) (m : List Bool) (i j : ℕ) (v : Bool) : List Bool := m.set (i + j * h) v

/-- The U-panel is stored as the raw column-major `(w × s_size)` block
that is read through a transposed view: logical entry `(i, p)` (`i` a
supernode column, `p` a local U-column) lives at flat index `i * w + p`. -/
def uget (w : ℕ) (m : List Fr) (i p : ℕ) : Fr := m.getD (i * w + p) Fr.zero

/-- Transposed-view write of the U-panel. -/
def uset (w : ℕ) (m : List Fr) (i p : ℕ) (v : Fr) : List Fr := m.set (i * w + p) v

/-- Modelled from the spec: `slice::partition_point(partition_fn(c))` from
`crate::cholesky::supernodal` (not under `src/`); per the spec it is the
binary search for the partition point "by `≤ c-1`", i.e. the number of
leading entries `< c`. -/
def partPoint (c : ℕ) (l : List ℕ) : ℕ :=
  (l.takeWhile (fun x => decide (x < c))).length

/-! ### The contribution block registry -/

/-- One entry of `contrib_work`: the `(values, d_active, d_active_count,
d_active_mat)` tuple of a supernode's contribution block, together with
the `MatU8` row count.  `work_is_empty` is the values list being empty;
the value matrix is addressed column-major with `d_row_ind.len()` rows at
its use sites. -/
structure Contrib where
  vals : List Fr
  active : List ℕ
  activeCount : ℕ
  mat : List Bool
  matRows : ℕ
deriving DecidableEq, Repr

/-- The initial / freed block: `(Vec::new(), Vec::new(), 0, MatU8::new(0,0))`. -/
def Contrib.empty : Contrib := ⟨[], [], 0, [], 0⟩

/-! ### The mutable state of the numeric factorization -/

/-- The state threaded through the supernode loop of
`factorize_supernodal_numeric_lu`: the row permutation pair, the scratch
arrays (`marked`, `row_global_to_local`, `col_global_to_local`), the
growing output arrays of `lu`, the contribution-block registry and the
`A_leftover` counter. -/
structure NumState where
  rp : List ℕ
  rpi : List ℕ
  marked : List ℕ
  rgtl : List (Option ℕ)
  cgtl : List (Option ℕ)
  lPtrR : List ℕ
  lPtrV : List ℕ
  lRow : List ℕ
  lVal : List Fr
  uPtrR : List ℕ
  uPtrV : List ℕ
  uRow : List ℕ
  uVal : List Fr
  contrib : List Contrib
  leftover : ℕ
deriving DecidableEq, Repr

/-- The read-only inputs of the numeric factorization: the overflow bound
`I::Signed::MAX`, the matrix, its transpose, the column permutation and
the symbolic structure. -/
structure FactCtx where
  imax : ℕ
  A : SparseQ
  AT : SparseQ
  colPerm : PermPair
  symb : SymbolicLuQ
deriving DecidableEq, Repr

namespace FactCtx

/-- `m = A.nrows()`. -/
def m (ctx : FactCtx) : ℕ := ctx.A.nrows

/-- `n = A.ncols()`. -/
def n (ctx : FactCtx) : ℕ := ctx.A.ncols

/-- `n_supernodes = super_etree.len()`. -/
def S (ctx : FactCtx) : ℕ := ctx.symb.super_etree.length

/-- Forward column permutation (`col_perm[j]`). -/
def pc (ctx : FactCtx) (j : ℕ) : ℕ := ctx.colPerm.fwd.getD j 0

/-- Inverse column permutation (`col_perm_inv[j]`). -/
def pcInv (ctx : FactCtx) (j : ℕ) : ℕ := ctx.colPerm.inv.getD j 0

/-- `supernode_ptr[s]`. -/
def sptr (ctx : FactCtx) (s : ℕ) : ℕ := ctx.symb.supernode_ptr.getD s 0

/-- The postorder window
`supernode_postorder[s_postordered - desc_count .. s_postordered]`
enumerating the proper descendants of `s`. -/
def descWindow (ctx : FactCtx) (s : ℕ) : List ℕ :=
  let spost := ctx.symb.supernode_postorder_inv.getD s 0
  let dc := ctx.symb.descendant_count.getD s 0
  (ctx.symb.supernode_postorder.drop (spost - dc)).take dc

end FactCtx

/-- The subdiagonal row indices of descendant `d`'s L-panel
(`l_row_ind[l_col_ptr_for_row_ind[d]..l_col_ptr_for_row_ind[d+1]][d_size..]`). -/
def dRowIndOf (ctx : FactCtx) (st : NumState) (d : ℕ) : List ℕ :=
  let lo := st.lPtrR.getD d 0
  let hi := st.lPtrR.getD (d + 1) 0
  let dsz := ctx.sptr (d + 1) - ctx.sptr d
  ((st.lRow.drop lo).take (hi - lo)).drop dsz

/-- The U-column indices of descendant `d`
(`ut_row_ind[ut_col_ptr_for_row_ind[d]..ut_col_ptr_for_row_ind[d+1]]`). -/
def dColIndOf (st : NumState) (d : ℕ) : List ℕ :=
  let lo := st.uPtrR.getD d 0
  let hi := st.uPtrR.getD (d + 1) 0
  (st.uRow.drop lo).take (hi - lo)

end FaerLu

namespace FaerLu

/-! ### Structure-collection phases -/

/-- The marker-guarded insertion `if marked[item] < mark { push item; mark
it }` shared by the L-row and U-column collection loops.  The accumulator
is `(collected indices, marked)`. -/
def markAdd (mark item : ℕ) (acc : List ℕ × List ℕ) : List ℕ × List ℕ :=
  if acc.2.getD item 0 < mark then (acc.1 ++ [item], acc.2.set item mark) else acc

/-- L-panel row collection for supernode `s` (marker pass `2s+1`, lines
794–841): rows of `A[:, Pc[j]]` for `j ∈ [sb, se)` that are not yet
eliminated (`Pr_inv[i] ≥ sb`), then the unabsorbed subdiagonal rows of
each descendant in the postorder window whose U-column set meets
`[sb, se)`.  Returns the collected (unsorted) rows and the updated
markers. -/
def collectLRows (ctx : FactCtx) (st : NumState) (s : ℕ) : List ℕ × List ℕ :=
  let sb := ctx.sptr s
  let se := ctx.sptr (s + 1)
  let mk := 2 * s + 1
  let acc0 := (List.range' sb (se - sb)).foldl
    (fun acc j =>
      (ctx.A.rowIndicesOfCol (ctx.pc j)).foldl
        (fun acc i => if st.rpi.getD i 0 < sb then acc else markAdd mk i acc) acc)
    ([], st.marked)
  (ctx.descWindow s).foldl
    (fun acc d =>
      let dRow := dRowIndOf ctx st d
      let dCol := dColIndOf st d
      let start := partPoint sb dCol
      if start < dCol.length ∧ dCol.getD start 0 < se then
        dRow.foldl (fun acc i => if st.rpi.getD i 0 < sb then acc else markAdd mk i acc) acc
      else acc)
    acc0

/-- U-panel column collection for supernode `s` (marker pass `2s+2`, lines
996–1041), performed after pivoting: columns of `A^T[:, Pr[i]]` for the
pivoted rows `i ∈ [sb, se)` with `Pc_inv[j] ≥ se`, then the tail (beyond
`se`) of each descendant's U-column set when the descendant has an
unabsorbed subdiagonal row pivoted into `[sb, se)`. -/
def collectUCols (ctx : FactCtx) (st : NumState) (rp rpi : List ℕ) (marked : List ℕ)
    (s : ℕ) : List ℕ × List ℕ :=
  let sb := ctx.sptr s
  let se := ctx.sptr (s + 1)
  let mk := 2 * s + 2
  let acc0 := (List.range' sb (se - sb)).foldl
    (fun acc i =>
      (ctx.AT.rowIndicesOfCol (rp.getD i 0)).foldl
        (fun acc j =>
          let pj := ctx.pcInv j
          if pj < se then acc else markAdd mk pj acc)
        acc)
    ([], marked)
  (ctx.descWindow s).foldl
    (fun acc d =>
      let dRow := dRowIndOf ctx st d
      let dCol := dColIndOf st d
      if dRow.any (fun i => decide (sb ≤ rpi.getD i 0) && decide (rpi.getD i 0 < se)) then
        (dCol.drop (partPoint se dCol)).foldl (fun acc j => markAdd mk j acc) acc
      else acc)
    acc0

/-! ### Scatter phases (with the `A_leftover` asserts) -/

/-- Scatter of `A` into the zeroed L-panel (lines 882–897): for
`j ∈ [sb, se)` iterate the entries of `A[:, Pc[j]]`; entries of
already-eliminated rows are skipped; each placement asserts
`A_leftover > 0` and decrements it.  The panel has `h` rows. -/
def scatterLPanel (ctx : FactCtx) (rpi : List ℕ) (rgtl : List (Option ℕ)) (sb se h : ℕ)
    (sL : List Fr) (leftover : ℕ) : Except EmbErr (List Fr × ℕ) :=
  (List.range' sb (se - sb)).foldlM
    (fun acc j =>
      (ctx.A.entriesOfCol (ctx.pc j)).foldlM
        (fun (acc : List Fr × ℕ) pr => do
          if rpi.getD pr.1 0 < sb then pure acc
          else do
            if acc.2 = 0 then throw (.assertFail .leftoverL)
            pure (mset h acc.1 ((rgtl.getD pr.1 none).getD 0) (j - sb) pr.2, acc.2 - 1))
        acc)
    (sL, leftover)

/-- Scatter of `A^T` into the zeroed U-panel (lines 1081–1096): for the
pivoted rows `i ∈ [sb, se)` iterate the entries of `A^T[:, Pr[i]]`;
entries with `Pc_inv[j] < se` are skipped; each placement asserts
`A_leftover > 0` and decrements it.  The panel has `w` local columns. -/
def scatterUPanel (ctx : FactCtx) (rp : List ℕ) (cgtl : List (Option ℕ)) (sb se w : ℕ)
    (sU : List Fr) (leftover : ℕ) : Except EmbErr (List Fr × ℕ) :=
  (List.range' sb (se - sb)).foldlM
    (fun acc i =>
      (ctx.AT.entriesOfCol (rp.getD i 0)).foldlM
        (fun (acc : List Fr × ℕ) pr => do
          let pj := ctx.pcInv pr.1
          if pj < se then pure acc
          else do
            if acc.2 = 0 then throw (.assertFail .leftoverU)
            pure (uset w acc.1 (i - sb) ((cgtl.getD pj none).getD 0) pr.2, acc.2 - 1))
        acc)
    (sU, leftover)

end FaerLu

namespace FaerLu

/-! ### Absorption passes over descendant contribution blocks -/

/-- The inner cell-transfer loop shared in shape by the `LPanel` and
`UPanel` passes: fold over the enumerated descendant rows, transferring
(subtracting into the target panel at `(tgtRow i, sj)` and zeroing the
source at `(d_i, gcol)`) the cells whose row passes `keep`, and
accumulating `taken_rows` from the byte matrix.  The descendant value
matrix is column-major with `d_row_ind.len()` rows; the target is
accessed through the supplied getter/setter.  State: (target, descendant
values, byte matrix, taken). -/
def absorbCells (keep : ℕ → Bool) (dRow : List ℕ) (tgtRow : ℕ → ℕ) (sj gcol : ℕ)
    (tgtGet : List Fr → ℕ → ℕ → Fr) (tgtSet : List Fr → ℕ → ℕ → Fr → List Fr)
    (tgt vals : List Fr) (mat : List Bool) (matRows : ℕ) :
    List Fr × List Fr × List Bool × ℕ :=
  dRow.enum.foldl
    (fun (acc : List Fr × List Fr × List Bool × ℕ) qr =>
      let di := qr.1
      let i := qr.2
      if keep i then
        let si := tgtRow i
        let tgt1 := tgtSet acc.1 si sj
          ((tgtGet acc.1 si sj).sub (mget dRow.length acc.2.1 di gcol))
        let vals1 := mset dRow.length acc.2.1 di gcol Fr.zero
        let taken1 := acc.2.2.2 + (if bget matRows acc.2.2.1 di gcol then 1 else 0)
        let mat1 := bset matRows acc.2.2.1 di gcol false
        (tgt1, vals1, mat1, taken1)
      else acc)
    (tgt, vals, mat, 0)

/-- The `LPanel` absorption pass (lines 899–968): for each descendant in
the postorder window with a live block whose U-column set meets
`[sb, se)`, transfer the owed cells of the columns in `[sb, se)` whose
row is not yet eliminated, with the `d_active`/`d_active_count` asserts,
and free the block when its active count reaches zero.  The target is the
`h`-row L-panel. -/
def lPanelPass (ctx : FactCtx) (st : NumState) (rgtl : List (Option ℕ)) (s h : ℕ)
    (sL : List Fr) : Except EmbErr (List Fr × List Contrib) :=
  let sb := ctx.sptr s
  let se := ctx.sptr (s + 1)
  (ctx.descWindow s).foldlM
    (fun (acc : List Fr × List Contrib) d => do
      let blk := acc.2.getD d Contrib.empty
      if blk.vals.isEmpty then pure acc
      else
        let dRow := dRowIndOf ctx st d
        let dCol := dColIndOf st d
        let start := partPoint sb dCol
        if start < dCol.length ∧ dCol.getD start 0 < se then do
          let mid := start + partPoint se (dCol.drop start)
          let res ← (((dCol.drop start).take (mid - start)).enum).foldlM
            (fun (acc2 : List Fr × Contrib) pr => do
              let dj := pr.1
              let j := pr.2
              let blk := acc2.2
              if blk.active.getD (start + dj) 0 > 0 then do
                let cells := absorbCells (fun i => decide (sb ≤ st.rpi.getD i 0)) dRow
                  (fun i => (rgtl.getD i none).getD 0) (j - sb) (start + dj)
                  (mget h) (mset h) acc2.1 blk.vals blk.mat blk.matRows
                let taken := cells.2.2.2
                if blk.active.getD (start + dj) 0 < taken then
                  throw (.assertFail .activeTakenL)
                let active1 := blk.active.set (start + dj) (blk.active.getD (start + dj) 0 - taken)
                let blk1 : Contrib := ⟨cells.2.1, active1, blk.activeCount, cells.2.2.1, blk.matRows⟩
                if active1.getD (start + dj) 0 = 0 then do
                  if blk1.activeCount = 0 then throw (.assertFail .activeCountL)
                  pure (cells.1, { blk1 with activeCount := blk1.activeCount - 1 })
                else pure (cells.1, blk1)
              else pure acc2)
            (acc.1, blk)
          let blkF := if res.2.activeCount = 0 then Contrib.empty else res.2
          pure (res.1, acc.2.set d blkF)
        else pure acc)
    (sL, st.contrib)

/-- The `UPanel` absorption pass (lines 1098–1168): for each descendant in
the postorder window with a live block contributing to U (an unabsorbed
subdiagonal row pivoted into `[sb, se)`), transfer the owed cells of the
columns beyond `se` whose row is pivoted into `[sb, se)`, with the
`d_active`/`d_active_count` asserts, and free the block when its active
count reaches zero.  The target is the U-panel with `w` local columns. -/
def uPanelPass (ctx : FactCtx) (st : NumState) (rpi : List ℕ) (rgtl cgtl : List (Option ℕ))
    (s w : ℕ) (sU : List Fr) (contrib : List Contrib) :
    Except EmbErr (List Fr × List Contrib) :=
  let sb := ctx.sptr s
  let se := ctx.sptr (s + 1)
  (ctx.descWindow s).foldlM
    (fun (acc : List Fr × List Contrib) d => do
      let blk := acc.2.getD d Contrib.empty
      if blk.vals.isEmpty then pure acc
      else
        let dRow := dRowIndOf ctx st d
        let dCol := dColIndOf st d
        if dRow.any (fun i => decide (sb ≤ rpi.getD i 0) && decide (rpi.getD i 0 < se)) then do
          let start := partPoint se dCol
          let res ← ((dCol.drop start).enum).foldlM
            (fun (acc2 : List Fr × Contrib) pr => do
              let dj := pr.1
              let j := pr.2
              let blk := acc2.2
              if blk.active.getD (start + dj) 0 > 0 then do
                let cells := absorbCells
                  (fun i => decide (sb ≤ rpi.getD i 0) && decide (rpi.getD i 0 < se)) dRow
                  (fun i => (rgtl.getD i none).getD 0) ((cgtl.getD j none).getD 0) (start + dj)
                  (uget w) (uset w) acc2.1 blk.vals blk.mat blk.matRows
                let taken := cells.2.2.2
                if blk.active.getD (start + dj) 0 < taken then
                  throw (.assertFail .activeTakenU)
                let active1 := blk.active.set (start + dj) (blk.active.getD (start + dj) 0 - taken)
                let blk1 : Contrib := ⟨cells.2.1, active1, blk.activeCount, cells.2.2.1, blk.matRows⟩
                if active1.getD (start + dj) 0 = 0 then do
                  if blk1.activeCount = 0 then throw (.assertFail .activeCountU)
                  pure (cells.1, { blk1 with activeCount := blk1.activeCount - 1 })
                else pure (cells.1, blk1)
              else pure acc2)
            (acc.1, blk)
          let blkF := if res.2.activeCount = 0 then Contrib.empty else res.2
          pure (res.1, acc.2.set d blkF)
        else pure acc)
    (sU, contrib)

/-- The `Front` absorption pass (lines 1203–1302): fold residual updates
of the descendants into the freshly computed Schur-complement block (of
`h - s_size` rows).  The active-row list (rows pivoted at or beyond `se`
with a live local index) is computed once per descendant, exactly as the
`first_iter` lazy initialization does (its inputs do not change during
the pass); a cell is transferred only when its byte-matrix entry is still
set; a column whose global column has no local index is skipped without
accounting; the active-count decrement here carries no assert. -/
def frontPass (ctx : FactCtx) (st : NumState) (rpi : List ℕ) (rgtl cgtl : List (Option ℕ))
    (s ssize h : ℕ) (sLU : List Fr) (contrib : List Contrib) : List Fr × List Contrib :=
  let se := ctx.sptr (s + 1)
  (ctx.descWindow s).foldl
    (fun (acc : List Fr × List Contrib) d =>
      let blk := acc.2.getD d Contrib.empty
      if blk.vals.isEmpty then acc
      else
        let dRow := dRowIndOf ctx st d
        let dCol := dColIndOf st d
        if dRow.any (fun i => decide (se ≤ rpi.getD i 0)) then
          let start := partPoint se dCol
          let activeRows :=
            (dRow.enum.filter
              (fun qr => decide (se ≤ rpi.getD qr.2 0) && (rgtl.getD qr.2 none).isSome)).map
              (fun qr => qr.1)
          let res := ((dCol.drop start).enum).foldl
            (fun (acc2 : List Fr × Contrib) pr =>
              let dj := pr.1
              let j := pr.2
              let blk := acc2.2
              if blk.active.getD (start + dj) 0 > 0 then
                match cgtl.getD j none with
                | none => acc2
                | some sj =>
                  let cells := activeRows.foldl
                    (fun (acc3 : List Fr × List Fr × List Bool × ℕ) di =>
                      if bget blk.matRows acc3.2.2.1 di (start + dj) = false then acc3
                      else
                        let i := dRow.getD di 0
                        let si := (rgtl.getD i none).getD 0 - ssize
                        let tgt1 := mset (h - ssize) acc3.1 si sj
                          ((mget (h - ssize) acc3.1 si sj).add
                            (mget dRow.length acc3.2.1 di (start + dj)))
                        let vals1 := mset dRow.length acc3.2.1 di (start + dj) Fr.zero
                        let mat1 := bset blk.matRows acc3.2.2.1 di (start + dj) false
                        (tgt1, vals1, mat1, acc3.2.2.2 + 1))
                    (acc2.1, blk.vals, blk.mat, 0)
                  let taken := cells.2.2.2
                  let active1 :=
                    blk.active.set (start + dj) (blk.active.getD (start + dj) 0 - taken)
                  let count1 :=
                    if active1.getD (start + dj) 0 = 0 then blk.activeCount - 1
                    else blk.activeCount
                  (cells.1, ⟨cells.2.1, active1, count1, cells.2.2.1, blk.matRows⟩)
              else acc2)
            (acc.1, blk)
          let blkF := if res.2.activeCount = 0 then Contrib.empty else res.2
          (res.1, acc.2.set d blkF)
        else acc)
    (sLU, contrib)

end FaerLu

namespace FaerLu

/-! ### Panel LU with partial pivoting, and the pivot bookkeeping -/

/-- The row in `[kk, h)` carrying the largest-magnitude candidate pivot of
column `kk` (the first such row). -/
def pivotRow (h : ℕ) (M : List Fr) (kk : ℕ) : ℕ :=
  (List.range' (kk + 1) (h - (kk + 1))).foldl
    (fun best i => if Fr.absLtB (mget h M best kk) (mget h M i kk) then i else best) kk

/-- Modelled from the spec: the external dense kernel
`faer_lu::partial_pivoting::compute::lu_in_place_impl` on an `h × k`
column-major panel (`h ≥ k`): for each column, select the
largest-magnitude pivot at or below the diagonal, record the
transposition offset `t[kk] = pivot - kk`, swap the two full rows, then
divide the subdiagonal of the column by the pivot and update the trailing
submatrix (a zero pivot column performs no elimination).  Returns the
panel holding `L` (unit diagonal implicit) below and `U` above, and the
transposition vector. -/
def luPanelKernel (h k : ℕ) (M : List Fr) : List Fr × List ℕ :=
  (List.range k).foldl
    (fun (acc : List Fr × List ℕ) kk =>
      let M := acc.1
      let p := pivotRow h M kk
      let M1 := (List.range k).foldl (fun M c => swapLD Fr.zero M (c * h + kk) (c * h + p)) M
      let piv := mget h M1 kk kk
      let M2 :=
        if piv.isZero then M1
        else
          (List.range' (kk + 1) (h - (kk + 1))).foldl
            (fun M r => mset h M r kk ((mget h M r kk).div piv)) M1
      let M3 :=
        if piv.isZero then M2
        else
          (List.range' (kk + 1) (k - (kk + 1))).foldl
            (fun M c =>
              (List.range' (kk + 1) (h - (kk + 1))).foldl
                (fun M r =>
                  mset h M r c ((mget h M r c).sub ((mget h M r kk).mul (mget h M kk c))))
                M)
            M2
      (M3, acc.2 ++ [p - kk]))
    (M, [])

/-- The forward transposition walk (lines 982–988): for each `(idx, t)`,
with `i_t = s_row_indices[idx + t]` and `kk = row_perm_inv[i_t]`, swap
positions `s_begin + idx` and `kk` of `row_perm`, swap values
`row_perm[s_begin + idx]` and `row_perm[kk]` (after the first swap) of
`row_perm_inv`, and swap slots `idx` and `idx + t` of the supernode's row
slice.  Returns the updated `(row_perm, row_perm_inv)` and row slice. -/
def applyTranspositions (sb : ℕ) (t chunk : List ℕ) (rp rpi : List ℕ) :
    (List ℕ × List ℕ) × List ℕ :=
  t.enum.foldl
    (fun (acc : (List ℕ × List ℕ) × List ℕ) pr =>
      let idx := pr.1
      let tv := pr.2
      let rp := acc.1.1
      let rpi := acc.1.2
      let ch := acc.2
      let it := ch.getD (idx + tv) 0
      let kk := rpi.getD it 0
      let rp1 := swapLD 0 rp (sb + idx) kk
      let rpi1 := swapLD 0 rpi (rp1.getD (sb + idx) 0) (rp1.getD kk 0)
      ((rp1, rpi1), swapLD 0 ch idx (idx + tv)))
    ((rp, rpi), chunk)

/-- The reverse walk (lines 989–991) fixing `row_global_to_local` through
the transpositions, reading the already fully swapped row slice. -/
def applyTransRgtl (t chunkF : List ℕ) (rgtl : List (Option ℕ)) : List (Option ℕ) :=
  (t.enum.reverse).foldl
    (fun f pr => swapLD none f (chunkF.getD pr.1 0) (chunkF.getD (pr.1 + pr.2) 0)) rgtl

/-- The consistency assert loop (lines 992–994):
`row_global_to_local[s_row_indices[idx]] == idx` for every slot. -/
def rgtlConsistent (rgtl : List (Option ℕ)) (chunk : List ℕ) : Bool :=
  chunk.enum.all (fun pr => rgtl.getD pr.2 none == some pr.1)

/-- Modelled from the spec: the dense kernel
`solve_unit_lower_triangular_in_place` (no conjugation) solving
`L_top · X = X` in place, where `L_top` is the top `k × k` of the `h`-row
L-panel and `X` is the U-panel in its transposed view (`k` rows, `w`
local columns), by forward substitution with an implicit unit diagonal. -/
def panelUnitLowerSolve (h k w : ℕ) (L X : List Fr) : List Fr :=
  (List.range k).foldl
    (fun X i =>
      (List.range w).foldl
        (fun X cc =>
          uset w X i cc
            ((uget w X i cc).sub (listSum i (fun p => (mget h L i p).mul (uget w X p cc)))))
        X)
    X

end FaerLu

namespace FaerLu

/-! ### The supernode loop body and the driver -/

/-- Steps 1175–1303: when the supernode has subdiagonal rows and a
nonempty U-column set, allocate its contribution block
(`d_active[j] = h - s_size` for all `j`, `d_active_count = w`,
`d_active_mat ≡ 1`), fill it with the Schur complement
`L_bot · U` by one matmul, and run the `Front` absorption pass over the
descendants; otherwise leave the registry unchanged. -/
def schurFront (ctx : FactCtx) (st : NumState) (rpi1 : List ℕ)
    (rgtl2 cgtl1 : List (Option ℕ)) (s ssize h w : ℕ) (kerM sU2 : List Fr)
    (contrib : List Contrib) : List Contrib :=
  if ssize < h ∧ 0 < w then
    let vals0 := (List.range w).flatMap
      (fun dj => (List.range (h - ssize)).map
        (fun di => listSum ssize (fun p => (mget h kerM (ssize + di) p).mul (uget w sU2 p dj))))
    let nb : Contrib :=
      ⟨vals0, List.replicate w (h - ssize), w, List.replicate ((h - ssize) * w) true,
        h - ssize⟩
    let fp := frontPass ctx st rpi1 rgtl2 cgtl1 s ssize h vals0 (contrib.set s nb)
    fp.2.set s ⟨fp.1, nb.active, nb.activeCount, nb.mat, nb.matRows⟩
  else contrib

/-- The body of the supernode loop of `factorize_supernodal_numeric_lu`
(lines 783–1311), in source order: L-row collection, checked pointer
updates, sort, local row map, zeroed panel and `A`-scatter, `LPanel`
absorption, symbolic-singularity check, panel LU, transposition
bookkeeping with its consistency assert, U-column collection, checked
pointer updates, sort, local column map, zeroed panel and `A^T`-scatter,
`UPanel` absorption, the triangular solve for U, the Schur-complement
front with the `Front` absorption pass, cleanup of the local maps, and
the append of the supernode's slices. -/
def processSupernode (ctx : FactCtx) (st : NumState) (s : ℕ) : Except EmbErr NumState := do
  let sb := ctx.sptr s
  let se := ctx.sptr (s + 1)
  let ssize := se - sb
  let colL := collectLRows ctx st s
  let h := colL.1.length
  let lR := st.lPtrR.getD s 0 + h
  if ctx.imax < lR then throw (.luErr (.generic .indexOverflow))
  let lV := st.lPtrV.getD s 0 + h * ssize
  if ctx.imax < lV then throw (.luErr (.generic .indexOverflow))
  let chunk0 := List.insertionSort (· ≤ ·) colL.1
  let rgtl1 := chunk0.enum.foldl (fun f pr => f.set pr.2 (some pr.1)) st.rgtl
  let scatL ← scatterLPanel ctx st.rpi rgtl1 sb se h
    (List.replicate (h * ssize) Fr.zero) st.leftover
  let absL ← lPanelPass ctx st rgtl1 s h scatL.1
  if h < ssize then throw (.luErr (.symbolicSingular (sb + h)))
  let ker := luPanelKernel h ssize absL.1
  let tr := applyTranspositions sb ker.2 chunk0 st.rp st.rpi
  let rp1 := tr.1.1
  let rpi1 := tr.1.2
  let chunkF := tr.2
  let rgtl2 := applyTransRgtl ker.2 chunkF rgtl1
  if ¬ rgtlConsistent rgtl2 chunkF then throw (.assertFail .rgtlCheck)
  let colU := collectUCols ctx st rp1 rpi1 colL.2 s
  let w := colU.1.length
  let uR := st.uPtrR.getD s 0 + w
  if ctx.imax < uR then throw (.luErr (.generic .indexOverflow))
  let uV := st.uPtrV.getD s 0 + w * ssize
  if ctx.imax < uV then throw (.luErr (.generic .indexOverflow))
  let chunkU := List.insertionSort (· ≤ ·) colU.1
  let cgtl1 := chunkU.enum.foldl (fun f pr => f.set pr.2 (some pr.1)) st.cgtl
  let scatU ← scatterUPanel ctx rp1 cgtl1 sb se w
    (List.replicate (ssize * w) Fr.zero) scatL.2
  let absU ← uPanelPass ctx st rpi1 rgtl2 cgtl1 s w scatU.1 absL.2
  let sU2 := panelUnitLowerSolve h ssize w ker.1 absU.1
  let contrib2 := schurFront ctx st rpi1 rgtl2 cgtl1 s ssize h w ker.1 sU2 absU.2
  let rgtl3 := chunkF.foldl (fun f i => f.set i none) rgtl2
  let cgtl2 := chunkU.foldl (fun f j => f.set j none) cgtl1
  pure
    { rp := rp1
      rpi := rpi1
      marked := colU.2
      rgtl := rgtl3
      cgtl := cgtl2
      lPtrR := st.lPtrR ++ [lR]
      lPtrV := st.lPtrV ++ [lV]
      lRow := st.lRow ++ chunkF
      lVal := st.lVal ++ ker.1
      uPtrR := st.uPtrR ++ [uR]
      uPtrV := st.uPtrV ++ [uV]
      uRow := st.uRow ++ chunkU
      uVal := st.uVal ++ sU2
      contrib := contrib2
      leftover := scatU.2 }

/-- The state before the supernode loop (lines 708–782): identity row
permutation pair, zeroed markers, `NONE`-filled local maps, zero-length
output arrays with the leading `0` pointer entries, empty contribution
blocks, and `A_leftover = compute_nnz(A)`. -/
def initState (ctx : FactCtx) : NumState where
  rp := List.range ctx.m
  rpi := List.range ctx.m
  marked := List.replicate ctx.m 0
  rgtl := List.replicate ctx.m none
  cgtl := List.replicate ctx.n none
  lPtrR := [0]
  lPtrV := [0]
  lRow := []
  lVal := []
  uPtrR := [0]
  uPtrV := [0]
  uRow := []
  uVal := []
  contrib := List.replicate ctx.S Contrib.empty
  leftover := ctx.A.computeNnz

/-- The state after processing the first `k` supernodes. -/
def runUpTo (ctx : FactCtx) (k : ℕ) : Except EmbErr NumState :=
  (List.range k).foldlM (processSupernode ctx) (initState ctx)

/-- The shape preconditions asserted on entry (lines 695–706): `m ≥ n`,
the transposed dimensions of `A^T`, the lengths of the permutation
buffers, and the symbolic-structure lengths. -/
def numericAssertsB (ctx : FactCtx) (rp0 rpi0 : List ℕ) : Bool :=
  decide (ctx.n ≤ ctx.m) && decide (ctx.AT.nrows = ctx.n) && decide (ctx.AT.ncols = ctx.m) &&
    decide (rp0.length = ctx.m) && decide (rpi0.length = ctx.m) &&
    decide (ctx.symb.supernode_postorder.length = ctx.S) &&
    decide (ctx.symb.supernode_postorder_inv.length = ctx.S) &&
    decide (ctx.symb.supernode_ptr.length = ctx.S + 1) &&
    decide (ctx.symb.supernode_ptr.getD ctx.S 0 = ctx.n)

/-- After the supernode loop (lines 1312–1323): assert `A_leftover == 0`,
remap the stored `l_row_ind` through `row_perm_inv`, and fill the output
structure and the permutation buffers. -/
def finalizeLu (ctx : FactCtx) (st : NumState) :
    Except EmbErr (List ℕ × List ℕ × SupernodalLuQ) := do
  if st.leftover ≠ 0 then throw (.assertFail .leftoverEnd)
  pure
    (st.rp, st.rpi,
      { nrows := ctx.m
        ncols := ctx.n
        nsupernodes := ctx.S
        supernode_ptr := ctx.symb.supernode_ptr
        l_col_ptr_for_row_ind := st.lPtrR
        l_col_ptr_for_val := st.lPtrV
        l_row_ind := st.lRow.map (fun i => st.rpi.getD i 0)
        l_val := st.lVal
        ut_col_ptr_for_row_ind := st.uPtrR
        ut_col_ptr_for_val := st.uPtrV
        ut_row_ind := st.uRow
        ut_val := st.uVal })

/-- `faer_sparse::lu::supernodal::factorize_supernodal_numeric_lu`: check
the entry asserts, overwrite the caller's permutation buffers with the
identity, run the supernode loop, and finalize.  The returned triple is
`(row_perm, row_perm_inv, lu)`. -/
def factorize_supernodal_numeric_lu (ctx : FactCtx) (rp0 rpi0 : List ℕ) :
    Except EmbErr (List ℕ × List ℕ × SupernodalLuQ) := do
  if ¬ numericAssertsB ctx rp0 rpi0 then throw (.assertFail .entryArgs)
  let st ← runUpTo ctx ctx.S
  finalizeLu ctx st

end FaerLu

namespace FaerLu

/-! ### Concrete factorization instances -/

/-- A 3×3 sparse matrix: column 0 holds rows `{0,1,2}` with values
`(4,1,1)`, column 1 holds rows `{1,2}` with values `(2,3)`, column 2 holds
rows `{0,1}` with values `(1,1)`. -/
def exA : SparseQ :=
  ⟨3, 3, [0, 3, 5, 7], [0, 1, 2, 1, 2, 0, 1], [fr 4, fr 1, fr 1, fr 2, fr 3, fr 1, fr 1]⟩

/-- The transpose of `exA`, in the same storage. -/
def exAT : SparseQ :=
  ⟨3, 3, [0, 2, 5, 7], [0, 2, 0, 1, 2, 0, 1], [fr 4, fr 1, fr 1, fr 2, fr 1, fr 1, fr 3]⟩

/-- The identity column permutation on three columns. -/
def exPerm : PermPair := ⟨[0, 1, 2], [0, 1, 2]⟩

/-- The symbolic structure of `exA` under the identity ordering: three
singleton supernodes with elimination chain `0 → 1 → 2`. -/
def exSymb : SymbolicLuQ :=
  ⟨[0, 1, 2, 3], [some 1, some 2, none], [0, 1, 2], [0, 1, 2], [0, 1, 2]⟩

/-- The concrete 3×3 factorization input. -/
def exCtx : FactCtx := ⟨1000000, exA, exAT, exPerm, exSymb⟩

/-- A rectangular 3×2 sparse matrix: column 0 holds rows `{0,1}` with
values `(2,1)`, column 1 holds rows `{1,2}` with values `(1,5)`. -/
def rectA : SparseQ := ⟨3, 2, [0, 2, 4], [0, 1, 1, 2], [fr 2, fr 1, fr 1, fr 5]⟩

/-- The transpose of `rectA` (a 2×3 matrix). -/
def rectAT : SparseQ := ⟨2, 3, [0, 1, 3, 4], [0, 0, 1, 1], [fr 2, fr 1, fr 1, fr 5]⟩

/-- The symbolic structure of `rectA`: two singleton supernodes with
elimination chain `0 → 1`. -/
def rectSymb : SymbolicLuQ := ⟨[0, 1, 2], [some 1, none], [0, 1], [0, 1], [0, 1]⟩

/-- The concrete rectangular factorization input. -/
def rectCtx : FactCtx := ⟨1000000, rectA, rectAT, ⟨[0, 1], [0, 1]⟩, rectSymb⟩

/-- C10: the shape precondition asserted on entry to
`factorize_supernodal_numeric_lu` is exactly `nrows ≥ ncols` together
with the transposed dimensions of `A^T`, the `nrows`-length permutation
buffers and the symbolic lengths — never squareness — while the solve
entry points reject any non-square stored factorization; a concrete
rectangular 3×2 input factorizes successfully. -/
theorem C10_rectangular_accepted :
    (∀ (ctx : FactCtx) (rp0 rpi0 : List ℕ),
      numericAssertsB ctx rp0 rpi0 = true ↔
        (ctx.n ≤ ctx.m ∧ ctx.AT.nrows = ctx.n ∧ ctx.AT.ncols = ctx.m ∧
          rp0.length = ctx.m ∧ rpi0.length = ctx.m ∧
          ctx.symb.supernode_postorder.length = ctx.S ∧
          ctx.symb.supernode_postorder_inv.length = ctx.S ∧
          ctx.symb.supernode_ptr.length = ctx.S + 1 ∧
          ctx.symb.supernode_ptr.getD ctx.S 0 = ctx.n))
    ∧ (∀ (lu : SupernodalLuQ) (rp cp : PermPair) (cj : Fr → Fr) (c : ConjFlag)
        (rhs : MatQ), lu.nrows ≠ lu.ncols →
          solve_in_place_with_conj lu rp cp cj c rhs = none ∧
          solve_transpose_in_place_with_conj lu rp cp cj c rhs = none)
    ∧ (factorize_supernodal_numeric_lu rectCtx [0, 0, 0] [0, 0, 0]).isOk = true := by
  refine ⟨?_, ?_, ?_⟩
  · intro ctx rp0 rpi0
    simp [numericAssertsB, and_assoc]
  · intro lu rp cp cj c rhs hne
    constructor
    · unfold solve_in_place_with_conj
      rw [if_neg (by exact fun h => hne h.1)]
    · unfold solve_transpose_in_place_with_conj
      rw [if_neg (by exact fun h => hne h.1)]
  · decide

/-- Witness for C10 at a concrete non-square stored factorization. -/
theorem C10_rectangular_accepted_witness :
    lu3cyc.nrows = 3 ∧
      solve_in_place_with_conj { lu3cyc with ncols := 2 } permId3 permCyc3
          (fun x => x) .no rhs3 = none :=
  ⟨rfl,
    (C10_rectangular_accepted.2.1 { lu3cyc with ncols := 2 } permId3 permCyc3
      (fun x => x) .no rhs3 (by decide)).1⟩

/-- C9: `factorize_supernodal_numeric_lu` overwrites the caller's
`row_perm`/`row_perm_inv` buffers with the identity permutation before
the supernode loop, so the result is the same for any initial contents of
those buffers (they only enter the entry asserts through their
lengths). -/
theorem C9_row_perm_buffers_are_pure_outputs :
    (∀ ctx : FactCtx, (initState ctx).rp = List.range ctx.m ∧
      (initState ctx).rpi = List.range ctx.m)
    ∧ (∀ (ctx : FactCtx) (rp0 rpi0 rp1 rpi1 : List ℕ),
        rp0.length = rp1.length → rpi0.length = rpi1.length →
          factorize_supernodal_numeric_lu ctx rp0 rpi0 =
            factorize_supernodal_numeric_lu ctx rp1 rpi1) := by
  refine ⟨fun ctx => ⟨rfl, rfl⟩, ?_⟩
  intro ctx rp0 rpi0 rp1 rpi1 h1 h2
  have hB : numericAssertsB ctx rp0 rpi0 = numericAssertsB ctx rp1 rpi1 := by
    unfold numericAssertsB
    rw [h1, h2]
  unfold factorize_supernodal_numeric_lu
  rw [hB]

/-- Witness for C9: two different initial buffer contents produce the
same factorization of the concrete 3×3 input. -/
theorem C9_row_perm_buffers_are_pure_outputs_witness :
    factorize_supernodal_numeric_lu exCtx [5, 7, 9] [2, 2, 2] =
      factorize_supernodal_numeric_lu exCtx [0, 0, 0] [0, 0, 0] :=
  C9_row_perm_buffers_are_pure_outputs.2 exCtx [5, 7, 9] [2, 2, 2] [0, 0, 0] [0, 0, 0]
    (by decide) (by decide)

end FaerLu

namespace FaerLu

/-- Success-path elimination for `processSupernode`: a successful step
passed every overflow check, the singularity check and the
local-row-map assert, its scatter and absorption phases succeeded, and
the new state is exactly the record assembled from the phase results. -/
theorem processSupernode_ok_elim (ctx : FactCtx) (st : NumState) (s : ℕ) (st' : NumState)
    (h : processSupernode ctx st s = .ok st') :
    ∃ (sc1 : List Fr × ℕ) (ab1 : List Fr × List Contrib) (sc2 : List Fr × ℕ)
      (ab2 : List Fr × List Contrib),
      let sb := ctx.sptr s
      let se := ctx.sptr (s + 1)
      let ssize := se - sb
      let colL := collectLRows ctx st s
      let h0 := colL.1.length
      let chunk0 := List.insertionSort (· ≤ ·) colL.1
      let rgtl1 := chunk0.enum.foldl (fun f pr => f.set pr.2 (some pr.1)) st.rgtl
      let ker := luPanelKernel h0 ssize ab1.1
      let tr := applyTranspositions sb ker.2 chunk0 st.rp st.rpi
      let rp1 := tr.1.1
      let rpi1 := tr.1.2
      let chunkF := tr.2
      let rgtl2 := applyTransRgtl ker.2 chunkF rgtl1
      let colU := collectUCols ctx st rp1 rpi1 colL.2 s
      let w := colU.1.length
      let chunkU := List.insertionSort (· ≤ ·) colU.1
      let cgtl1 := chunkU.enum.foldl (fun f pr => f.set pr.2 (some pr.1)) st.cgtl
      let sU2 := panelUnitLowerSolve h0 ssize w ker.1 ab2.1
      ¬ ctx.imax < st.lPtrR.getD s 0 + h0 ∧
      ¬ ctx.imax < st.lPtrV.getD s 0 + h0 * ssize ∧
      scatterLPanel ctx st.rpi rgtl1 sb se h0 (List.replicate (h0 * ssize) Fr.zero)
          st.leftover = .ok sc1 ∧
      lPanelPass ctx st rgtl1 s h0 sc1.1 = .ok ab1 ∧
      ¬ h0 < ssize ∧
      rgtlConsistent rgtl2 chunkF = true ∧
      ¬ ctx.imax < st.uPtrR.getD s 0 + w ∧
      ¬ ctx.imax < st.uPtrV.getD s 0 + w * ssize ∧
      scatterUPanel ctx rp1 cgtl1 sb se w (List.replicate (ssize * w) Fr.zero) sc1.2 = .ok sc2 ∧
      uPanelPass ctx st rpi1 rgtl2 cgtl1 s w sc2.1 ab1.2 = .ok ab2 ∧
      st' =
        { rp := rp1
          rpi := rpi1
          marked := colU.2
          rgtl := chunkF.foldl (fun f i => f.set i none) rgtl2
          cgtl := chunkU.foldl (fun f j => f.set j none) cgtl1
          lPtrR := st.lPtrR ++ [st.lPtrR.getD s 0 + h0]
          lPtrV := st.lPtrV ++ [st.lPtrV.getD s 0 + h0 * ssize]
          lRow := st.lRow ++ chunkF
          lVal := st.lVal ++ ker.1
          uPtrR := st.uPtrR ++ [st.uPtrR.getD s 0 + w]
          uPtrV := st.uPtrV ++ [st.uPtrV.getD s 0 + w * ssize]
          uRow := st.uRow ++ chunkU
          uVal := st.uVal ++ sU2
          contrib := schurFront ctx st rpi1 rgtl2 cgtl1 s ssize h0 w ker.1 sU2 ab2.2
          leftover := sc2.2 } := by
  unfold processSupernode at h
  simp only [bind, Except.bind, pure, Except.pure] at h
  repeat' split at h
  all_goals cases h
  all_goals exact ⟨_, _, _, _, by assumption, by assumption, by assumption, by assumption,
    by assumption, of_not_not (by assumption), by assumption, by assumption, by assumption,
    by assumption, rfl⟩

end FaerLu

namespace FaerLu

/-- Destructuring of a successful `Except` bind. -/
theorem exceptBind_ok {ε α β : Type} {x : Except ε α} {f : α → Except ε β} {b : β}
    (h : x >>= f = .ok b) : ∃ a, x = .ok a ∧ f a = .ok b := by
  cases x with
  | error e => exact absurd h (by simp [Bind.bind, Except.bind])
  | ok a => exact ⟨a, rfl, by simpa [Bind.bind, Except.bind] using h⟩

/-- Unrolling of the supernode loop by one step. -/
theorem runUpTo_succ (ctx : FactCtx) (k : ℕ) :
    runUpTo ctx (k + 1) = runUpTo ctx k >>= (fun st => processSupernode ctx st k) := by
  unfold runUpTo
  rw [List.range_succ, List.foldlM_append]
  simp

/-- The slice `dat[ptr[s] .. ptr[s+1])` of a pointer-partitioned array. -/
def sliceD (dat ptr : List ℕ) (s : ℕ) : List ℕ :=
  (dat.drop (ptr.getD s 0)).take (ptr.getD (s + 1) 0 - ptr.getD s 0)

/-- The stored `l_row_ind` slice of supernode `s`. -/
def luLSlice (lu : SupernodalLuQ) (s : ℕ) : List ℕ :=
  sliceD lu.l_row_ind lu.l_col_ptr_for_row_ind s

/-- The stored `ut_row_ind` slice of supernode `s`. -/
def luUtSlice (lu : SupernodalLuQ) (s : ℕ) : List ℕ :=
  sliceD lu.ut_row_ind lu.ut_col_ptr_for_row_ind s

theorem slice_append_stable {α : Type} (dat chunk : List α) (lo hi : ℕ)
    (h : hi ≤ dat.length) :
    ((dat ++ chunk).drop lo).take (hi - lo) = (dat.drop lo).take (hi - lo) := by
  by_cases hlo : lo ≤ dat.length
  · rw [List.drop_append_of_le_length hlo, List.take_append_of_le_length]
    rw [List.length_drop]
    omega
  · have h0 : hi - lo = 0 := by omega
    simp [h0]

/-- The loop invariant behind the sortedness of the stored `ut_row_ind`:
after `k` supernodes the U-pointer array has `k+1` entries bounded by the
`ut_row_ind` length, ends at that length, and every slice it delimits is
sorted. -/
def UtInv (k : ℕ) (st : NumState) : Prop :=
  st.uPtrR.length = k + 1 ∧
  (∀ s, s ≤ k → st.uPtrR.getD s 0 ≤ st.uRow.length) ∧
  st.uPtrR.getD k 0 = st.uRow.length ∧
  ∀ s, List.Sorted (· ≤ ·) (sliceD st.uRow st.uPtrR s)

theorem utInv_append (k : ℕ) (ptr dat cu : List ℕ)
    (len1 : ptr.length = k + 1)
    (bound : ∀ s, s ≤ k → ptr.getD s 0 ≤ dat.length)
    (last1 : ptr.getD k 0 = dat.length)
    (sorted1 : ∀ s, List.Sorted (· ≤ ·) (sliceD dat ptr s))
    (hcu : List.Sorted (· ≤ ·) cu) :
    (ptr ++ [ptr.getD k 0 + cu.length]).length = (k + 1) + 1 ∧
    (∀ s, s ≤ k + 1 →
      (ptr ++ [ptr.getD k 0 + cu.length]).getD s 0 ≤ (dat ++ cu).length) ∧
    (ptr ++ [ptr.getD k 0 + cu.length]).getD (k + 1) 0 = (dat ++ cu).length ∧
    ∀ s, List.Sorted (· ≤ ·) (sliceD (dat ++ cu) (ptr ++ [ptr.getD k 0 + cu.length]) s) := by
  have hlast : (ptr ++ [ptr.getD k 0 + cu.length]).getD (k + 1) 0 = dat.length + cu.length := by
    rw [List.getD_append_right _ _ _ _ (by omega), len1]
    have hz : k + 1 - (k + 1) = 0 := by omega
    rw [hz, List.getD_cons_zero, last1]
  have hlt : ∀ s, s ≤ k → (ptr ++ [ptr.getD k 0 + cu.length]).getD s 0 = ptr.getD s 0 := by
    intro s hs
    exact List.getD_append _ _ _ _ (by omega)
  have hout : ∀ s, k + 2 ≤ s → (ptr ++ [ptr.getD k 0 + cu.length]).getD s 0 = 0 := by
    intro s hs
    rw [List.getD_append_right _ _ _ _ (by omega : ptr.length ≤ s)]
    have : 1 ≤ s - ptr.length := by omega
    match hh : s - ptr.length with
    | 0 => omega
    | q + 1 => simp
  refine ⟨by simp [len1], ?_, by simpa using hlast, ?_⟩
  · intro s hs
    rcases Nat.lt_or_ge s (k + 1) with hl | hg
    · rw [hlt s (by omega)]
      calc ptr.getD s 0 ≤ dat.length := bound s (by omega)
        _ ≤ (dat ++ cu).length := by simp
    · have hseq : s = k + 1 := by omega
      subst hseq
      rw [hlast]
      simp
  · intro s
    unfold sliceD
    rcases Nat.lt_or_ge s k with hl | hg
    · rw [hlt s (by omega), hlt (s + 1) (by omega)]
      rw [slice_append_stable _ _ _ _ (bound (s + 1) (by omega))]
      exact sorted1 s
    · rcases Nat.lt_or_ge s (k + 1) with hm | hh
      · have hseq : s = k := by omega
        subst hseq
        rw [hlt s le_rfl, hlast, last1]
        have : dat.length + cu.length - dat.length = cu.length := by omega
        rw [this, List.drop_left, List.take_length]
        exact hcu
      · rcases Nat.lt_or_ge s (k + 2) with hm2 | hh2
        · have hseq : s = k + 1 := by omega
          subst hseq
          rw [hlast]
          have : (dat ++ cu).drop (dat.length + cu.length) = [] := by
            apply List.drop_eq_nil_of_le
            simp
          rw [this]
          simp
        · rw [hout s (by omega), hout (s + 1) (by omega)]
          simp

theorem utInv_zero (ctx : FactCtx) : UtInv 0 (initState ctx) := by
  refine ⟨rfl, ?_, rfl, ?_⟩
  · intro s hs
    interval_cases s
    simp [initState]
  · intro s
    unfold sliceD
    simp [initState]

theorem utInv_step (ctx : FactCtx) (st st' : NumState) (k : ℕ)
    (hI : UtInv k st) (h : processSupernode ctx st k = .ok st') : UtInv (k + 1) st' := by
  obtain ⟨len1, bound, last1, sorted1⟩ := hI
  obtain ⟨sc1, ab1, sc2, ab2, H⟩ := processSupernode_ok_elim ctx st k st' h
  obtain ⟨h1, h2, h3, h4, h5, h6, h7, h8, h9, h10, hst⟩ := H
  subst hst
  have hs := List.sorted_insertionSort (· ≤ ·)
    (collectUCols ctx st
      (applyTranspositions (ctx.sptr k)
        (luPanelKernel (collectLRows ctx st k).1.length
          (ctx.sptr (k + 1) - ctx.sptr k) ab1.1).2
        (List.insertionSort (· ≤ ·) (collectLRows ctx st k).1) st.rp st.rpi).1.1
      (applyTranspositions (ctx.sptr k)
        (luPanelKernel (collectLRows ctx st k).1.length
          (ctx.sptr (k + 1) - ctx.sptr k) ab1.1).2
        (List.insertionSort (· ≤ ·) (collectLRows ctx st k).1) st.rp st.rpi).1.2
      (collectLRows ctx st k).2 k).1
  have := utInv_append k st.uPtrR st.uRow _ len1 bound last1 sorted1 hs
  rw [List.length_insertionSort] at this
  exact this

theorem runUpTo_utInv (ctx : FactCtx) (k : ℕ) (st : NumState)
    (h : runUpTo ctx k = .ok st) : UtInv k st := by
  induction k generalizing st with
  | zero =>
    simp only [runUpTo, List.range_zero, List.foldlM_nil, pure, Except.pure] at h
    cases h
    exact utInv_zero ctx
  | succ k ih =>
    rw [runUpTo_succ] at h
    obtain ⟨st0, h0, hstep⟩ := exceptBind_ok h
    exact utInv_step ctx st0 st k (ih st0 h0) hstep

end FaerLu

namespace FaerLu

/-- Success-path elimination for the driver: a successful factorization
passed the entry asserts, ran all supernodes to a state with
`A_leftover = 0`, and returned the permutation buffers and the packed
structure (with `l_row_ind` remapped through `row_perm_inv`). -/
theorem factorize_ok_elim (ctx : FactCtx) (rp0 rpi0 : List ℕ)
    (out : List ℕ × List ℕ × SupernodalLuQ)
    (h : factorize_supernodal_numeric_lu ctx rp0 rpi0 = .ok out) :
    ∃ st : NumState, runUpTo ctx ctx.S = .ok st ∧ st.leftover = 0 ∧
      out.1 = st.rp ∧ out.2.1 = st.rpi ∧
      out.2.2 =
        { nrows := ctx.m, ncols := ctx.n, nsupernodes := ctx.S,
          supernode_ptr := ctx.symb.supernode_ptr,
          l_col_ptr_for_row_ind := st.lPtrR, l_col_ptr_for_val := st.lPtrV,
          l_row_ind := st.lRow.map (fun i => st.rpi.getD i 0), l_val := st.lVal,
          ut_col_ptr_for_row_ind := st.uPtrR, ut_col_ptr_for_val := st.uPtrV,
          ut_row_ind := st.uRow, ut_val := st.uVal } := by
  unfold factorize_supernodal_numeric_lu finalizeLu at h
  simp only [bind, Except.bind, pure, Except.pure] at h
  repeat' split at h
  all_goals cases h
  exact ⟨_, by assumption, of_not_not (by assumption), rfl, rfl, rfl⟩

/-- The concrete output of factorizing `exCtx`. -/
def exOut : List ℕ × List ℕ × SupernodalLuQ :=
  ([0, 2, 1], [0, 2, 1],
    { nrows := 3, ncols := 3, nsupernodes := 3,
      supernode_ptr := [0, 1, 2, 3],
      l_col_ptr_for_row_ind := [0, 3, 5, 6],
      l_col_ptr_for_val := [0, 3, 5, 6],
      l_row_ind := [0, 2, 1, 1, 2, 2],
      l_val := [⟨4, 1⟩, ⟨1, 4⟩, ⟨1, 4⟩, ⟨3, 1⟩, ⟨2, 3⟩, ⟨44, 48⟩],
      ut_col_ptr_for_row_ind := [0, 1, 2, 2],
      ut_col_ptr_for_val := [0, 1, 2, 2],
      ut_row_ind := [2, 2],
      ut_val := [⟨1, 1⟩, ⟨-1, 4⟩] })

/-- C6 (counterexample): on the concrete 3×3 input the factorization
succeeds, yet the stored `l_row_ind` slice of supernode 0 — remapped
through `row_perm_inv` on exit — is `[0, 2, 1]`, which is not sorted. -/
theorem C6_remapped_l_row_ind_slice_not_sorted :
    (factorize_supernodal_numeric_lu exCtx [0, 0, 0] [0, 0, 0]).map
        (fun r => luLSlice r.2.2 0) = .ok [0, 2, 1]
    ∧ ¬ List.Sorted (· ≤ ·) ([0, 2, 1] : List ℕ) :=
  ⟨by decide, by decide⟩

/-- C6 (amended): after a successful return every stored `ut_row_ind`
slice is sorted in increasing order; the l-side of the original claim
fails after the final remap through `row_perm_inv` (see the
counterexample). -/
theorem C6_ut_row_ind_slices_sorted (ctx : FactCtx) (rp0 rpi0 : List ℕ)
    (out : List ℕ × List ℕ × SupernodalLuQ)
    (h : factorize_supernodal_numeric_lu ctx rp0 rpi0 = .ok out) (s : ℕ) :
    List.Sorted (· ≤ ·) (luUtSlice out.2.2 s) := by
  obtain ⟨st, hrun, hleft, h1, h2, h3⟩ := factorize_ok_elim ctx rp0 rpi0 out h
  have hInv := runUpTo_utInv ctx ctx.S st hrun
  rw [luUtSlice, h3]
  exact hInv.2.2.2 s

/-- Witness for C6 (amended) at the concrete 3×3 input. -/
theorem C6_ut_row_ind_slices_sorted_witness :
    factorize_supernodal_numeric_lu exCtx [0, 0, 0] [0, 0, 0] = .ok exOut ∧
      List.Sorted (· ≤ ·) (luUtSlice exOut.2.2 1) :=
  ⟨by decide, C6_ut_row_ind_slices_sorted exCtx [0, 0, 0] [0, 0, 0] exOut (by decide) 1⟩

end FaerLu

namespace FaerLu

/-! ### Error-side analysis of the supernode loop (for the
`SymbolicSingular` characterization) -/

/-- Destructuring of a failed `Except` bind. -/
theorem exceptBind_err {ε α β : Type} {x : Except ε α} {f : α → Except ε β} {e : ε}
    (h : x >>= f = .error e) : x = .error e ∨ ∃ a, x = .ok a ∧ f a = .error e := by
  cases x with
  | error e1 => left; simpa [Bind.bind, Except.bind] using h
  | ok a => right; exact ⟨a, rfl, by simpa [Bind.bind, Except.bind] using h⟩

/-- An error of a `foldlM` comes from one application of the step. -/
theorem foldlM_err_shape {α β : Type} (P : EmbErr → Prop)
    (f : β → α → Except EmbErr β)
    (hf : ∀ b a e, f b a = .error e → P e) :
    ∀ (l : List α) (b : β) (e : EmbErr), l.foldlM f b = .error e → P e := by
  intro l
  induction l with
  | nil => intro b e h; simp [List.foldlM, pure, Except.pure] at h
  | cons a t ih =>
    intro b e h
    rw [List.foldlM_cons] at h
    rcases exceptBind_err h with h1 | ⟨b1, _, h2⟩
    · exact hf b a e h1
    · exact ih b1 e h2

/-- Every error of `scatterLPanel` is a fired `assert!`. -/
theorem scatterLPanel_err_shape {ctx : FactCtx} {rpi : List ℕ}
    {rgtl : List (Option ℕ)} {sb se h : ℕ} {sL : List Fr} {leftover : ℕ}
    {e : EmbErr} (hx : scatterLPanel ctx rpi rgtl sb se h sL leftover = .error e) :
    ∃ site, e = EmbErr.assertFail site := by
  refine foldlM_err_shape (fun e => ∃ site, e = EmbErr.assertFail site) _ ?_ _ _ _ hx
  intro b j e1 h1
  refine foldlM_err_shape (fun e => ∃ site, e = EmbErr.assertFail site) _ ?_ _ _ _ h1
  intro b2 pr e2 h2
  simp only [bind, Except.bind, pure, Except.pure] at h2
  repeat' split at h2
  all_goals cases h2
  all_goals exact ⟨_, rfl⟩

/-- Every error of `scatterUPanel` is a fired `assert!`. -/
theorem scatterUPanel_err_shape {ctx : FactCtx} {rp : List ℕ}
    {cgtl : List (Option ℕ)} {sb se w : ℕ} {sU : List Fr} {leftover : ℕ}
    {e : EmbErr} (hx : scatterUPanel ctx rp cgtl sb se w sU leftover = .error e) :
    ∃ site, e = EmbErr.assertFail site := by
  refine foldlM_err_shape (fun e => ∃ site, e = EmbErr.assertFail site) _ ?_ _ _ _ hx
  intro b i e1 h1
  refine foldlM_err_shape (fun e => ∃ site, e = EmbErr.assertFail site) _ ?_ _ _ _ h1
  intro b2 pr e2 h2
  simp only [bind, Except.bind, pure, Except.pure] at h2
  repeat' split at h2
  all_goals cases h2
  all_goals exact ⟨_, rfl⟩

/-- Every error of `lPanelPass` is a fired `assert!`. -/
theorem lPanelPass_err_shape {ctx : FactCtx} {st : NumState}
    {rgtl : List (Option ℕ)} {s h : ℕ} {sL : List Fr} {e : EmbErr}
    (hx : lPanelPass ctx st rgtl s h sL = .error e) :
    ∃ site, e = EmbErr.assertFail site := by
  refine foldlM_err_shape (fun e => ∃ site, e = EmbErr.assertFail site) _ ?_ _ _ _ hx
  intro b d e1 h1
  simp only [bind, Except.bind, pure, Except.pure] at h1
  repeat' split at h1
  all_goals cases h1
  all_goals refine foldlM_err_shape (fun e => ∃ site, e = EmbErr.assertFail site) _ ?_ _ _ _ (by assumption)
  all_goals intro b2 pr e2 h2
  all_goals simp only [bind, Except.bind, pure, Except.pure] at h2
  all_goals repeat' split at h2
  all_goals cases h2
  all_goals exact ⟨_, rfl⟩

/-- Every error of `uPanelPass` is a fired `assert!`. -/
theorem uPanelPass_err_shape {ctx : FactCtx} {st : NumState} {rpi : List ℕ}
    {rgtl cgtl : List (Option ℕ)} {s w : ℕ} {sU : List Fr}
    {contrib : List Contrib} {e : EmbErr}
    (hx : uPanelPass ctx st rpi rgtl cgtl s w sU contrib = .error e) :
    ∃ site, e = EmbErr.assertFail site := by
  refine foldlM_err_shape (fun e => ∃ site, e = EmbErr.assertFail site) _ ?_ _ _ _ hx
  intro b d e1 h1
  simp only [bind, Except.bind, pure, Except.pure] at h1
  repeat' split at h1
  all_goals cases h1
  all_goals refine foldlM_err_shape (fun e => ∃ site, e = EmbErr.assertFail site) _ ?_ _ _ _ (by assumption)
  all_goals intro b2 pr e2 h2
  all_goals simp only [bind, Except.bind, pure, Except.pure] at h2
  all_goals repeat' split at h2
  all_goals cases h2
  all_goals exact ⟨_, rfl⟩

/-- Every error of `finalizeLu` is the final `A_leftover` assert. -/
theorem finalizeLu_err_shape {ctx : FactCtx} {st : NumState} {e : EmbErr}
    (hx : finalizeLu ctx st = .error e) : e = EmbErr.assertFail .leftoverEnd := by
  unfold finalizeLu at hx
  simp only [bind, Except.bind, pure, Except.pure] at hx
  repeat' split at hx
  all_goals cases hx
  rfl

end FaerLu

namespace FaerLu

/-- A `SymbolicSingular` error of one supernode step can only come from
the `h < s_size` check, and carries `s_begin + h` where `h` is the number
of collected L-panel rows. -/
theorem processSupernode_err_symb (ctx : FactCtx) (st : NumState) (s : ℕ) (e : ℕ)
    (hx : processSupernode ctx st s = .error (.luErr (.symbolicSingular e))) :
    (collectLRows ctx st s).1.length < ctx.sptr (s + 1) - ctx.sptr s ∧
      e = ctx.sptr s + (collectLRows ctx st s).1.length := by
  unfold processSupernode at hx
  simp only [bind, Except.bind, pure, Except.pure] at hx
  repeat' split at hx
  all_goals cases hx
  all_goals try exact ⟨by assumption, rfl⟩
  all_goals try (obtain ⟨site, hsite⟩ := scatterLPanel_err_shape (by assumption); cases hsite)
  all_goals try (obtain ⟨site, hsite⟩ := lPanelPass_err_shape (by assumption); cases hsite)
  all_goals try (obtain ⟨site, hsite⟩ := scatterUPanel_err_shape (by assumption); cases hsite)
  all_goals (obtain ⟨site, hsite⟩ := uPanelPass_err_shape (by assumption); cases hsite)

/-- An error of the supernode loop comes from one failing step, all
earlier steps having succeeded. -/
theorem runUpTo_err_elim (ctx : FactCtx) :
    ∀ (k : ℕ) (e : EmbErr), runUpTo ctx k = .error e →
      ∃ s, s < k ∧ ∃ st, runUpTo ctx s = .ok st ∧
        processSupernode ctx st s = .error e := by
  intro k
  induction k with
  | zero =>
    intro e h
    simp only [runUpTo, List.range_zero, List.foldlM_nil, pure, Except.pure] at h
    cases h
  | succ k ih =>
    intro e h
    rw [runUpTo_succ] at h
    rcases exceptBind_err h with h1 | ⟨st, hst, h2⟩
    · obtain ⟨s, hs, st, h3, h4⟩ := ih e h1
      exact ⟨s, Nat.lt_succ_of_lt hs, st, h3, h4⟩
    · exact ⟨k, Nat.lt_succ_self k, st, hst, h2⟩

/-- Once the supernode loop has failed, running it further returns the
same error. -/
theorem runUpTo_err_mono (ctx : FactCtx) (k : ℕ) (e : EmbErr)
    (h : runUpTo ctx k = .error e) :
    ∀ j, k ≤ j → runUpTo ctx j = .error e := by
  intro j
  induction j with
  | zero => intro hj; exact Nat.le_zero.mp hj ▸ h
  | succ j ih =>
    intro hj
    rcases Nat.lt_or_ge k (j + 1) with hlt | hge
    · have hkj : k ≤ j := Nat.lt_succ_iff.mp hlt
      rw [runUpTo_succ, ih hkj]
      simp [Bind.bind, Except.bind]
    · have hk : k = j + 1 := Nat.le_antisymm hj hge
      exact hk ▸ h

end FaerLu

namespace FaerLu

/-- When the assembled L-panel is short (`h < s_size`) and the phases
before the check succeed, the supernode step reports
`SymbolicSingular(s_begin + h)`. -/
theorem processSupernode_reports_short_panel (ctx : FactCtx) (st : NumState) (s : ℕ)
    (sc1 : List Fr × ℕ) (ab1 : List Fr × List Contrib)
    (hlR : ¬ ctx.imax < st.lPtrR.getD s 0 + (collectLRows ctx st s).1.length)
    (hlV : ¬ ctx.imax < st.lPtrV.getD s 0 +
      (collectLRows ctx st s).1.length * (ctx.sptr (s + 1) - ctx.sptr s))
    (hsc : scatterLPanel ctx st.rpi
      ((List.insertionSort (· ≤ ·) (collectLRows ctx st s).1).enum.foldl
        (fun f pr => f.set pr.2 (some pr.1)) st.rgtl)
      (ctx.sptr s) (ctx.sptr (s + 1)) (collectLRows ctx st s).1.length
      (List.replicate ((collectLRows ctx st s).1.length * (ctx.sptr (s + 1) - ctx.sptr s))
        Fr.zero)
      st.leftover = .ok sc1)
    (hab : lPanelPass ctx st
      ((List.insertionSort (· ≤ ·) (collectLRows ctx st s).1).enum.foldl
        (fun f pr => f.set pr.2 (some pr.1)) st.rgtl)
      s (collectLRows ctx st s).1.length sc1.1 = .ok ab1)
    (hshort : (collectLRows ctx st s).1.length < ctx.sptr (s + 1) - ctx.sptr s) :
    processSupernode ctx st s = .error (.luErr (.symbolicSingular
      (ctx.sptr s + (collectLRows ctx st s).1.length))) := by
  unfold processSupernode
  simp only [bind, Except.bind, pure, Except.pure, hsc, hab, hlR, hlV, hshort,
    if_true, if_false, ite_true, ite_false]

/-- A failing supernode step propagates to the result of the whole
factorization (given the entry asserts pass and the earlier steps
succeed). -/
theorem factorize_propagates_step_err (ctx : FactCtx) (rp0 rpi0 : List ℕ)
    (s : ℕ) (st : NumState) (e : EmbErr)
    (hB : numericAssertsB ctx rp0 rpi0 = true) (hs : s < ctx.S)
    (hrun : runUpTo ctx s = .ok st)
    (hstep : processSupernode ctx st s = .error e) :
    factorize_supernodal_numeric_lu ctx rp0 rpi0 = .error e := by
  have h1 : runUpTo ctx (s + 1) = .error e := by
    rw [runUpTo_succ, hrun]
    simpa [Bind.bind, Except.bind] using hstep
  have h2 : runUpTo ctx ctx.S = .error e := runUpTo_err_mono ctx (s + 1) e h1 ctx.S hs
  unfold factorize_supernodal_numeric_lu
  simp only [bind, Except.bind, pure, Except.pure, hB, h2, not_true, if_false,
    ite_false, Bool.true_eq_false, reduceCtorEq]

/-- A `SymbolicSingular` return of the whole factorization exhibits a
supernode whose collected L-panel is shorter than its width, and its
payload is that supernode's `s_begin + h`. -/
theorem factorize_err_symb (ctx : FactCtx) (rp0 rpi0 : List ℕ) (e : ℕ)
    (hx : factorize_supernodal_numeric_lu ctx rp0 rpi0 =
      .error (.luErr (.symbolicSingular e))) :
    ∃ s, s < ctx.S ∧ ∃ st, runUpTo ctx s = .ok st ∧
      (collectLRows ctx st s).1.length < ctx.sptr (s + 1) - ctx.sptr s ∧
      e = ctx.sptr s + (collectLRows ctx st s).1.length := by
  unfold factorize_supernodal_numeric_lu at hx
  simp only [bind, Except.bind, pure, Except.pure] at hx
  split at hx
  · cases hx
  · split at hx
    · cases hx
      obtain ⟨s, hs, st, hrun, hstep⟩ := runUpTo_err_elim ctx ctx.S _ (by assumption)
      obtain ⟨hshort, he⟩ := processSupernode_err_symb ctx st s e hstep
      exact ⟨s, hs, st, hrun, hshort, he⟩
    · exact absurd (finalizeLu_err_shape hx) (by simp)

end FaerLu

namespace FaerLu

/-- A 2×2 sparse matrix whose two columns both hold only row 0: its single
width-2 supernode collects only one L-panel row. -/
def singA : SparseQ := ⟨2, 2, [0, 1, 2], [0, 0], [fr 1, fr 1]⟩

/-- The transpose of `singA`: column 0 holds rows `{0, 1}`, column 1 is
empty. -/
def singAT : SparseQ := ⟨2, 2, [0, 2, 2], [0, 1], [fr 1, fr 1]⟩

/-- The symbolic structure with the single width-2 supernode. -/
def singSymb : SymbolicLuQ := ⟨[0, 2], [none], [0], [0], [0]⟩

/-- The structurally singular 2×2 factorization input. -/
def singCtx : FactCtx := ⟨1000000, singA, singAT, ⟨[0, 1], [0, 1]⟩, singSymb⟩

/-- C2: `SymbolicSingular` returns of `factorize_supernodal_numeric_lu`
are exactly the short-L-panel failures.  (1) Soundness: a
`SymbolicSingular(e)` return exhibits a supernode `s` reached with state
`st` whose collected L-panel has `h < s_size` rows, and
`e = s_begin + h`, the offending global column.  (2) Completeness: when
a supernode's collected L-panel is short and the phases before the check
succeed, the step reports `SymbolicSingular(s_begin + h)`.  (3) A failing
step's error is the result of the whole factorization, so under (2) the
function returns `SymbolicSingular(s_begin + h)`; by (1) it never returns
`SymbolicSingular` when every supernode's panel has at least `s_size`
rows. -/
theorem C2_symbolic_singular_characterization :
    (∀ (ctx : FactCtx) (rp0 rpi0 : List ℕ) (e : ℕ),
      factorize_supernodal_numeric_lu ctx rp0 rpi0 =
          .error (.luErr (.symbolicSingular e)) →
        ∃ s, s < ctx.S ∧ ∃ st, runUpTo ctx s = .ok st ∧
          (collectLRows ctx st s).1.length < ctx.sptr (s + 1) - ctx.sptr s ∧
          e = ctx.sptr s + (collectLRows ctx st s).1.length)
    ∧ (∀ (ctx : FactCtx) (st : NumState) (s : ℕ)
        (sc1 : List Fr × ℕ) (ab1 : List Fr × List Contrib),
        ¬ ctx.imax < st.lPtrR.getD s 0 + (collectLRows ctx st s).1.length →
        ¬ ctx.imax < st.lPtrV.getD s 0 +
          (collectLRows ctx st s).1.length * (ctx.sptr (s + 1) - ctx.sptr s) →
        scatterLPanel ctx st.rpi
          ((List.insertionSort (· ≤ ·) (collectLRows ctx st s).1).enum.foldl
            (fun f pr => f.set pr.2 (some pr.1)) st.rgtl)
          (ctx.sptr s) (ctx.sptr (s + 1)) (collectLRows ctx st s).1.length
          (List.replicate
            ((collectLRows ctx st s).1.length * (ctx.sptr (s + 1) - ctx.sptr s)) Fr.zero)
          st.leftover = .ok sc1 →
        lPanelPass ctx st
          ((List.insertionSort (· ≤ ·) (collectLRows ctx st s).1).enum.foldl
            (fun f pr => f.set pr.2 (some pr.1)) st.rgtl)
          s (collectLRows ctx st s).1.length sc1.1 = .ok ab1 →
        (collectLRows ctx st s).1.length < ctx.sptr (s + 1) - ctx.sptr s →
        processSupernode ctx st s = .error (.luErr (.symbolicSingular
          (ctx.sptr s + (collectLRows ctx st s).1.length))))
    ∧ (∀ (ctx : FactCtx) (rp0 rpi0 : List ℕ) (s : ℕ) (st : NumState) (e : EmbErr),
        numericAssertsB ctx rp0 rpi0 = true → s < ctx.S →
        runUpTo ctx s = .ok st → processSupernode ctx st s = .error e →
        factorize_supernodal_numeric_lu ctx rp0 rpi0 = .error e) :=
  ⟨fun ctx rp0 rpi0 e hx => factorize_err_symb ctx rp0 rpi0 e hx,
    fun ctx st s sc1 ab1 h1 h2 h3 h4 h5 =>
      processSupernode_reports_short_panel ctx st s sc1 ab1 h1 h2 h3 h4 h5,
    fun ctx rp0 rpi0 s st e h1 h2 h3 h4 =>
      factorize_propagates_step_err ctx rp0 rpi0 s st e h1 h2 h3 h4⟩

/-- Witness for C2 at the concrete 2×2 structurally singular input: the
factorization returns `SymbolicSingular(1)`, and the characterization
recovers the short panel (one collected row against a width of two). -/
theorem C2_symbolic_singular_characterization_witness :
    factorize_supernodal_numeric_lu singCtx [0, 1] [0, 1] =
        .error (.luErr (.symbolicSingular 1)) ∧
      ∃ s, s < singCtx.S ∧ ∃ st, runUpTo singCtx s = .ok st ∧
        (collectLRows singCtx st s).1.length < singCtx.sptr (s + 1) - singCtx.sptr s ∧
        1 = singCtx.sptr s + (collectLRows singCtx st s).1.length :=
  ⟨by decide,
    C2_symbolic_singular_characterization.1 singCtx [0, 1] [0, 1] 1 (by decide)⟩

end FaerLu

namespace FaerLu

/-! ### The row-permutation invariant -/

/-- `(rp, rpi)` is a mutually inverse permutation pair on `[0, m)`. -/
def permPairInv (m : ℕ) (rp rpi : List ℕ) : Prop :=
  rp.length = m ∧ rpi.length = m ∧
    (∀ i, i < m → rp.getD i 0 < m) ∧
    (∀ i, i < m → rpi.getD i 0 < m) ∧
    (∀ i, i < m → rp.getD (rpi.getD i 0) 0 = i) ∧
    (∀ i, i < m → rpi.getD (rp.getD i 0) 0 = i)

theorem getD_set_self {l : List ℕ} {i : ℕ} (v : ℕ) (h : i < l.length) :
    (l.set i v).getD i 0 = v := by
  simp [List.getD_eq_getElem?_getD, List.getElem?_set, h]

theorem getD_set_other {l : List ℕ} {i j : ℕ} (v : ℕ) (h : i ≠ j) :
    (l.set i v).getD j 0 = l.getD j 0 := by
  simp [List.getD_eq_getElem?_getD, List.getElem?_set, h]

theorem length_swapLD {l : List ℕ} {a b : ℕ} : (swapLD 0 l a b).length = l.length := by
  simp [swapLD]

/-- `getD` after a swap of two in-range positions. -/
theorem swapLD_getD {l : List ℕ} {a b : ℕ} (i : ℕ) (ha : a < l.length) (hb : b < l.length) :
    (swapLD 0 l a b).getD i 0 =
      if i = b then l.getD a 0 else if i = a then l.getD b 0 else l.getD i 0 := by
  unfold swapLD
  by_cases hib : i = b
  · subst hib
    rw [if_pos rfl, getD_set_self _ (by simpa using hb)]
  · rw [if_neg hib, getD_set_other _ (fun h => hib h.symm)]
    by_cases hia : i = a
    · subst hia
      rw [if_pos rfl, getD_set_self _ ha]
    · rw [if_neg hia, getD_set_other _ (fun h => hia h.symm)]

/-- One transposition step of the bookkeeping walk (swap positions
`a, kk` of `rp`, then the values found there in `rpi`) preserves the
mutual-inverse invariant. -/
theorem permPairInv_swapStep (m : ℕ) (rp rpi : List ℕ) (a it : ℕ)
    (hI : permPairInv m rp rpi) (ha : a < m) (hm : 0 < m) :
    permPairInv m (swapLD 0 rp a (rpi.getD it 0))
      (swapLD 0 rpi ((swapLD 0 rp a (rpi.getD it 0)).getD a 0)
        ((swapLD 0 rp a (rpi.getD it 0)).getD (rpi.getD it 0) 0)) := by
  obtain ⟨hl1, hl2, hb1, hb2, h5, h6⟩ := hI
  set kk := rpi.getD it 0 with hkkd
  have hkkm : kk < m := by
    by_cases hit : it < m
    · exact hb2 it hit
    · rw [hkkd, List.getD_eq_default _ _ (by omega)]
      exact hm
  have ham : a < rp.length := by omega
  have hkk1 : kk < rp.length := by omega
  have hrp1 : ∀ i, (swapLD 0 rp a kk).getD i 0 =
      if i = kk then rp.getD a 0 else if i = a then rp.getD kk 0 else rp.getD i 0 :=
    fun i => swapLD_getD i ham hkk1
  have hx : (swapLD 0 rp a kk).getD a 0 = rp.getD kk 0 := by
    rw [hrp1]
    by_cases hak : a = kk
    · rw [if_pos hak, hak]
    · rw [if_neg hak, if_pos rfl]
  have hy : (swapLD 0 rp a kk).getD kk 0 = rp.getD a 0 := by
    rw [hrp1, if_pos rfl]
  rw [hx, hy]
  set x := rp.getD kk 0 with hxd
  set y := rp.getD a 0 with hyd
  have hxm : x < m := hb1 kk hkkm
  have hym : y < m := hb1 a ha
  have hrpi1 : ∀ i, (swapLD 0 rpi x y).getD i 0 =
      if i = y then rpi.getD x 0 else if i = x then rpi.getD y 0 else rpi.getD i 0 :=
    fun i => swapLD_getD i (by omega) (by omega)
  have hxk : rpi.getD x 0 = kk := h6 kk hkkm
  have hya : rpi.getD y 0 = a := h6 a ha
  refine ⟨by rw [length_swapLD, hl1], by rw [length_swapLD, hl2], ?_, ?_, ?_, ?_⟩
  · intro i him
    rw [hrp1]
    split_ifs with h1 h2
    · exact hym
    · exact hxm
    · exact hb1 i him
  · intro i him
    rw [hrpi1]
    split_ifs with h1 h2
    · rw [hxk]; exact hkkm
    · rw [hya]; exact ha
    · exact hb2 i him
  · intro i him
    rw [hrpi1 i]
    by_cases hiy : i = y
    · rw [if_pos hiy, hxk, hy, hiy]
    · rw [if_neg hiy]
      by_cases hix : i = x
      · rw [if_pos hix, hya, hx, hix]
      · rw [if_neg hix]
        have hj : rp.getD (rpi.getD i 0) 0 = i := h5 i him
        rw [hrp1]
        by_cases hjk : rpi.getD i 0 = kk
        · have hixx : i = x := by rw [hxd, ← hjk, hj]
          exact absurd hixx hix
        · rw [if_neg hjk]
          by_cases hja : rpi.getD i 0 = a
          · have hiyy : i = y := by rw [hyd, ← hja, hj]
            exact absurd hiyy hiy
          · rw [if_neg hja]
            exact hj
  · intro i him
    rw [hrp1 i]
    by_cases hik : i = kk
    · rw [if_pos hik, hrpi1, if_pos rfl, hxk, hik]
    · rw [if_neg hik]
      by_cases hia2 : i = a
      · rw [if_pos hia2, hrpi1]
        by_cases hxy : x = y
        · rw [if_pos hxy, hxy, hya, hia2]
        · rw [if_neg hxy, if_pos rfl, hya, hia2]
      · rw [if_neg hia2]
        have hz : rpi.getD (rp.getD i 0) 0 = i := h6 i him
        rw [hrpi1]
        by_cases hzy : rp.getD i 0 = y
        · have hiaa : i = a := by rw [← hz, hzy, hya]
          exact absurd hiaa hia2
        · rw [if_neg hzy]
          by_cases hzx : rp.getD i 0 = x
          · have hikk : i = kk := by rw [← hz, hzx, hxk]
            exact absurd hikk hik
          · rw [if_neg hzx]
            exact hz

end FaerLu

namespace FaerLu

/-- The transposition walk (a fold of the swap step over any index/offset
pairs whose target positions stay below `m`) preserves the
mutual-inverse invariant. -/
theorem foldl_swapSteps_permPairInv (m sb : ℕ) (hm : 0 < m) :
    ∀ (ps : List (ℕ × ℕ)) (chunk rp rpi : List ℕ),
      permPairInv m rp rpi → (∀ pr ∈ ps, sb + pr.1 < m) →
      permPairInv m
        ((ps.foldl
          (fun (acc : (List ℕ × List ℕ) × List ℕ) pr =>
            let idx := pr.1
            let tv := pr.2
            let rp := acc.1.1
            let rpi := acc.1.2
            let ch := acc.2
            let it := ch.getD (idx + tv) 0
            let kk := rpi.getD it 0
            let rp1 := swapLD 0 rp (sb + idx) kk
            let rpi1 := swapLD 0 rpi (rp1.getD (sb + idx) 0) (rp1.getD kk 0)
            ((rp1, rpi1), swapLD 0 ch idx (idx + tv)))
          ((rp, rpi), chunk)).1.1)
        ((ps.foldl
          (fun (acc : (List ℕ × List ℕ) × List ℕ) pr =>
            let idx := pr.1
            let tv := pr.2
            let rp := acc.1.1
            let rpi := acc.1.2
            let ch := acc.2
            let it := ch.getD (idx + tv) 0
            let kk := rpi.getD it 0
            let rp1 := swapLD 0 rp (sb + idx) kk
            let rpi1 := swapLD 0 rpi (rp1.getD (sb + idx) 0) (rp1.getD kk 0)
            ((rp1, rpi1), swapLD 0 ch idx (idx + tv)))
          ((rp, rpi), chunk)).1.2) := by
  intro ps
  induction ps with
  | nil => intro chunk rp rpi hI _; simpa using hI
  | cons p ps ih =>
    intro chunk rp rpi hI hpos
    rw [List.foldl_cons]
    exact ih _ _ _
      (permPairInv_swapStep m rp rpi (sb + p.1) (chunk.getD (p.1 + p.2) 0) hI
        (hpos p (List.mem_cons_self p ps)) hm)
      (fun pr hpr => hpos pr (List.mem_cons_of_mem _ hpr))

/-- `applyTranspositions` preserves the mutual-inverse invariant when the
touched positions `sb + idx` stay below `m`. -/
theorem applyTranspositions_permPairInv (m sb : ℕ) (t chunk rp rpi : List ℕ)
    (hm : 0 < m) (hI : permPairInv m rp rpi) (hlen : sb + t.length ≤ m) :
    permPairInv m (applyTranspositions sb t chunk rp rpi).1.1
      (applyTranspositions sb t chunk rp rpi).1.2 := by
  unfold applyTranspositions
  refine foldl_swapSteps_permPairInv m sb hm t.enum chunk rp rpi hI ?_
  intro pr hpr
  have h1 : pr.1 < t.length := by
    have h2 := List.mem_enum_iff_getElem?.mp hpr
    by_contra hc
    rw [List.getElem?_eq_none (by omega)] at h2
    cases h2
  omega

end FaerLu

namespace FaerLu

/-- A fold whose step appends exactly one element to the second component
grows it by the list length. -/
theorem foldl_snd_append_length {α : Type} (f : (List Fr × List ℕ) → α → List Fr × List ℕ)
    (hf : ∀ acc x, (f acc x).2.length = acc.2.length + 1) :
    ∀ (l : List α) (acc : List Fr × List ℕ),
      (l.foldl f acc).2.length = acc.2.length + l.length := by
  intro l
  induction l with
  | nil => intro acc; simp
  | cons a t ih =>
    intro acc
    rw [List.foldl_cons, ih, hf]
    simp [Nat.add_assoc, Nat.add_comm 1 t.length]

/-- The kernel returns one transposition offset per panel column. -/
theorem luPanelKernel_t_length (h k : ℕ) (M : List Fr) :
    (luPanelKernel h k M).2.length = k := by
  unfold luPanelKernel
  refine Eq.trans (foldl_snd_append_length _ ?_ (List.range k) (M, [])) (by simp)
  intro acc x
  show (acc.2 ++ [_]).length = _
  simp

theorem getD_range (m i : ℕ) : (List.range m).getD i 0 = if i < m then i else 0 := by
  by_cases h : i < m
  · rw [if_pos h, List.getD_eq_getElem?_getD, List.getElem?_range h]
    rfl
  · rw [if_neg h, List.getD_eq_default]
    simpa using h

/-- The identity pair installed before the supernode loop satisfies the
invariant. -/
theorem initState_permPairInv (ctx : FactCtx) :
    permPairInv ctx.m (initState ctx).rp (initState ctx).rpi := by
  refine ⟨by simp [initState], by simp [initState], ?_, ?_, ?_, ?_⟩
  all_goals intro i him
  all_goals simp only [initState]
  · rw [getD_range, if_pos him]; exact him
  · rw [getD_range, if_pos him]; exact him
  · rw [getD_range ctx.m i, if_pos him, getD_range, if_pos him]
  · rw [getD_range ctx.m i, if_pos him, getD_range, if_pos him]

/-- A successful supernode step preserves the invariant (the only fields
it changes through `rp`/`rpi` are the transposition swaps, at positions
inside `[s_begin, s_end) ⊆ [0, m)`). -/
theorem processSupernode_permPairInv (ctx : FactCtx) (st st' : NumState) (s : ℕ)
    (hm : 0 < ctx.m) (hs1 : ctx.sptr s ≤ ctx.m) (hs2 : ctx.sptr (s + 1) ≤ ctx.m)
    (hI : permPairInv ctx.m st.rp st.rpi)
    (h : processSupernode ctx st s = .ok st') :
    permPairInv ctx.m st'.rp st'.rpi := by
  obtain ⟨sc1, ab1, sc2, ab2, H⟩ := processSupernode_ok_elim ctx st s st' h
  obtain ⟨h1, h2, h3, h4, h5, h6, h7, h8, h9, h10, hst⟩ := H
  subst hst
  refine applyTranspositions_permPairInv ctx.m (ctx.sptr s) _ _ _ _ hm hI ?_
  rw [luPanelKernel_t_length]
  omega

/-- The invariant holds at every state of the supernode loop. -/
theorem runUpTo_permPairInv (ctx : FactCtx) (hm : 0 < ctx.m)
    (hptr : ∀ j, ctx.sptr j ≤ ctx.m) :
    ∀ (k : ℕ) (st : NumState), runUpTo ctx k = .ok st →
      permPairInv ctx.m st.rp st.rpi := by
  intro k
  induction k with
  | zero =>
    intro st h
    simp only [runUpTo, List.range_zero, List.foldlM_nil, pure, Except.pure] at h
    cases h
    exact initState_permPairInv ctx
  | succ k ih =>
    intro st h
    rw [runUpTo_succ] at h
    obtain ⟨st1, hst1, hstep⟩ := exceptBind_ok h
    exact processSupernode_permPairInv ctx st1 st k hm (hptr k) (hptr (k + 1))
      (ih st1 hst1) hstep

/-- All entries of a list bounded by `b` bound every `getD` with default
`0`. -/
theorem getD_le_of_all (l : List ℕ) (b : ℕ) (hall : ∀ x ∈ l, x ≤ b) (j : ℕ) :
    l.getD j 0 ≤ b := by
  by_cases hj : j < l.length
  · rw [List.getD_eq_getElem _ _ hj]
    exact hall _ (List.getElem_mem hj)
  · rw [List.getD_eq_default _ _ (by omega)]
    exact Nat.zero_le b

end FaerLu

namespace FaerLu

/-- C4: the row-permutation pair maintained by
`factorize_supernodal_numeric_lu` is mutually inverse throughout.
(1) Applying any supernode's transposition sequence to a mutually
inverse pair (with the touched positions `s_begin + idx` inside
`[0, m)`) yields a mutually inverse pair.  (2) At every state of the
supernode loop the pair is a mutually inverse permutation pair of
`[0, m)` (the loop starts from the identity overwrite, and each step
changes the pair only through its transposition sequence).  (3) On a
successful return, `row_perm[row_perm_inv[i]] = i` for every
`i ∈ [0, m)`. -/
theorem C4_row_perm_pair_mutual_inverse :
    (∀ (m sb : ℕ) (t chunk rp rpi : List ℕ), 0 < m → permPairInv m rp rpi →
      sb + t.length ≤ m →
      permPairInv m (applyTranspositions sb t chunk rp rpi).1.1
        (applyTranspositions sb t chunk rp rpi).1.2)
    ∧ (∀ (ctx : FactCtx) (k : ℕ) (st : NumState), 0 < ctx.m →
        (∀ j, ctx.sptr j ≤ ctx.m) → runUpTo ctx k = .ok st →
        permPairInv ctx.m st.rp st.rpi)
    ∧ (∀ (ctx : FactCtx) (rp0 rpi0 : List ℕ) (out : List ℕ × List ℕ × SupernodalLuQ),
        0 < ctx.m → (∀ j, ctx.sptr j ≤ ctx.m) →
        factorize_supernodal_numeric_lu ctx rp0 rpi0 = .ok out →
        ∀ i, i < ctx.m → out.1.getD (out.2.1.getD i 0) 0 = i) :=
  ⟨fun m sb t chunk rp rpi hm hI hlen =>
      applyTranspositions_permPairInv m sb t chunk rp rpi hm hI hlen,
    fun ctx k st hm hptr h => runUpTo_permPairInv ctx hm hptr k st h,
    fun ctx rp0 rpi0 out hm hptr h i him => by
      obtain ⟨st, hrun, hleft, h1, h2, h3⟩ := factorize_ok_elim ctx rp0 rpi0 out h
      have hI := runUpTo_permPairInv ctx hm hptr ctx.S st hrun
      rw [h1, h2]
      exact hI.2.2.2.2.1 i him⟩

/-- Witness for C4 at the concrete pivoting 3×3 input: the returned pair
is `([0,2,1], [0,2,1])` and `row_perm[row_perm_inv[i]] = i` on
`[0, 3)`. -/
theorem C4_row_perm_pair_mutual_inverse_witness :
    factorize_supernodal_numeric_lu exCtx [1, 1, 1] [2, 2, 2] = .ok exOut ∧
      ∀ i, i < exCtx.m → exOut.1.getD (exOut.2.1.getD i 0) 0 = i :=
  ⟨by decide,
    C4_row_perm_pair_mutual_inverse.2.2 exCtx [1, 1, 1] [2, 2, 2] exOut (by decide)
      (fun j => getD_le_of_all _ _ (by decide) j) (by decide)⟩

end FaerLu

namespace FaerLu

/-! ### Counting helpers for the contribution-block invariants -/

theorem getD_set_at {α : Type} {l : List α} {i : ℕ} (v d : α) (h : i < l.length) :
    (l.set i v).getD i d = v := by
  simp [List.getD_eq_getElem?_getD, List.getElem?_set, h]

theorem getD_set_out {α : Type} {l : List α} {i j : ℕ} (v d : α) (h : i ≠ j) :
    (l.set i v).getD j d = l.getD j d := by
  simp [List.getD_eq_getElem?_getD, List.getElem?_set, h]

theorem getD_append_lt {α : Type} (l l' : List α) (i : ℕ) (d : α) (h : i < l.length) :
    (l ++ l').getD i d = l.getD i d := by
  rw [List.getD_eq_getElem?_getD, List.getElem?_append, if_pos h,
    ← List.getD_eq_getElem?_getD]

theorem getD_replicate {α : Type} (n i : ℕ) (a : α) : (List.replicate n a).getD i a = a := by
  by_cases h : i < n
  · rw [List.getD_eq_getElem?_getD, List.getElem?_replicate, if_pos h]
    rfl
  · rw [List.getD_eq_default _ _ (by simpa using h)]

/-- Lengths of bounded-range filters agree for pointwise-equal predicates. -/
theorem range_filter_congr (n : ℕ) (p q : ℕ → Bool) (h : ∀ i, i < n → p i = q i) :
    ((List.range n).filter p).length = ((List.range n).filter q).length := by
  induction n with
  | zero => rfl
  | succ n ih =>
    rw [List.range_succ, List.filter_append, List.filter_append,
      List.length_append, List.length_append, ih (fun i hi => h i (by omega))]
    simp [List.filter_cons, h n (by omega)]

/-- Flipping one `true` of the predicate to `false` drops the bounded-range
filter length by one. -/
theorem range_filter_flip (n i0 : ℕ) (p q : ℕ → Bool) (hi : i0 < n)
    (hsame : ∀ i, i < n → i ≠ i0 → q i = p i) (hp : p i0 = true) (hq : q i0 = false) :
    ((List.range n).filter q).length + 1 = ((List.range n).filter p).length := by
  induction n with
  | zero => omega
  | succ n ih =>
    rw [List.range_succ, List.filter_append, List.filter_append,
      List.length_append, List.length_append]
    by_cases h0 : i0 = n
    · have hpn : p n = true := h0 ▸ hp
      have hqn : q n = false := h0 ▸ hq
      rw [range_filter_congr n q p (fun i h1 => hsame i (by omega) (by omega))]
      simp [List.filter_cons, hpn, hqn]
    · have hi' : i0 < n := by omega
      rw [← ih hi' (fun i h1 h2 => hsame i (by omega) h2)]
      have he : q n = p n := hsame n (by omega) (fun hn => h0 hn.symm)
      simp [List.filter_cons, he]
      omega

/-- Injectivity of the column-major cell index (both rows below `mr`). -/
theorem cellIdx_inj {mr i i' j j' : ℕ} (hi : i < mr) (hi' : i' < mr)
    (h : i + j * mr = i' + j' * mr) : i = i' ∧ j = j' := by
  have hj : j = j' := by
    rcases Nat.lt_trichotomy j j' with hlt | heq | hgt
    · have h1 : (j + 1) * mr ≤ j' * mr := Nat.mul_le_mul_right mr hlt
      have h2 : i + j * mr < (j + 1) * mr := by
        have : (j + 1) * mr = j * mr + mr := by ring
        omega
      omega
    · exact heq
    · have h1 : (j' + 1) * mr ≤ j * mr := Nat.mul_le_mul_right mr hgt
      have h2 : i' + j' * mr < (j' + 1) * mr := by
        have : (j' + 1) * mr = j' * mr + mr := by ring
        omega
      omega
  subst hj
  exact ⟨by omega, rfl⟩

theorem bget_clear_self (mr : ℕ) (mat : List Bool) (i j : ℕ) :
    bget mr (bset mr mat i j false) i j = false := by
  unfold bget bset
  by_cases h : i + j * mr < mat.length
  · exact getD_set_at false false (by simpa using h)
  · rw [List.set_eq_of_length_le (by omega)]
    rw [List.getD_eq_default _ _ (by omega)]

theorem bget_bset_other {mr : ℕ} (mat : List Bool) {i j i' j' : ℕ} (v : Bool)
    (hi : i < mr) (hi' : i' < mr) (hne : ¬(i = i' ∧ j = j')) :
    bget mr (bset mr mat i' j' v) i j = bget mr mat i j := by
  unfold bget bset
  refine getD_set_out v false ?_
  intro hidx
  exact hne ⟨(cellIdx_inj hi' hi hidx).1.symm, (cellIdx_inj hi' hi hidx).2.symm⟩

/-- The number of set cells of column `j` of an `mr`-row byte matrix. -/
def colSum (mr : ℕ) (mat : List Bool) (j : ℕ) : ℕ :=
  ((List.range mr).filter (fun i => bget mr mat i j)).length

/-- The number of positive entries of `d_active`. -/
def posCount (active : List ℕ) : ℕ :=
  ((List.range active.length).filter (fun j => decide (0 < active.getD j 0))).length

/-- Clearing one cell decrements its column count exactly when it was
set. -/
theorem colSum_clear (mr : ℕ) (mat : List Bool) (i j : ℕ) (hi : i < mr) :
    colSum mr (bset mr mat i j false) j + (if bget mr mat i j then 1 else 0) =
      colSum mr mat j := by
  by_cases hb : bget mr mat i j
  · rw [hb, if_pos rfl]
    exact range_filter_flip mr i _ _ hi
      (fun i2 h1 h2 => bget_bset_other mat false h1 hi (fun hp => h2 hp.1))
      hb (bget_clear_self mr mat i j)
  · rw [if_neg hb]
    unfold colSum
    rw [Nat.add_zero]
    refine range_filter_congr mr _ _ (fun i2 h1 => ?_)
    by_cases hii : i2 = i
    · subst hii
      rw [bget_clear_self]
      cases hbv : bget mr mat i2 j
      · rfl
      · exact absurd hbv hb
    · exact bget_bset_other mat false h1 hi (fun hp => hii hp.1)

/-- Clearing a cell leaves the other columns' bits unchanged. -/
theorem bget_clear_other_col (mr : ℕ) (mat : List Bool) {i i' j j' : ℕ}
    (hi : i < mr) (hi' : i' < mr) (hj : j ≠ j') :
    bget mr (bset mr mat i' j' false) i j = bget mr mat i j :=
  bget_bset_other mat false hi hi' (fun hp => hj hp.2)

theorem colSum_clear_other (mr : ℕ) (mat : List Bool) {i' j j' : ℕ}
    (hi' : i' < mr) (hj : j ≠ j') :
    colSum mr (bset mr mat i' j' false) j = colSum mr mat j :=
  range_filter_congr mr _ _ (fun i2 h1 => bget_clear_other_col mr mat h1 hi' hj)

end FaerLu

namespace FaerLu

/-- Overwriting a positive entry with a positive value keeps the positive
count. -/
theorem posCount_set_pos (active : List ℕ) (g v : ℕ) (hv : 0 < v)
    (hpos : 0 < active.getD g 0) :
    posCount (active.set g v) = posCount active := by
  unfold posCount
  rw [List.length_set]
  refine range_filter_congr _ _ _ (fun j hj => ?_)
  by_cases hjg : j = g
  · subst hjg
    rw [getD_set_at v 0 (by omega)]
    rw [List.getD_eq_getElem?_getD] at hpos
    simp [hv, hpos]
  · rw [getD_set_out v 0 (fun h => hjg h.symm)]

/-- Overwriting a positive entry with `0` drops the positive count by
one. -/
theorem posCount_set_zero (active : List ℕ) (g : ℕ) (hg : g < active.length)
    (hpos : 0 < active.getD g 0) :
    posCount (active.set g 0) + 1 = posCount active := by
  unfold posCount
  rw [List.length_set]
  refine range_filter_flip _ g _ _ hg (fun j h1 h2 => ?_) (by simpa using hpos) ?_
  · rw [getD_set_out 0 0 (fun h => h2 h.symm)]
  · rw [getD_set_at 0 0 hg]
    simp

/-- The per-block invariant of a contribution block: `d_active[j]` is the
column count of the byte matrix, and `d_active_count` is the number of
positive `d_active` entries. -/
def ContribInv (c : Contrib) : Prop :=
  (∀ j, j < c.active.length → c.active.getD j 0 = colSum c.matRows c.mat j)
  ∧ c.activeCount = posCount c.active

theorem contribInv_empty : ContribInv Contrib.empty :=
  ⟨fun j hj => absurd hj (by simp [Contrib.empty]), rfl⟩

theorem fst_lt_of_mem_enum {α : Type} {l : List α} {pr : ℕ × α} (h : pr ∈ l.enum) :
    pr.1 < l.length := by
  have h2 := List.mem_enum_iff_getElem?.mp h
  by_contra hc
  rw [List.getElem?_eq_none (by omega)] at h2
  cases h2

/-- The step of the shared cell-transfer loop `absorbCells`. -/
def absorbStep (keep : ℕ → Bool) (tgtRow : ℕ → ℕ) (sj gcol : ℕ)
    (tgtGet : List Fr → ℕ → ℕ → Fr) (tgtSet : List Fr → ℕ → ℕ → Fr → List Fr)
    (dlen mr : ℕ) (acc : List Fr × List Fr × List Bool × ℕ) (qr : ℕ × ℕ) :
    List Fr × List Fr × List Bool × ℕ :=
  if keep qr.2 then
    (tgtSet acc.1 (tgtRow qr.2) sj
        ((tgtGet acc.1 (tgtRow qr.2) sj).sub (mget dlen acc.2.1 qr.1 gcol)),
      mset dlen acc.2.1 qr.1 gcol Fr.zero,
      bset mr acc.2.2.1 qr.1 gcol false,
      acc.2.2.2 + (if bget mr acc.2.2.1 qr.1 gcol then 1 else 0))
  else acc

theorem absorbCells_eq_foldl (keep : ℕ → Bool) (dRow : List ℕ) (tgtRow : ℕ → ℕ)
    (sj gcol : ℕ) (tgtGet : List Fr → ℕ → ℕ → Fr)
    (tgtSet : List Fr → ℕ → ℕ → Fr → List Fr) (tgt vals : List Fr) (mat : List Bool)
    (mr : ℕ) :
    absorbCells keep dRow tgtRow sj gcol tgtGet tgtSet tgt vals mat mr =
      dRow.enum.foldl (absorbStep keep tgtRow sj gcol tgtGet tgtSet dRow.length mr)
        (tgt, vals, mat, 0) := rfl

/-- Effect of the cell-transfer fold on the byte matrix and counter: the
target column loses exactly `taken` set cells, the other columns are
untouched, and the value-matrix length is preserved. -/
theorem absorbFold_char (keep : ℕ → Bool) (tgtRow : ℕ → ℕ) (sj gcol : ℕ)
    (tgtGet : List Fr → ℕ → ℕ → Fr) (tgtSet : List Fr → ℕ → ℕ → Fr → List Fr)
    (dlen mr : ℕ) :
    ∀ (ps : List (ℕ × ℕ)) (tgt vals : List Fr) (mat : List Bool) (t0 : ℕ),
      (∀ pr ∈ ps, pr.1 < mr) →
      (ps.foldl (absorbStep keep tgtRow sj gcol tgtGet tgtSet dlen mr)
          (tgt, vals, mat, t0)).2.1.length = vals.length ∧
      t0 ≤ (ps.foldl (absorbStep keep tgtRow sj gcol tgtGet tgtSet dlen mr)
          (tgt, vals, mat, t0)).2.2.2 ∧
      colSum mr (ps.foldl (absorbStep keep tgtRow sj gcol tgtGet tgtSet dlen mr)
          (tgt, vals, mat, t0)).2.2.1 gcol +
        (ps.foldl (absorbStep keep tgtRow sj gcol tgtGet tgtSet dlen mr)
          (tgt, vals, mat, t0)).2.2.2 = colSum mr mat gcol + t0 ∧
      (∀ j, j ≠ gcol →
        colSum mr (ps.foldl (absorbStep keep tgtRow sj gcol tgtGet tgtSet dlen mr)
          (tgt, vals, mat, t0)).2.2.1 j = colSum mr mat j) := by
  intro ps
  induction ps with
  | nil =>
    intro tgt vals mat t0 hmem
    exact ⟨rfl, Nat.le_refl t0, rfl, fun j hj => rfl⟩
  | cons p ps ih =>
    intro tgt vals mat t0 hmem
    rw [List.foldl_cons]
    have hp1 : p.1 < mr := hmem p (List.mem_cons_self p ps)
    by_cases hk : keep p.2
    · have hstep : absorbStep keep tgtRow sj gcol tgtGet tgtSet dlen mr
          (tgt, vals, mat, t0) p =
          (tgtSet tgt (tgtRow p.2) sj
              ((tgtGet tgt (tgtRow p.2) sj).sub (mget dlen vals p.1 gcol)),
            mset dlen vals p.1 gcol Fr.zero,
            bset mr mat p.1 gcol false,
            t0 + (if bget mr mat p.1 gcol then 1 else 0)) := by
        simp [absorbStep, hk]
      rw [hstep]
      obtain ⟨ih1, ih2, ih3, ih4⟩ := ih _ _ _ _
        (fun pr hpr => hmem pr (List.mem_cons_of_mem _ hpr))
      refine ⟨by rw [ih1]; simp [mset], ?_, ?_, ?_⟩
      · omega
      · have hclear := colSum_clear mr mat p.1 gcol hp1
        generalize hb : (if bget mr mat p.1 gcol then 1 else 0) = b at ih2 ih3 hclear ⊢
        omega
      · intro j hj
        rw [ih4 j hj, colSum_clear_other mr mat hp1 hj]
    · have hstep : absorbStep keep tgtRow sj gcol tgtGet tgtSet dlen mr
          (tgt, vals, mat, t0) p = (tgt, vals, mat, t0) := by
        simp [absorbStep, hk]
      rw [hstep]
      exact ih _ _ _ _ (fun pr hpr => hmem pr (List.mem_cons_of_mem _ hpr))

/-- `foldlM` preserves an invariant its step preserves on success. -/
theorem foldlM_ok_preserve {α β : Type} (P : β → Prop) (f : β → α → Except EmbErr β)
    (hf : ∀ b a b', P b → f b a = .ok b' → P b') :
    ∀ (l : List α) (b b' : β), P b → l.foldlM f b = .ok b' → P b' := by
  intro l
  induction l with
  | nil =>
    intro b b' hP h
    simp only [List.foldlM_nil, pure, Except.pure] at h
    cases h
    exact hP
  | cons a t ih =>
    intro b b' hP h
    rw [List.foldlM_cons] at h
    obtain ⟨b1, h1, h2⟩ := exceptBind_ok h
    exact ih b1 b' (hf b a b1 hP h1) h2

/-- `foldlM_ok_preserve` with the fold equation before the step
hypothesis, so the step function is determined first. -/
theorem foldlM_ok_preserve2 {α β : Type} (P : β → Prop) (f : β → α → Except EmbErr β)
    (l : List α) (b b' : β) (hP : P b) (h : l.foldlM f b = .ok b')
    (hf : ∀ b a b', P b → f b a = .ok b' → P b') : P b' :=
  foldlM_ok_preserve P f hf l b b' hP h

/-- `foldl` preserves an invariant its step preserves. -/
theorem foldl_preserve {α β : Type} (P : β → Prop) (f : β → α → β)
    (hf : ∀ b a, P b → P (f b a)) :
    ∀ (l : List α) (b : β), P b → P (l.foldl f b) := by
  intro l
  induction l with
  | nil => intro b hP; exact hP
  | cons a t ih => intro b hP; rw [List.foldl_cons]; exact ih _ (hf b a hP)

end FaerLu

namespace FaerLu

/-- The cell loop of the `Front` pass, as a named step. -/
def frontCellStep (dRow : List ℕ) (rgtl : List (Option ℕ))
    (ssize hs gcol dlen mr sj : ℕ) (acc3 : List Fr × List Fr × List Bool × ℕ)
    (di : ℕ) : List Fr × List Fr × List Bool × ℕ :=
  if bget mr acc3.2.2.1 di gcol = false then acc3
  else
    let i := dRow.getD di 0
    let si := (rgtl.getD i none).getD 0 - ssize
    (mset hs acc3.1 si sj ((mget hs acc3.1 si sj).add (mget dlen acc3.2.1 di gcol)),
      mset dlen acc3.2.1 di gcol Fr.zero,
      bset mr acc3.2.2.1 di gcol false,
      acc3.2.2.2 + 1)

/-- Effect of the `Front` cell loop: the target column loses exactly
`taken` set cells, other columns untouched, lengths preserved. -/
theorem frontCellFold_char (dRow : List ℕ) (rgtl : List (Option ℕ))
    (ssize hs gcol dlen mr sj : ℕ) :
    ∀ (rows : List ℕ) (tgt vals : List Fr) (mat : List Bool) (t0 : ℕ),
      (∀ di ∈ rows, di < mr) →
      (rows.foldl (frontCellStep dRow rgtl ssize hs gcol dlen mr sj)
          (tgt, vals, mat, t0)).1.length = tgt.length ∧
      (rows.foldl (frontCellStep dRow rgtl ssize hs gcol dlen mr sj)
          (tgt, vals, mat, t0)).2.1.length = vals.length ∧
      t0 ≤ (rows.foldl (frontCellStep dRow rgtl ssize hs gcol dlen mr sj)
          (tgt, vals, mat, t0)).2.2.2 ∧
      colSum mr (rows.foldl (frontCellStep dRow rgtl ssize hs gcol dlen mr sj)
          (tgt, vals, mat, t0)).2.2.1 gcol +
        (rows.foldl (frontCellStep dRow rgtl ssize hs gcol dlen mr sj)
          (tgt, vals, mat, t0)).2.2.2 = colSum mr mat gcol + t0 ∧
      (∀ j, j ≠ gcol →
        colSum mr (rows.foldl (frontCellStep dRow rgtl ssize hs gcol dlen mr sj)
          (tgt, vals, mat, t0)).2.2.1 j = colSum mr mat j) := by
  intro rows
  induction rows with
  | nil =>
    intro tgt vals mat t0 hmem
    exact ⟨rfl, rfl, Nat.le_refl t0, rfl, fun j hj => rfl⟩
  | cons di rows ih =>
    intro tgt vals mat t0 hmem
    rw [List.foldl_cons]
    have hd : di < mr := hmem di (List.mem_cons_self di rows)
    by_cases hb : bget mr mat di gcol = false
    · have hstep : frontCellStep dRow rgtl ssize hs gcol dlen mr sj
          (tgt, vals, mat, t0) di = (tgt, vals, mat, t0) := by
        simp [frontCellStep, hb]
      rw [hstep]
      exact ih _ _ _ _ (fun x hx => hmem x (List.mem_cons_of_mem _ hx))
    · have hbt : bget mr mat di gcol = true := by
        cases hv : bget mr mat di gcol
        · exact absurd hv hb
        · rfl
      have hstep : frontCellStep dRow rgtl ssize hs gcol dlen mr sj
          (tgt, vals, mat, t0) di =
          (mset hs tgt ((rgtl.getD (dRow.getD di 0) none).getD 0 - ssize) sj
              ((mget hs tgt ((rgtl.getD (dRow.getD di 0) none).getD 0 - ssize) sj).add
                (mget dlen vals di gcol)),
            mset dlen vals di gcol Fr.zero,
            bset mr mat di gcol false,
            t0 + 1) := by
        simp [frontCellStep, hbt]
      rw [hstep]
      obtain ⟨ih0, ih1, ih2, ih3, ih4⟩ := ih _ _ _ _
        (fun x hx => hmem x (List.mem_cons_of_mem _ hx))
      refine ⟨by rw [ih0]; simp [mset], by rw [ih1]; simp [mset], by omega, ?_, ?_⟩
      · have hclear := colSum_clear mr mat di gcol hd
        rw [hbt, if_pos rfl] at hclear
        omega
      · intro j hj
        rw [ih4 j hj, colSum_clear_other mr mat hd hj]

/-- The uniform column-update fact: subtracting a `taken` that the byte
matrix accounts for preserves the column-sum invariant, and the positive
count drops by one exactly when the entry hits zero. -/
theorem contrib_col_update (blk : Contrib) (gcol taken : ℕ)
    (nmat : List Bool) (hInv : ContribInv blk)
    (hguard : 0 < blk.active.getD gcol 0)
    (hcol : colSum blk.matRows nmat gcol + taken = colSum blk.matRows blk.mat gcol)
    (hoth : ∀ j, j ≠ gcol → colSum blk.matRows nmat j = colSum blk.matRows blk.mat j) :
    (∀ j, j < blk.active.length →
      (blk.active.set gcol (blk.active.getD gcol 0 - taken)).getD j 0 =
        colSum blk.matRows nmat j)
    ∧ ((blk.active.set gcol (blk.active.getD gcol 0 - taken)).getD gcol 0 = 0 →
        posCount (blk.active.set gcol (blk.active.getD gcol 0 - taken)) + 1 =
          posCount blk.active)
    ∧ ((blk.active.set gcol (blk.active.getD gcol 0 - taken)).getD gcol 0 ≠ 0 →
        posCount (blk.active.set gcol (blk.active.getD gcol 0 - taken)) =
          posCount blk.active) := by
  have hglen : gcol < blk.active.length := by
    by_contra hc
    rw [List.getD_eq_default _ _ (by omega)] at hguard
    omega
  have hold : blk.active.getD gcol 0 = colSum blk.matRows blk.mat gcol :=
    hInv.1 gcol hglen
  have hat : (blk.active.set gcol (blk.active.getD gcol 0 - taken)).getD gcol 0 =
      blk.active.getD gcol 0 - taken := getD_set_at _ 0 hglen
  refine ⟨?_, ?_, ?_⟩
  · intro j hj
    by_cases hjg : j = gcol
    · subst hjg
      rw [hat]
      omega
    · rw [getD_set_out _ 0 (fun h => hjg h.symm), hInv.1 j hj, hoth j hjg]
  · intro hz
    rw [hat] at hz
    have : blk.active.set gcol (blk.active.getD gcol 0 - taken) =
        blk.active.set gcol 0 := by rw [hz]
    rw [this]
    exact posCount_set_zero blk.active gcol hglen hguard
  · intro hnz
    rw [hat] at hnz
    exact posCount_set_pos blk.active gcol _ (by omega) hguard

end FaerLu

namespace FaerLu

/-- Helper: a list with `isEmpty = false` has positive length. -/
theorem length_pos_of_isEmpty_false {α : Type} {l : List α} (h : l.isEmpty = false) :
    0 < l.length := by
  cases l with
  | nil => cases h
  | cons a t => simp

theorem isEmpty_false_of_length_pos {α : Type} {l : List α} (h : 0 < l.length) :
    l.isEmpty = false := by
  cases l with
  | nil => simp at h
  | cons a t => rfl

/-- One column step of the `LPanel` absorption pass preserves the
per-block invariant and the block dimensions. -/
theorem lPanelInner_pres (ctx : FactCtx) (st : NumState) (rgtl : List (Option ℕ))
    (sb start h : ℕ) (dRow : List ℕ)
    (b b' : List Fr × Contrib) (pr : ℕ × ℕ)
    (hInv : ContribInv b.2) (hdl : dRow.length ≤ b.2.matRows)
    (hstep :
      (do
        let dj := pr.1
        let j := pr.2
        let blk := b.2
        if blk.active.getD (start + dj) 0 > 0 then do
          let cells := absorbCells (fun i => decide (sb ≤ st.rpi.getD i 0)) dRow
            (fun i => (rgtl.getD i none).getD 0) (j - sb) (start + dj)
            (mget h) (mset h) b.1 blk.vals blk.mat blk.matRows
          let taken := cells.2.2.2
          if blk.active.getD (start + dj) 0 < taken then
            throw (.assertFail .activeTakenL)
          let active1 := blk.active.set (start + dj) (blk.active.getD (start + dj) 0 - taken)
          let blk1 : Contrib := ⟨cells.2.1, active1, blk.activeCount, cells.2.2.1, blk.matRows⟩
          if active1.getD (start + dj) 0 = 0 then do
            if blk1.activeCount = 0 then throw (.assertFail .activeCountL)
            pure (cells.1, { blk1 with activeCount := blk1.activeCount - 1 })
          else pure (cells.1, blk1)
        else pure b : Except EmbErr (List Fr × Contrib)) = .ok b') :
    ContribInv b'.2 ∧ b'.2.matRows = b.2.matRows ∧
      b'.2.active.length = b.2.active.length ∧ b'.2.vals.length = b.2.vals.length := by
  have hchar := absorbFold_char (fun i => decide (sb ≤ st.rpi.getD i 0))
    (fun i => (rgtl.getD i none).getD 0) (pr.2 - sb) (start + pr.1)
    (mget h) (mset h) dRow.length b.2.matRows dRow.enum b.1 b.2.vals b.2.mat 0
    (fun q hq => lt_of_lt_of_le (fst_lt_of_mem_enum hq) hdl)
  rw [← absorbCells_eq_foldl] at hchar
  obtain ⟨hc1, hc2, hc3, hc4⟩ := hchar
  rw [Nat.add_zero] at hc3
  simp only [bind, Except.bind, pure, Except.pure] at hstep
  split at hstep
  · rename_i hguard
    have hcu := contrib_col_update b.2 (start + pr.1)
      (absorbCells (fun i => decide (sb ≤ st.rpi.getD i 0)) dRow
        (fun i => (rgtl.getD i none).getD 0) (pr.2 - sb) (start + pr.1)
        (mget h) (mset h) b.1 b.2.vals b.2.mat b.2.matRows).2.2.2
      (absorbCells (fun i => decide (sb ≤ st.rpi.getD i 0)) dRow
        (fun i => (rgtl.getD i none).getD 0) (pr.2 - sb) (start + pr.1)
        (mget h) (mset h) b.1 b.2.vals b.2.mat b.2.matRows).2.2.1
      hInv hguard hc3 (fun j hj => hc4 j hj)
    split at hstep
    · cases hstep
    · rename_i hge
      split at hstep
      · rename_i hz
        split at hstep
        · cases hstep
        · rename_i hcnt
          cases hstep
          refine ⟨⟨fun j hj => ?_, ?_⟩, rfl, by simp, hc1⟩
          · dsimp only at hj ⊢
            rw [List.length_set] at hj
            exact hcu.1 j hj
          · dsimp only
            have hp1 := hcu.2.1 hz
            have hcnt2 := hInv.2
            omega
      · rename_i hz
        cases hstep
        refine ⟨⟨fun j hj => ?_, ?_⟩, rfl, by simp, hc1⟩
        · dsimp only at hj ⊢
          rw [List.length_set] at hj
          exact hcu.1 j hj
        · dsimp only
          have hp2 := hcu.2.2 hz
          have hcnt2 := hInv.2
          omega
  · rename_i hguard
    cases hstep
    exact ⟨hInv, rfl, rfl, rfl⟩

end FaerLu

namespace FaerLu

/-- One column step of the `UPanel` absorption pass preserves the
per-block invariant and the block dimensions. -/
theorem uPanelInner_pres (st : NumState) (rpi : List ℕ) (rgtl cgtl : List (Option ℕ))
    (sb se start w : ℕ) (dRow : List ℕ)
    (b b' : List Fr × Contrib) (pr : ℕ × ℕ)
    (hInv : ContribInv b.2) (hdl : dRow.length ≤ b.2.matRows)
    (hstep :
      (do
        let dj := pr.1
        let j := pr.2
        let blk := b.2
        if blk.active.getD (start + dj) 0 > 0 then do
          let cells := absorbCells
            (fun i => decide (sb ≤ rpi.getD i 0) && decide (rpi.getD i 0 < se)) dRow
            (fun i => (rgtl.getD i none).getD 0) ((cgtl.getD j none).getD 0) (start + dj)
            (uget w) (uset w) b.1 blk.vals blk.mat blk.matRows
          let taken := cells.2.2.2
          if blk.active.getD (start + dj) 0 < taken then
            throw (.assertFail .activeTakenU)
          let active1 := blk.active.set (start + dj) (blk.active.getD (start + dj) 0 - taken)
          let blk1 : Contrib := ⟨cells.2.1, active1, blk.activeCount, cells.2.2.1, blk.matRows⟩
          if active1.getD (start + dj) 0 = 0 then do
            if blk1.activeCount = 0 then throw (.assertFail .activeCountU)
            pure (cells.1, { blk1 with activeCount := blk1.activeCount - 1 })
          else pure (cells.1, blk1)
        else pure b : Except EmbErr (List Fr × Contrib)) = .ok b') :
    ContribInv b'.2 ∧ b'.2.matRows = b.2.matRows ∧
      b'.2.active.length = b.2.active.length ∧ b'.2.vals.length = b.2.vals.length := by
  have hchar := absorbFold_char
    (fun i => decide (sb ≤ rpi.getD i 0) && decide (rpi.getD i 0 < se))
    (fun i => (rgtl.getD i none).getD 0) ((cgtl.getD pr.2 none).getD 0) (start + pr.1)
    (uget w) (uset w) dRow.length b.2.matRows dRow.enum b.1 b.2.vals b.2.mat 0
    (fun q hq => lt_of_lt_of_le (fst_lt_of_mem_enum hq) hdl)
  rw [← absorbCells_eq_foldl] at hchar
  obtain ⟨hc1, hc2, hc3, hc4⟩ := hchar
  rw [Nat.add_zero] at hc3
  simp only [bind, Except.bind, pure, Except.pure] at hstep
  split at hstep
  · rename_i hguard
    have hcu := contrib_col_update b.2 (start + pr.1)
      (absorbCells (fun i => decide (sb ≤ rpi.getD i 0) && decide (rpi.getD i 0 < se)) dRow
        (fun i => (rgtl.getD i none).getD 0) ((cgtl.getD pr.2 none).getD 0) (start + pr.1)
        (uget w) (uset w) b.1 b.2.vals b.2.mat b.2.matRows).2.2.2
      (absorbCells (fun i => decide (sb ≤ rpi.getD i 0) && decide (rpi.getD i 0 < se)) dRow
        (fun i => (rgtl.getD i none).getD 0) ((cgtl.getD pr.2 none).getD 0) (start + pr.1)
        (uget w) (uset w) b.1 b.2.vals b.2.mat b.2.matRows).2.2.1
      hInv hguard hc3 (fun j hj => hc4 j hj)
    split at hstep
    · cases hstep
    · rename_i hge
      split at hstep
      · rename_i hz
        split at hstep
        · cases hstep
        · rename_i hcnt
          cases hstep
          refine ⟨⟨fun j hj => ?_, ?_⟩, rfl, by simp, hc1⟩
          · dsimp only at hj ⊢
            rw [List.length_set] at hj
            exact hcu.1 j hj
          · dsimp only
            have hp1 := hcu.2.1 hz
            have hcnt2 := hInv.2
            omega
      · rename_i hz
        cases hstep
        refine ⟨⟨fun j hj => ?_, ?_⟩, rfl, by simp, hc1⟩
        · dsimp only at hj ⊢
          rw [List.length_set] at hj
          exact hcu.1 j hj
        · dsimp only
          have hp2 := hcu.2.2 hz
          have hcnt2 := hInv.2
          omega
  · rename_i hguard
    cases hstep
    exact ⟨hInv, rfl, rfl, rfl⟩

/-- A positive entry witnesses a positive count. -/
theorem posCount_pos (active : List ℕ) (g : ℕ) (hg : g < active.length)
    (hpos : 0 < active.getD g 0) : 0 < posCount active := by
  have hmem : g ∈ (List.range active.length).filter
      (fun j => decide (0 < active.getD j 0)) :=
    List.mem_filter.mpr ⟨List.mem_range.mpr hg, by simpa using hpos⟩
  exact List.length_pos_of_mem hmem

/-- One column step of the `Front` absorption pass preserves the
per-block invariant, dimensions, and the target length. -/
theorem frontInner_pres (rgtl cgtl : List (Option ℕ)) (ssize h start : ℕ)
    (dRow activeRows : List ℕ) (b : List Fr × Contrib) (pr : ℕ × ℕ)
    (hInv : ContribInv b.2) (hrows : ∀ di ∈ activeRows, di < b.2.matRows) :
    (ContribInv
        ((if b.2.active.getD (start + pr.1) 0 > 0 then
          match cgtl.getD pr.2 none with
          | none => b
          | some sj =>
            let cells := activeRows.foldl
              (frontCellStep dRow rgtl ssize (h - ssize) (start + pr.1) dRow.length
                b.2.matRows sj) (b.1, b.2.vals, b.2.mat, 0)
            let taken := cells.2.2.2
            let active1 := b.2.active.set (start + pr.1)
              (b.2.active.getD (start + pr.1) 0 - taken)
            let count1 := if active1.getD (start + pr.1) 0 = 0 then b.2.activeCount - 1
              else b.2.activeCount
            (cells.1, ⟨cells.2.1, active1, count1, cells.2.2.1, b.2.matRows⟩)
        else b)).2)
    ∧ ((if b.2.active.getD (start + pr.1) 0 > 0 then
          match cgtl.getD pr.2 none with
          | none => b
          | some sj =>
            let cells := activeRows.foldl
              (frontCellStep dRow rgtl ssize (h - ssize) (start + pr.1) dRow.length
                b.2.matRows sj) (b.1, b.2.vals, b.2.mat, 0)
            let taken := cells.2.2.2
            let active1 := b.2.active.set (start + pr.1)
              (b.2.active.getD (start + pr.1) 0 - taken)
            let count1 := if active1.getD (start + pr.1) 0 = 0 then b.2.activeCount - 1
              else b.2.activeCount
            (cells.1, ⟨cells.2.1, active1, count1, cells.2.2.1, b.2.matRows⟩)
        else b)).2.matRows = b.2.matRows
    ∧ ((if b.2.active.getD (start + pr.1) 0 > 0 then
          match cgtl.getD pr.2 none with
          | none => b
          | some sj =>
            let cells := activeRows.foldl
              (frontCellStep dRow rgtl ssize (h - ssize) (start + pr.1) dRow.length
                b.2.matRows sj) (b.1, b.2.vals, b.2.mat, 0)
            let taken := cells.2.2.2
            let active1 := b.2.active.set (start + pr.1)
              (b.2.active.getD (start + pr.1) 0 - taken)
            let count1 := if active1.getD (start + pr.1) 0 = 0 then b.2.activeCount - 1
              else b.2.activeCount
            (cells.1, ⟨cells.2.1, active1, count1, cells.2.2.1, b.2.matRows⟩)
        else b)).2.active.length = b.2.active.length
    ∧ ((if b.2.active.getD (start + pr.1) 0 > 0 then
          match cgtl.getD pr.2 none with
          | none => b
          | some sj =>
            let cells := activeRows.foldl
              (frontCellStep dRow rgtl ssize (h - ssize) (start + pr.1) dRow.length
                b.2.matRows sj) (b.1, b.2.vals, b.2.mat, 0)
            let taken := cells.2.2.2
            let active1 := b.2.active.set (start + pr.1)
              (b.2.active.getD (start + pr.1) 0 - taken)
            let count1 := if active1.getD (start + pr.1) 0 = 0 then b.2.activeCount - 1
              else b.2.activeCount
            (cells.1, ⟨cells.2.1, active1, count1, cells.2.2.1, b.2.matRows⟩)
        else b)).2.vals.length = b.2.vals.length
    ∧ ((if b.2.active.getD (start + pr.1) 0 > 0 then
          match cgtl.getD pr.2 none with
          | none => b
          | some sj =>
            let cells := activeRows.foldl
              (frontCellStep dRow rgtl ssize (h - ssize) (start + pr.1) dRow.length
                b.2.matRows sj) (b.1, b.2.vals, b.2.mat, 0)
            let taken := cells.2.2.2
            let active1 := b.2.active.set (start + pr.1)
              (b.2.active.getD (start + pr.1) 0 - taken)
            let count1 := if active1.getD (start + pr.1) 0 = 0 then b.2.activeCount - 1
              else b.2.activeCount
            (cells.1, ⟨cells.2.1, active1, count1, cells.2.2.1, b.2.matRows⟩)
        else b)).1.length = b.1.length := by
  by_cases hguard : b.2.active.getD (start + pr.1) 0 > 0
  · rw [if_pos hguard]
    cases hc : cgtl.getD pr.2 none with
    | none => exact ⟨hInv, rfl, rfl, rfl, rfl⟩
    | some sj =>
      obtain ⟨hf0, hf1, hf2, hf3, hf4⟩ := frontCellFold_char dRow rgtl ssize (h - ssize)
        (start + pr.1) dRow.length b.2.matRows sj activeRows b.1 b.2.vals b.2.mat 0 hrows
      rw [Nat.add_zero] at hf3
      have hcu := contrib_col_update b.2 (start + pr.1)
        (activeRows.foldl (frontCellStep dRow rgtl ssize (h - ssize) (start + pr.1)
          dRow.length b.2.matRows sj) (b.1, b.2.vals, b.2.mat, 0)).2.2.2
        (activeRows.foldl (frontCellStep dRow rgtl ssize (h - ssize) (start + pr.1)
          dRow.length b.2.matRows sj) (b.1, b.2.vals, b.2.mat, 0)).2.2.1
        hInv hguard hf3 (fun j hj => hf4 j hj)
      have hglen : start + pr.1 < b.2.active.length := by
        by_contra hcx
        rw [List.getD_eq_default _ _ (by omega)] at hguard
        omega
      have hposc : 0 < posCount b.2.active := posCount_pos _ _ hglen hguard
      refine ⟨⟨fun j hj => ?_, ?_⟩, rfl, by simp, hf1, hf0⟩
      · dsimp only at hj ⊢
        rw [List.length_set] at hj
        exact hcu.1 j hj
      · dsimp only
        by_cases hz : (b.2.active.set (start + pr.1)
            (b.2.active.getD (start + pr.1) 0 -
              (activeRows.foldl (frontCellStep dRow rgtl ssize (h - ssize) (start + pr.1)
                dRow.length b.2.matRows sj) (b.1, b.2.vals, b.2.mat, 0)).2.2.2)).getD
            (start + pr.1) 0 = 0
        · rw [if_pos hz]
          have hp1 := hcu.2.1 hz
          have hcnt2 := hInv.2
          omega
        · rw [if_neg hz]
          have hp2 := hcu.2.2 hz
          exact hInv.2.trans hp2.symm
  · rw [if_neg hguard]
    exact ⟨hInv, rfl, rfl, rfl, rfl⟩

end FaerLu

namespace FaerLu

/-- The registry invariant of the contribution blocks, relative to the
state whose slices define each descendant's subdiagonal row count:
every block satisfies the per-block invariant, a freed block is the
empty block, and a live block has a positive active count and a byte
matrix tall enough for its row list. -/
def RegP (ctx : FactCtx) (st : NumState) (l : List Contrib) : Prop :=
  ∀ d, d < l.length →
    ContribInv (l.getD d Contrib.empty) ∧
    ((l.getD d Contrib.empty).vals.isEmpty = true →
      l.getD d Contrib.empty = Contrib.empty) ∧
    ((l.getD d Contrib.empty).vals.isEmpty = false →
      (l.getD d Contrib.empty).activeCount ≠ 0 ∧
      (dRowIndOf ctx st d).length ≤ (l.getD d Contrib.empty).matRows)

/-- The `LPanel` absorption pass preserves the registry invariant; it
never revives a freed block. -/
theorem lPanelPass_pres (ctx : FactCtx) (st : NumState) (rgtl : List (Option ℕ))
    (s h : ℕ) (sL : List Fr) (out : List Fr × List Contrib)
    (hreg : RegP ctx st st.contrib)
    (hx : lPanelPass ctx st rgtl s h sL = .ok out) :
    RegP ctx st out.2 ∧ out.2.length = st.contrib.length ∧
      (∀ d, d < out.2.length → (out.2.getD d Contrib.empty).vals.isEmpty = false →
        (st.contrib.getD d Contrib.empty).vals.isEmpty = false) := by
  unfold lPanelPass at hx
  refine foldlM_ok_preserve
    (fun acc : List Fr × List Contrib =>
      RegP ctx st acc.2 ∧ acc.2.length = st.contrib.length ∧
        (∀ d, d < acc.2.length → (acc.2.getD d Contrib.empty).vals.isEmpty = false →
          (st.contrib.getD d Contrib.empty).vals.isEmpty = false))
    _ ?_ (ctx.descWindow s) (sL, st.contrib) out ⟨hreg, rfl, fun d hd hl => hl⟩ hx
  intro b d b' hP hstep
  simp only [bind, Except.bind, pure, Except.pure] at hstep
  split at hstep
  · cases hstep
    exact hP
  · rename_i hne
    split at hstep
    · rename_i hcond
      split at hstep
      · cases hstep
      · rename_i res hres
        cases hstep
        have hdlen : d < b.2.length := by
          by_contra hc
          rw [List.getD_eq_default _ _ (by omega)] at hne
          exact hne rfl
        have hPd := hP.1 d hdlen
        have hlive : (b.2.getD d Contrib.empty).vals.isEmpty = false := by
          cases hv : (b.2.getD d Contrib.empty).vals.isEmpty
          · rfl
          · exact absurd hv hne
        have hliveF := hPd.2.2 hlive
        have hinner := foldlM_ok_preserve2
          (fun b2 : List Fr × Contrib =>
            ContribInv b2.2 ∧ b2.2.matRows = (b.2.getD d Contrib.empty).matRows ∧
              b2.2.active.length = (b.2.getD d Contrib.empty).active.length ∧
              b2.2.vals.length = (b.2.getD d Contrib.empty).vals.length)
          _ _ (b.1, b.2.getD d Contrib.empty) res ⟨hPd.1, rfl, rfl, rfl⟩ hres
          (fun b2 pr b2' hP2 h2 =>
            have hres2 := lPanelInner_pres ctx st rgtl (ctx.sptr s)
              (partPoint (ctx.sptr s) (dColIndOf st d)) h (dRowIndOf ctx st d)
              b2 b2' pr hP2.1 (by rw [hP2.2.1]; exact hliveF.2) h2
            ⟨hres2.1, hres2.2.1.trans hP2.2.1, hres2.2.2.1.trans hP2.2.2.1,
              hres2.2.2.2.trans hP2.2.2.2⟩)
        have hvpos : 0 < (b.2.getD d Contrib.empty).vals.length :=
          length_pos_of_isEmpty_false hlive
        refine ⟨?_, by simpa using hP.2.1, ?_⟩
        · intro d' hd'
          rw [List.length_set] at hd'
          by_cases hdd : d' = d
          · subst hdd
            rw [getD_set_at _ Contrib.empty hd']
            by_cases hcz : res.2.activeCount = 0
            · rw [if_pos hcz]
              exact ⟨contribInv_empty, fun _ => rfl, fun hf => by simp [Contrib.empty] at hf⟩
            · rw [if_neg hcz]
              refine ⟨hinner.1, fun hemp => ?_, fun _ => ⟨hcz, ?_⟩⟩
              · rw [List.isEmpty_iff] at hemp
                have := hinner.2.2.2
                rw [hemp, List.length_nil] at this
                omega
              · rw [hinner.2.1]
                exact hliveF.2
          · rw [getD_set_out _ Contrib.empty (fun hh => hdd hh.symm)]
            exact hP.1 d' hd'
        · intro d' hd' hlv
          rw [List.length_set] at hd'
          by_cases hdd : d' = d
          · subst hdd
            exact hP.2.2 d' hd' hlive
          · rw [getD_set_out _ Contrib.empty (fun hh => hdd hh.symm)] at hlv
            exact hP.2.2 d' hd' hlv
    · cases hstep
      exact hP

end FaerLu

namespace FaerLu

/-- The `UPanel` absorption pass preserves the registry invariant; it
never revives a freed block. -/
theorem uPanelPass_pres (ctx : FactCtx) (st : NumState) (rpi : List ℕ)
    (rgtl cgtl : List (Option ℕ)) (s w : ℕ) (sU : List Fr) (l : List Contrib)
    (out : List Fr × List Contrib)
    (hreg : RegP ctx st l)
    (hx : uPanelPass ctx st rpi rgtl cgtl s w sU l = .ok out) :
    RegP ctx st out.2 ∧ out.2.length = l.length ∧
      (∀ d, d < out.2.length → (out.2.getD d Contrib.empty).vals.isEmpty = false →
        (l.getD d Contrib.empty).vals.isEmpty = false) := by
  unfold uPanelPass at hx
  refine foldlM_ok_preserve
    (fun acc : List Fr × List Contrib =>
      RegP ctx st acc.2 ∧ acc.2.length = l.length ∧
        (∀ d, d < acc.2.length → (acc.2.getD d Contrib.empty).vals.isEmpty = false →
          (l.getD d Contrib.empty).vals.isEmpty = false))
    _ ?_ (ctx.descWindow s) (sU, l) out ⟨hreg, rfl, fun d hd hl => hl⟩ hx
  intro b d b' hP hstep
  simp only [bind, Except.bind, pure, Except.pure] at hstep
  split at hstep
  · cases hstep
    exact hP
  · rename_i hne
    split at hstep
    · rename_i hcond
      split at hstep
      · cases hstep
      · rename_i res hres
        cases hstep
        have hdlen : d < b.2.length := by
          by_contra hc
          rw [List.getD_eq_default _ _ (by omega)] at hne
          exact hne rfl
        have hPd := hP.1 d hdlen
        have hlive : (b.2.getD d Contrib.empty).vals.isEmpty = false := by
          cases hv : (b.2.getD d Contrib.empty).vals.isEmpty
          · rfl
          · exact absurd hv hne
        have hliveF := hPd.2.2 hlive
        have hinner := foldlM_ok_preserve2
          (fun b2 : List Fr × Contrib =>
            ContribInv b2.2 ∧ b2.2.matRows = (b.2.getD d Contrib.empty).matRows ∧
              b2.2.active.length = (b.2.getD d Contrib.empty).active.length ∧
              b2.2.vals.length = (b.2.getD d Contrib.empty).vals.length)
          _ _ (b.1, b.2.getD d Contrib.empty) res ⟨hPd.1, rfl, rfl, rfl⟩ hres
          (fun b2 pr b2' hP2 h2 =>
            have hres2 := uPanelInner_pres st rpi rgtl cgtl (ctx.sptr s) (ctx.sptr (s + 1))
              (partPoint (ctx.sptr (s + 1)) (dColIndOf st d)) w (dRowIndOf ctx st d)
              b2 b2' pr hP2.1 (by rw [hP2.2.1]; exact hliveF.2) h2
            ⟨hres2.1, hres2.2.1.trans hP2.2.1, hres2.2.2.1.trans hP2.2.2.1,
              hres2.2.2.2.trans hP2.2.2.2⟩)
        have hvpos : 0 < (b.2.getD d Contrib.empty).vals.length :=
          length_pos_of_isEmpty_false hlive
        refine ⟨?_, by simpa using hP.2.1, ?_⟩
        · intro d' hd'
          rw [List.length_set] at hd'
          by_cases hdd : d' = d
          · subst hdd
            rw [getD_set_at _ Contrib.empty hd']
            by_cases hcz : res.2.activeCount = 0
            · rw [if_pos hcz]
              exact ⟨contribInv_empty, fun _ => rfl, fun hf => by simp [Contrib.empty] at hf⟩
            · rw [if_neg hcz]
              refine ⟨hinner.1, fun hemp => ?_, fun _ => ⟨hcz, ?_⟩⟩
              · rw [List.isEmpty_iff] at hemp
                have := hinner.2.2.2
                rw [hemp, List.length_nil] at this
                omega
              · rw [hinner.2.1]
                exact hliveF.2
          · rw [getD_set_out _ Contrib.empty (fun hh => hdd hh.symm)]
            exact hP.1 d' hd'
        · intro d' hd' hlv
          rw [List.length_set] at hd'
          by_cases hdd : d' = d
          · subst hdd
            exact hP.2.2 d' hd' hlive
          · rw [getD_set_out _ Contrib.empty (fun hh => hdd hh.symm)] at hlv
            exact hP.2.2 d' hd' hlv
    · cases hstep
      exact hP

end FaerLu


namespace FaerLu

/-- The per-descendant step of the `Front` pass, with the cell loop
named. -/
def frontOuterStep (ctx : FactCtx) (st : NumState) (rpi : List ℕ)
    (rgtl cgtl : List (Option ℕ)) (s ssize h : ℕ)
    (acc : List Fr × List Contrib) (d : ℕ) : List Fr × List Contrib :=
  let se := ctx.sptr (s + 1)
  let blk := acc.2.getD d Contrib.empty
  if blk.vals.isEmpty then acc
  else
    let dRow := dRowIndOf ctx st d
    let dCol := dColIndOf st d
    if dRow.any (fun i => decide (se ≤ rpi.getD i 0)) then
      let start := partPoint se dCol
      let activeRows := (dRow.enum.filter
        (fun qr => decide (se ≤ rpi.getD qr.2 0) && (rgtl.getD qr.2 none).isSome)).map
        (fun qr => qr.1)
      let res := ((dCol.drop start).enum).foldl
        (fun (acc2 : List Fr × Contrib) pr =>
          if acc2.2.active.getD (start + pr.1) 0 > 0 then
            match cgtl.getD pr.2 none with
            | none => acc2
            | some sj =>
              let cells := activeRows.foldl
                (frontCellStep dRow rgtl ssize (h - ssize) (start + pr.1) dRow.length
                  acc2.2.matRows sj) (acc2.1, acc2.2.vals, acc2.2.mat, 0)
              let taken := cells.2.2.2
              let active1 := acc2.2.active.set (start + pr.1)
                (acc2.2.active.getD (start + pr.1) 0 - taken)
              let count1 := if active1.getD (start + pr.1) 0 = 0 then acc2.2.activeCount - 1
                else acc2.2.activeCount
              (cells.1, ⟨cells.2.1, active1, count1, cells.2.2.1, acc2.2.matRows⟩)
          else acc2)
        (acc.1, blk)
      let blkF := if res.2.activeCount = 0 then Contrib.empty else res.2
      (res.1, acc.2.set d blkF)
    else acc

theorem frontPass_eq (ctx : FactCtx) (st : NumState) (rpi : List ℕ)
    (rgtl cgtl : List (Option ℕ)) (s ssize h : ℕ) (sLU : List Fr) (l : List Contrib) :
    frontPass ctx st rpi rgtl cgtl s ssize h sLU l =
      (ctx.descWindow s).foldl (frontOuterStep ctx st rpi rgtl cgtl s ssize h)
        (sLU, l) := rfl

/-- The `Front` absorption pass preserves the registry invariant, never
revives a freed block, and keeps the target length. -/
theorem frontPass_pres (ctx : FactCtx) (st : NumState) (rpi : List ℕ)
    (rgtl cgtl : List (Option ℕ)) (s ssize h : ℕ) (sLU : List Fr) (l : List Contrib)
    (hreg : RegP ctx st l) :
    RegP ctx st (frontPass ctx st rpi rgtl cgtl s ssize h sLU l).2 ∧
      (frontPass ctx st rpi rgtl cgtl s ssize h sLU l).2.length = l.length ∧
      (∀ d, d < (frontPass ctx st rpi rgtl cgtl s ssize h sLU l).2.length →
        ((frontPass ctx st rpi rgtl cgtl s ssize h sLU l).2.getD d
          Contrib.empty).vals.isEmpty = false →
        (l.getD d Contrib.empty).vals.isEmpty = false) ∧
      (frontPass ctx st rpi rgtl cgtl s ssize h sLU l).1.length = sLU.length := by
  rw [frontPass_eq]
  refine foldl_preserve
    (fun acc : List Fr × List Contrib =>
      RegP ctx st acc.2 ∧ acc.2.length = l.length ∧
        (∀ d, d < acc.2.length → (acc.2.getD d Contrib.empty).vals.isEmpty = false →
          (l.getD d Contrib.empty).vals.isEmpty = false) ∧
        acc.1.length = sLU.length)
    _ ?_ (ctx.descWindow s) (sLU, l) ⟨hreg, rfl, fun d hd hl => hl, rfl⟩
  intro b d hP
  unfold frontOuterStep
  by_cases hne : (b.2.getD d Contrib.empty).vals.isEmpty = true
  · rw [if_pos hne]
    exact hP
  · rw [if_neg hne]
    by_cases hany : (dRowIndOf ctx st d).any
        (fun i => decide (ctx.sptr (s + 1) ≤ rpi.getD i 0)) = true
    · rw [if_pos hany]
      dsimp only
      have hdlen : d < b.2.length := by
        by_contra hc
        rw [List.getD_eq_default _ _ (by omega)] at hne
        exact hne rfl
      have hPd := hP.1 d hdlen
      have hlive : (b.2.getD d Contrib.empty).vals.isEmpty = false := by
        cases hv : (b.2.getD d Contrib.empty).vals.isEmpty
        · rfl
        · exact absurd hv hne
      have hliveF := hPd.2.2 hlive
      have hvpos : 0 < (b.2.getD d Contrib.empty).vals.length :=
        length_pos_of_isEmpty_false hlive
      have hrows : ∀ di ∈ (((dRowIndOf ctx st d).enum.filter
          (fun qr => decide (ctx.sptr (s + 1) ≤ rpi.getD qr.2 0) &&
            (rgtl.getD qr.2 none).isSome)).map (fun qr => qr.1)),
          di < (b.2.getD d Contrib.empty).matRows := by
        intro di hdi
        rcases List.mem_map.mp hdi with ⟨qr, hqr, hqd⟩
        have h1 := fst_lt_of_mem_enum (List.mem_filter.mp hqr).1
        have h2 := hliveF.2
        omega
      have hinner := foldl_preserve
        (fun b2 : List Fr × Contrib =>
          ContribInv b2.2 ∧ b2.2.matRows = (b.2.getD d Contrib.empty).matRows ∧
            b2.2.active.length = (b.2.getD d Contrib.empty).active.length ∧
            b2.2.vals.length = (b.2.getD d Contrib.empty).vals.length ∧
            b2.1.length = b.1.length)
        _
        (fun b2 pr hP2 =>
          have hres2 := frontInner_pres rgtl cgtl ssize h
            (partPoint (ctx.sptr (s + 1)) (dColIndOf st d)) (dRowIndOf ctx st d)
            (((dRowIndOf ctx st d).enum.filter
              (fun qr => decide (ctx.sptr (s + 1) ≤ rpi.getD qr.2 0) &&
                (rgtl.getD qr.2 none).isSome)).map (fun qr => qr.1))
            b2 pr hP2.1 (fun di hdi => hP2.2.1 ▸ hrows di hdi)
          ⟨hres2.1, hres2.2.1.trans hP2.2.1, hres2.2.2.1.trans hP2.2.2.1,
            hres2.2.2.2.1.trans hP2.2.2.2.1, hres2.2.2.2.2.trans hP2.2.2.2.2⟩)
        (((dColIndOf st d).drop (partPoint (ctx.sptr (s + 1)) (dColIndOf st d))).enum)
        (b.1, b.2.getD d Contrib.empty) ⟨hPd.1, rfl, rfl, rfl, rfl⟩
      split
      · rename_i hcz
        refine ⟨?_, by simpa using hP.2.1, ?_, hinner.2.2.2.2.trans hP.2.2.2⟩
        · intro d2 hd2
          rw [List.length_set] at hd2
          by_cases hdd : d2 = d
          · subst hdd
            rw [getD_set_at _ Contrib.empty hd2]
            exact ⟨contribInv_empty, fun _ => rfl, fun hf => by simp [Contrib.empty] at hf⟩
          · rw [getD_set_out _ Contrib.empty (fun hh => hdd hh.symm)]
            exact hP.1 d2 hd2
        · intro d2 hd2 hlv
          rw [List.length_set] at hd2
          by_cases hdd : d2 = d
          · subst hdd
            exact hP.2.2.1 d2 hd2 hlive
          · rw [getD_set_out _ Contrib.empty (fun hh => hdd hh.symm)] at hlv
            exact hP.2.2.1 d2 hd2 hlv
      · rename_i hcz
        refine ⟨?_, by simpa using hP.2.1, ?_, hinner.2.2.2.2.trans hP.2.2.2⟩
        · intro d2 hd2
          rw [List.length_set] at hd2
          by_cases hdd : d2 = d
          · subst hdd
            rw [getD_set_at _ Contrib.empty hd2]
            refine ⟨hinner.1, fun hemp => ?_, fun _ => ⟨hcz, ?_⟩⟩
            · rw [List.isEmpty_iff] at hemp
              have := hinner.2.2.2.1
              rw [hemp, List.length_nil] at this
              omega
            · rw [hinner.2.1]
              exact hliveF.2
          · rw [getD_set_out _ Contrib.empty (fun hh => hdd hh.symm)]
            exact hP.1 d2 hd2
        · intro d2 hd2 hlv
          rw [List.length_set] at hd2
          by_cases hdd : d2 = d
          · subst hdd
            exact hP.2.2.1 d2 hd2 hlive
          · rw [getD_set_out _ Contrib.empty (fun hh => hdd hh.symm)] at hlv
            exact hP.2.2.1 d2 hd2 hlv
    · rw [if_neg hany]
      exact hP

end FaerLu

namespace FaerLu

theorem getD_replicate_lt {α : Type} (n i : ℕ) (a d : α) (h : i < n) :
    (List.replicate n a).getD i d = a := by
  rw [List.getD_eq_getElem?_getD, List.getElem?_replicate, if_pos h]
  rfl

/-- Every column of the all-set byte matrix of an `mr × w` block counts
`mr`. -/
theorem colSum_replicate_true (mr w j : ℕ) (hj : j < w) :
    colSum mr (List.replicate (mr * w) true) j = mr := by
  unfold colSum
  have hall : ∀ i ∈ List.range mr,
      (fun i => bget mr (List.replicate (mr * w) true) i j) i = true := by
    intro i hi
    have him : i < mr := List.mem_range.mp hi
    have hidx : i + j * mr < mr * w := by
      have h1 : (j + 1) * mr ≤ w * mr := Nat.mul_le_mul_right mr hj
      have h2 : (j + 1) * mr = j * mr + mr := by ring
      have h3 : w * mr = mr * w := Nat.mul_comm w mr
      omega
    show bget mr (List.replicate (mr * w) true) i j = true
    unfold bget
    rw [List.getD_eq_getElem?_getD, List.getElem?_replicate, if_pos hidx]
    rfl
  rw [List.filter_eq_self.mpr hall, List.length_range]

/-- The positive count of a constant positive vector is its length. -/
theorem posCount_replicate_pos (w a : ℕ) (ha : 0 < a) :
    posCount (List.replicate w a) = w := by
  unfold posCount
  rw [List.length_replicate]
  have hall : ∀ j ∈ List.range w,
      (fun j => decide (0 < (List.replicate w a).getD j 0)) j = true := by
    intro j hj
    have hjw := List.mem_range.mp hj
    show decide (0 < (List.replicate w a).getD j 0) = true
    rw [getD_replicate_lt w j a 0 hjw]
    simpa using ha
  rw [List.filter_eq_self.mpr hall, List.length_range]

/-- Length of the Schur-complement value matrix built by one matmul. -/
theorem schurVals_length (w mr : ℕ) (f : ℕ → ℕ → Fr) :
    ((List.range w).flatMap (fun dj => (List.range mr).map (f dj))).length = w * mr := by
  rw [List.length_flatMap]
  have h1 : (List.map (List.length ∘ fun dj => List.map (f dj) (List.range mr))
      (List.range w)) = List.replicate w mr := by
    rw [List.eq_replicate_iff]
    refine ⟨by simp, ?_⟩
    intro x hx
    rcases List.mem_map.mp hx with ⟨dj, hdj, hlen⟩
    simp at hlen
    omega
  rw [h1, List.sum_replicate, smul_eq_mul]

/-- The Schur-front step (block allocation, matmul fill, and `Front`
pass) preserves the registry invariant; any new live block sits at
index `s`. -/
theorem schurFront_pres (ctx : FactCtx) (st : NumState) (rpi1 : List ℕ)
    (rgtl2 cgtl1 : List (Option ℕ)) (s ssize h w : ℕ) (kerM sU2 : List Fr)
    (l : List Contrib) (hreg : RegP ctx st l)
    (hds : (dRowIndOf ctx st s).length ≤ h - ssize) :
    RegP ctx st (schurFront ctx st rpi1 rgtl2 cgtl1 s ssize h w kerM sU2 l) ∧
      (schurFront ctx st rpi1 rgtl2 cgtl1 s ssize h w kerM sU2 l).length = l.length ∧
      (∀ d, d < (schurFront ctx st rpi1 rgtl2 cgtl1 s ssize h w kerM sU2 l).length →
        ((schurFront ctx st rpi1 rgtl2 cgtl1 s ssize h w kerM sU2 l).getD d
          Contrib.empty).vals.isEmpty = false →
        (l.getD d Contrib.empty).vals.isEmpty = false ∨ d = s) ∧
      ((schurFront ctx st rpi1 rgtl2 cgtl1 s ssize h w kerM sU2 l).getD s Contrib.empty =
          l.getD s Contrib.empty ∨
        ((schurFront ctx st rpi1 rgtl2 cgtl1 s ssize h w kerM sU2 l).getD s
          Contrib.empty).matRows = h - ssize) := by
  unfold schurFront
  by_cases hg : ssize < h ∧ 0 < w
  · rw [if_pos hg]
    have hss := hg.1
    have hw := hg.2
    have hmr : 0 < h - ssize := by omega
    have hnbInv : ContribInv
        ⟨(List.range w).flatMap
          (fun dj => (List.range (h - ssize)).map
            (fun di => listSum ssize
              (fun p => (mget h kerM (ssize + di) p).mul (uget w sU2 p dj)))),
          List.replicate w (h - ssize), w,
          List.replicate ((h - ssize) * w) true, h - ssize⟩ := by
      constructor
      · intro j hj
        rw [List.length_replicate] at hj
        rw [getD_replicate_lt w j (h - ssize) 0 hj]
        exact (colSum_replicate_true (h - ssize) w j hj).symm
      · exact (posCount_replicate_pos w (h - ssize) hmr).symm
    have hset1 : RegP ctx st (l.set s
        ⟨(List.range w).flatMap
          (fun dj => (List.range (h - ssize)).map
            (fun di => listSum ssize
              (fun p => (mget h kerM (ssize + di) p).mul (uget w sU2 p dj)))),
          List.replicate w (h - ssize), w,
          List.replicate ((h - ssize) * w) true, h - ssize⟩) := by
      intro d hd
      rw [List.length_set] at hd
      by_cases hdd : d = s
      · subst hdd
        rw [getD_set_at _ Contrib.empty hd]
        refine ⟨hnbInv, fun hemp => ?_, fun _ => ⟨by dsimp only; omega, hds⟩⟩
        · rw [List.isEmpty_iff] at hemp
          dsimp only at hemp
          have hlen := schurVals_length w (h - ssize)
            (fun dj di => listSum ssize
              (fun p => (mget h kerM (ssize + di) p).mul (uget w sU2 p dj)))
          rw [hemp, List.length_nil] at hlen
          have := Nat.mul_pos hw hmr
          omega
      · rw [getD_set_out _ Contrib.empty (fun hh => hdd hh.symm)]
        exact hreg d hd
    have hfp := frontPass_pres ctx st rpi1 rgtl2 cgtl1 s ssize h
      ((List.range w).flatMap
        (fun dj => (List.range (h - ssize)).map
          (fun di => listSum ssize
            (fun p => (mget h kerM (ssize + di) p).mul (uget w sU2 p dj)))))
      (l.set s
        ⟨(List.range w).flatMap
          (fun dj => (List.range (h - ssize)).map
            (fun di => listSum ssize
              (fun p => (mget h kerM (ssize + di) p).mul (uget w sU2 p dj)))),
          List.replicate w (h - ssize), w,
          List.replicate ((h - ssize) * w) true, h - ssize⟩)
      hset1
    have hfplen : 0 < (frontPass ctx st rpi1 rgtl2 cgtl1 s ssize h
        ((List.range w).flatMap
          (fun dj => (List.range (h - ssize)).map
            (fun di => listSum ssize
              (fun p => (mget h kerM (ssize + di) p).mul (uget w sU2 p dj)))))
        (l.set s
          ⟨(List.range w).flatMap
            (fun dj => (List.range (h - ssize)).map
              (fun di => listSum ssize
                (fun p => (mget h kerM (ssize + di) p).mul (uget w sU2 p dj)))),
            List.replicate w (h - ssize), w,
            List.replicate ((h - ssize) * w) true, h - ssize⟩)).1.length := by
      rw [hfp.2.2.2]
      rw [schurVals_length w (h - ssize)
        (fun dj di => listSum ssize
          (fun p => (mget h kerM (ssize + di) p).mul (uget w sU2 p dj)))]
      exact Nat.mul_pos hg.2 hmr
    refine ⟨?_, ?_, ?_, ?_⟩
    · intro d hd
      rw [List.length_set] at hd
      by_cases hdd : d = s
      · subst hdd
        rw [getD_set_at _ Contrib.empty hd]
        refine ⟨⟨?_, ?_⟩, fun hemp => ?_, fun _ => ⟨by dsimp only; omega, hds⟩⟩
        · intro j hj
          rw [List.length_replicate] at hj
          rw [getD_replicate_lt w j (h - ssize) 0 hj]
          exact (colSum_replicate_true (h - ssize) w j hj).symm
        · exact (posCount_replicate_pos w (h - ssize) hmr).symm
        · rw [List.isEmpty_iff] at hemp
          dsimp only at hemp
          rw [hemp, List.length_nil] at hfplen
          omega
      · rw [getD_set_out _ Contrib.empty (fun hh => hdd hh.symm)]
        exact hfp.1 d hd
    · rw [List.length_set, hfp.2.1, List.length_set]
    · intro d hd hlv
      rw [List.length_set] at hd
      by_cases hdd : d = s
      · right; exact hdd
      · left
        rw [getD_set_out _ Contrib.empty (fun hh => hdd hh.symm)] at hlv
        have := hfp.2.2.1 d (by omega) hlv
        rw [getD_set_out _ Contrib.empty (fun hh => hdd hh.symm)] at this
        exact this
    · by_cases hsl : s < (frontPass ctx st rpi1 rgtl2 cgtl1 s ssize h
          ((List.range w).flatMap
            (fun dj => (List.range (h - ssize)).map
              (fun di => listSum ssize
                (fun p => (mget h kerM (ssize + di) p).mul (uget w sU2 p dj)))))
          (l.set s
            ⟨(List.range w).flatMap
              (fun dj => (List.range (h - ssize)).map
                (fun di => listSum ssize
                  (fun p => (mget h kerM (ssize + di) p).mul (uget w sU2 p dj)))),
              List.replicate w (h - ssize), w,
              List.replicate ((h - ssize) * w) true, h - ssize⟩)).2.length
      · right
        rw [getD_set_at _ Contrib.empty hsl]
      · left
        rw [List.set_eq_of_length_le (by omega), List.getD_eq_default _ _ (by omega),
          List.getD_eq_default _ _ (by
            have := hfp.2.1
            rw [List.length_set] at this
            omega)]
  · rw [if_neg hg]
    exact ⟨hreg, rfl, fun d hd hlv => Or.inl hlv, Or.inl rfl⟩

end FaerLu

namespace FaerLu

/-- The structural invariant of the growing `l_col_ptr_for_row_ind` /
`l_row_ind` arrays after `k` supernodes. -/
def LPtr (k : ℕ) (st : NumState) : Prop :=
  st.lPtrR.length = k + 1 ∧ (∀ i, st.lPtrR.getD i 0 ≤ st.lRow.length) ∧
    st.lPtrR.getD k 0 = st.lRow.length

theorem getD_append_self {α : Type} (l : List α) (x d : α) :
    (l ++ [x]).getD l.length d = x := by
  rw [List.getD_eq_getElem?_getD, List.getElem?_append_right (Nat.le_refl l.length)]
  simp

/-- The transposition walk returns a row slice of the input's length. -/
theorem applyTranspositions_chunk_length (sb : ℕ) (t chunk rp rpi : List ℕ) :
    (applyTranspositions sb t chunk rp rpi).2.length = chunk.length := by
  unfold applyTranspositions
  refine foldl_preserve (fun acc : (List ℕ × List ℕ) × List ℕ =>
    acc.2.length = chunk.length) _ ?_ t.enum ((rp, rpi), chunk) rfl
  intro b a hP
  show (swapLD 0 b.2 a.1 (a.1 + a.2)).length = chunk.length
  rw [length_swapLD]
  exact hP

/-- Appending a supernode's slices does not move the earlier descendants'
subdiagonal row lists. -/
theorem dRowIndOf_stable (ctx : FactCtx) (st st' : NumState) (k : ℕ) (hL : LPtr k st)
    (lRx : ℕ) (chunkF : List ℕ) (d : ℕ) (hd : d < k)
    (h1 : st'.lPtrR = st.lPtrR ++ [lRx]) (h2 : st'.lRow = st.lRow ++ chunkF) :
    dRowIndOf ctx st' d = dRowIndOf ctx st d := by
  unfold dRowIndOf
  rw [h1, h2]
  dsimp only
  have hlen := hL.1
  rw [getD_append_lt st.lPtrR [lRx] d 0 (by omega),
    getD_append_lt st.lPtrR [lRx] (d + 1) 0 (by omega)]
  rw [slice_append_stable st.lRow chunkF (st.lPtrR.getD d 0)
    (st.lPtrR.getD (d + 1) 0) (hL.2.1 (d + 1))]

/-- The new supernode's subdiagonal row list is the tail of its pivoted
row slice. -/
theorem dRowIndOf_new (ctx : FactCtx) (st st' : NumState) (k : ℕ) (hL : LPtr k st)
    (chunkF : List ℕ)
    (h1 : st'.lPtrR = st.lPtrR ++ [st.lPtrR.getD k 0 + chunkF.length])
    (h2 : st'.lRow = st.lRow ++ chunkF) :
    dRowIndOf ctx st' k = chunkF.drop (ctx.sptr (k + 1) - ctx.sptr k) := by
  unfold dRowIndOf
  rw [h1, h2]
  dsimp only
  have hlen : (st.lPtrR).length = k + 1 := hL.1
  rw [getD_append_lt st.lPtrR _ k 0 (by omega)]
  have hk1 : (st.lPtrR ++ [st.lPtrR.getD k 0 + chunkF.length]).getD (k + 1) 0 =
      st.lPtrR.getD k 0 + chunkF.length := by
    rw [← hlen]
    exact getD_append_self st.lPtrR _ 0
  rw [hk1, hL.2.2]
  rw [List.drop_left, Nat.add_sub_cancel_left, List.take_length]

end FaerLu

namespace FaerLu

/-- The combined loop invariant for the contribution registry: the L
pointer structure, the registry size, live blocks indexed by processed
supernodes, and the per-block registry invariant. -/
def C5Inv (ctx : FactCtx) (k : ℕ) (st : NumState) : Prop :=
  LPtr k st ∧ st.contrib.length = ctx.S ∧
    (∀ d, d < st.contrib.length →
      (st.contrib.getD d Contrib.empty).vals.isEmpty = false → d < k) ∧
    RegP ctx st st.contrib

/-- The supernode step, stated over the field equations of the new
state, preserves the combined invariant. -/
theorem c5_step_general (ctx : FactCtx) (st st' : NumState) (s : ℕ)
    (hL : LPtr s st) (hSlen : st.contrib.length = ctx.S)
    (hlividx : ∀ d, d < st.contrib.length →
      (st.contrib.getD d Contrib.empty).vals.isEmpty = false → d < s)
    (hreg : RegP ctx st st.contrib)
    (rgtl1 rgtl2 cgtl1 : List (Option ℕ)) (rpi1 : List ℕ) (n0 w : ℕ)
    (sLv sUv : List Fr) (ab1 ab2 : List Fr × List Contrib)
    (chunkF : List ℕ) (hcf : chunkF.length = n0) (kerM sU2 : List Fr)
    (hab1 : lPanelPass ctx st rgtl1 s n0 sLv = .ok ab1)
    (hab2 : uPanelPass ctx st rpi1 rgtl2 cgtl1 s w sUv ab1.2 = .ok ab2)
    (hptr2 : st'.lPtrR = st.lPtrR ++ [st.lPtrR.getD s 0 + n0])
    (hrow2 : st'.lRow = st.lRow ++ chunkF)
    (hcont2 : st'.contrib = schurFront ctx st rpi1 rgtl2 cgtl1 s
      (ctx.sptr (s + 1) - ctx.sptr s) n0 w kerM sU2 ab2.2) :
    C5Inv ctx (s + 1) st' := by
  have hp1 := lPanelPass_pres ctx st rgtl1 s n0 sLv ab1 hreg hab1
  have hp2 := uPanelPass_pres ctx st rpi1 rgtl2 cgtl1 s w sUv ab1.2 ab2 hp1.1 hab2
  have hds : (dRowIndOf ctx st s).length ≤ n0 - (ctx.sptr (s + 1) - ctx.sptr s) := by
    have hempty : dRowIndOf ctx st s = [] := by
      unfold dRowIndOf
      dsimp only
      have hlen := hL.1
      rw [List.getD_eq_default st.lPtrR 0 (by omega)]
      simp
    rw [hempty]
    simp
  have hp3 := schurFront_pres ctx st rpi1 rgtl2 cgtl1 s
    (ctx.sptr (s + 1) - ctx.sptr s) n0 w kerM sU2 ab2.2 hp2.1 hds
  have e1 := hp1.2.1
  have e2 := hp2.2.1
  have e3 := hp3.2.1
  have hL2 : LPtr (s + 1) st' := by
    refine ⟨?_, ?_, ?_⟩
    · rw [hptr2, List.length_append, hL.1]
      simp
    · intro i
      rw [hptr2, hrow2]
      by_cases hi : i < st.lPtrR.length
      · rw [getD_append_lt _ _ i 0 hi]
        have h1 := hL.2.1 i
        rw [List.length_append]
        omega
      · by_cases hi2 : i = st.lPtrR.length
        · subst hi2
          rw [getD_append_self, List.length_append, hL.2.2, hcf]
        · rw [List.getD_eq_default _ _
            (by rw [List.length_append, List.length_cons, List.length_nil]; omega)]
          omega
    · rw [hptr2, hrow2]
      have hlen : st.lPtrR.length = s + 1 := hL.1
      rw [← hlen, getD_append_self, List.length_append, hL.2.2, hcf]
  refine ⟨hL2, ?_, ?_, ?_⟩
  · rw [hcont2, e3, e2, e1, hSlen]
  · intro d hd hlv
    rw [hcont2] at hd hlv
    rcases hp3.2.2.1 d hd hlv with hlv2 | hde
    · have hlv3 := hp2.2.2 d (by omega) hlv2
      have hlv4 := hp1.2.2 d (by omega) hlv3
      have := hlividx d (by omega) hlv4
      omega
    · omega
  · intro d hd
    rw [hcont2] at hd ⊢
    have base := hp3.1 d hd
    refine ⟨base.1, base.2.1, fun hlv => ?_⟩
    refine ⟨(base.2.2 hlv).1, ?_⟩
    rcases hp3.2.2.1 d hd hlv with hlv2 | hde
    · have hlv3 := hp2.2.2 d (by omega) hlv2
      have hlv4 := hp1.2.2 d (by omega) hlv3
      have hdlt := hlividx d (by omega) hlv4
      rw [dRowIndOf_stable ctx st st' s hL _ chunkF d hdlt hptr2 hrow2]
      exact (base.2.2 hlv).2
    · subst hde
      rcases hp3.2.2.2 with heq | hmatr
      · rw [heq] at hlv
        have hlv3 := hp2.2.2 d (by omega) hlv
        have hlv4 := hp1.2.2 d (by omega) hlv3
        have := hlividx d (by omega) hlv4
        omega
      · have hd2 := dRowIndOf_new ctx st st' d hL chunkF (by rw [hptr2, hcf]) hrow2
        rw [hd2, hmatr, List.length_drop, hcf]

end FaerLu

namespace FaerLu

/-- A successful supernode step preserves the combined registry
invariant. -/
theorem processSupernode_c5 (ctx : FactCtx) (st st' : NumState) (s : ℕ)
    (hInv : C5Inv ctx s st) (h : processSupernode ctx st s = .ok st') :
    C5Inv ctx (s + 1) st' := by
  obtain ⟨hL, hSlen, hlividx, hreg⟩ := hInv
  obtain ⟨sc1, ab1, sc2, ab2, H⟩ := processSupernode_ok_elim ctx st s st' h
  obtain ⟨hv1, hv2, hsc1, hab1, hh0, hrg, hv3, hv4, hsc2, hab2, hst⟩ := H
  subst hst
  exact c5_step_general ctx st _ s hL hSlen hlividx hreg _ _ _ _
    (collectLRows ctx st s).1.length _ sc1.1 sc2.1 ab1 ab2 _
    (by rw [applyTranspositions_chunk_length, List.length_insertionSort]) _ _
    hab1 hab2 rfl rfl rfl

/-- The combined registry invariant holds at every state of the
supernode loop. -/
theorem runUpTo_c5 (ctx : FactCtx) :
    ∀ (k : ℕ) (st : NumState), runUpTo ctx k = .ok st → C5Inv ctx k st := by
  intro k
  induction k with
  | zero =>
    intro st h
    simp only [runUpTo, List.range_zero, List.foldlM_nil, pure, Except.pure] at h
    cases h
    refine ⟨⟨rfl, ?_, rfl⟩, by simp [initState], ?_, ?_⟩
    · intro i
      cases i with
      | zero => exact Nat.le_refl 0
      | succ n => exact Nat.zero_le _
    · intro d hd hlv
      rw [show (initState ctx).contrib = List.replicate ctx.S Contrib.empty from rfl] at hlv
      rw [getD_replicate (α := Contrib)] at hlv
      cases hlv
    · intro d hd
      rw [show (initState ctx).contrib = List.replicate ctx.S Contrib.empty from rfl]
      rw [getD_replicate (α := Contrib)]
      exact ⟨contribInv_empty, fun _ => rfl, fun hf => by simp [Contrib.empty] at hf⟩
  | succ k ih =>
    intro st h
    rw [runUpTo_succ] at h
    obtain ⟨st1, hst1, hstep⟩ := exceptBind_ok h
    exact processSupernode_c5 ctx st1 st k (ih st1 hst1) hstep

end FaerLu

namespace FaerLu

/-- The per-block property of the claim, stated directly in counting
terms: column sums of `d_active_mat` give `d_active`, `d_active_count`
counts the positive entries of `d_active`, and the backing storage is
freed exactly when the active count is zero. -/
def BlockOk (c : Contrib) : Prop :=
  (∀ j, j < c.active.length → c.active.getD j 0 = colSum c.matRows c.mat j) ∧
  c.activeCount = posCount c.active ∧
  (c.vals.isEmpty = true ↔ c.activeCount = 0)

/-- The registry invariant implies the claim's per-block property for
every block of the registry. -/
theorem regP_blockOk (ctx : FactCtx) (st : NumState) (l : List Contrib)
    (hreg : RegP ctx st l) :
    ∀ d, d < l.length → BlockOk (l.getD d Contrib.empty) := by
  intro d hd
  obtain ⟨hinv, hfree, hlive⟩ := hreg d hd
  refine ⟨hinv.1, hinv.2, ?_, ?_⟩
  · intro he
    rw [hfree he]
    rfl
  · intro hc
    by_contra hne
    have : (l.getD d Contrib.empty).vals.isEmpty = false := by
      cases hiso : (l.getD d Contrib.empty).vals.isEmpty
      · rfl
      · exact absurd hiso hne
    exact (hlive this).1 hc

end FaerLu

namespace FaerLu

/-- C5: at the end of each absorption pass (`LPanel`, `UPanel`, `Front`)
of every ancestor supernode, and at every state of the supernode loop,
every contribution block in the registry satisfies: the column sums of
`d_active_mat` equal `d_active`, the number of positive entries of
`d_active` equals `d_active_count`, and the block's backing storage is
freed (its values vector is empty) exactly when `d_active_count` is
zero. -/
theorem C5_contribution_block_invariants :
    (∀ ctx st rgtl s h sL out, RegP ctx st st.contrib →
        lPanelPass ctx st rgtl s h sL = .ok out →
        ∀ d, d < out.2.length → BlockOk (out.2.getD d Contrib.empty)) ∧
    (∀ ctx st rpi rgtl cgtl s w sU l out, RegP ctx st l →
        uPanelPass ctx st rpi rgtl cgtl s w sU l = .ok out →
        ∀ d, d < out.2.length → BlockOk (out.2.getD d Contrib.empty)) ∧
    (∀ ctx st rpi rgtl cgtl s ssize h sLU l, RegP ctx st l →
        ∀ d, d < (frontPass ctx st rpi rgtl cgtl s ssize h sLU l).2.length →
          BlockOk ((frontPass ctx st rpi rgtl cgtl s ssize h sLU l).2.getD d
            Contrib.empty)) ∧
    (∀ ctx k st, runUpTo ctx k = .ok st →
        ∀ d, d < st.contrib.length → BlockOk (st.contrib.getD d Contrib.empty)) := by
  refine ⟨?_, ?_, ?_, ?_⟩
  · intro ctx st rgtl s h sL out hreg hx
    exact regP_blockOk ctx st out.2 (lPanelPass_pres ctx st rgtl s h sL out hreg hx).1
  · intro ctx st rpi rgtl cgtl s w sU l out hreg hx
    exact regP_blockOk ctx st out.2
      (uPanelPass_pres ctx st rpi rgtl cgtl s w sU l out hreg hx).1
  · intro ctx st rpi rgtl cgtl s ssize h sLU l hreg
    exact regP_blockOk ctx st _
      (frontPass_pres ctx st rpi rgtl cgtl s ssize h sLU l hreg).1
  · intro ctx k st hx
    exact regP_blockOk ctx st st.contrib (runUpTo_c5 ctx k st hx).2.2.2

/-- The state after the first supernode of the concrete 3×3 pivoting
example: supernode 0's panel is finished and descendant block 0 is live
with one active column. -/
def exSt1 : NumState :=
  ⟨[0, 1, 2], [0, 1, 2], [1, 1, 2], [none, none, none], [none, none, none],
    [0, 3], [0, 3], [0, 1, 2], [⟨4, 1⟩, ⟨1, 4⟩, ⟨1, 4⟩], [0, 1], [0, 1], [2],
    [⟨1, 1⟩], [⟨[⟨1, 4⟩, ⟨1, 4⟩], [2], 1, [true, true], 2⟩, Contrib.empty,
      Contrib.empty], 3⟩

/-- Witness for C5 at the concrete 3×3 example after one supernode: the
loop state is `exSt1` and its live block 0 satisfies the per-block
property. -/
theorem C5_contribution_block_invariants_witness :
    runUpTo exCtx 1 = .ok exSt1 ∧ (0 : ℕ) < exSt1.contrib.length ∧
      BlockOk (exSt1.contrib.getD 0 Contrib.empty) :=
  ⟨by decide, by decide,
    C5_contribution_block_invariants.2.2.2 exCtx 1 exSt1 (by decide) 0 (by decide)⟩

end FaerLu

namespace FaerLu

/-! ### Summation utilities for the `A_leftover` accounting -/

theorem sumMapZero {α : Type} (l : List α) : (l.map (fun _ => (0 : ℕ))).sum = 0 := by
  induction l with
  | nil => rfl
  | cons a t ih => simp [ih]

theorem sumMapAdd {α : Type} (f g : α → ℕ) :
    ∀ (l : List α), (l.map (fun x => f x + g x)).sum = (l.map f).sum + (l.map g).sum := by
  intro l
  induction l with
  | nil => rfl
  | cons a t ih =>
    simp only [List.map_cons, List.sum_cons, ih]
    omega

theorem sumSwap (f : ℕ → ℕ → ℕ) :
    ∀ (l1 l2 : List ℕ),
      (l1.map (fun x => (l2.map (fun y => f x y)).sum)).sum =
        (l2.map (fun y => (l1.map (fun x => f x y)).sum)).sum := by
  intro l1
  induction l1 with
  | nil =>
    intro l2
    simp only [List.map_nil, List.sum_nil]
    exact (sumMapZero l2).symm
  | cons a t ih =>
    intro l2
    simp only [List.map_cons, List.sum_cons, ih l2]
    rw [sumMapAdd]

theorem sumIndicatorRange (T : ℕ) :
    ∀ (k s v : ℕ),
      ((List.range' s k).map (fun i => if i = v then T else 0)).sum =
        if s ≤ v ∧ v < s + k then T else 0 := by
  intro k
  induction k with
  | zero =>
    intro s v
    rw [if_neg (by omega)]
    rfl
  | succ k ih =>
    intro s v
    rw [List.range'_succ s k 1]
    simp only [List.map_cons, List.sum_cons]
    rw [ih (s + 1) v]
    split_ifs <;> omega

theorem listRangeSum (f : ℕ → ℕ) :
    ∀ (n : ℕ), ((List.range n).map f).sum = ∑ i ∈ Finset.range n, f i := by
  intro n
  induction n with
  | zero => rfl
  | succ k ih =>
    rw [List.range_succ, List.map_append, List.sum_append, Finset.sum_range_succ, ih]
    simp

theorem sumRangePerm (n : ℕ) (g fwd bwd : ℕ → ℕ)
    (h1 : ∀ j, j < n → fwd j < n) (h2 : ∀ c, c < n → bwd c < n)
    (h3 : ∀ j, j < n → bwd (fwd j) = j) (h4 : ∀ c, c < n → fwd (bwd c) = c) :
    ((List.range n).map (fun j => g (fwd j))).sum = ((List.range n).map g).sum := by
  rw [listRangeSum, listRangeSum]
  refine Finset.sum_nbij' fwd bwd ?_ ?_ ?_ ?_ ?_
  · intro j hj
    exact Finset.mem_range.mpr (h1 j (Finset.mem_range.mp hj))
  · intro c hc
    exact Finset.mem_range.mpr (h2 c (Finset.mem_range.mp hc))
  · intro j hj
    exact h3 j (Finset.mem_range.mp hj)
  · intro c hc
    exact h4 c (Finset.mem_range.mp hc)
  · intro j _
    rfl

theorem rangeSplit (s m n : ℕ) :
    List.range' s (m + n) = List.range' s m ++ List.range' (s + m) n := by
  have h := List.range'_append s m n 1
  simp only [one_mul] at h
  rw [Nat.add_comm m n]
  exact h.symm

theorem countP_congrB {α : Type} (p q : α → Bool) :
    ∀ (l : List α), (∀ a ∈ l, p a = q a) → l.countP p = l.countP q := by
  intro l
  induction l with
  | nil => intro _; rfl
  | cons a t ih =>
    intro h
    rw [List.countP_cons, List.countP_cons, ih (fun x hx => h x (List.mem_cons_of_mem a hx)),
      h a (List.mem_cons_self a t)]

/-- Counting over the zipped `(row, value)` iteration of a column equals
counting over the row indices alone, when the value slice is long
enough. -/
theorem countP_entries (A : SparseQ) (c : ℕ) (p : ℕ → Bool)
    (hlen : (A.rowIndicesOfCol c).length ≤ (A.valuesOfCol c).length) :
    (A.entriesOfCol c).countP (fun pr => p pr.1) = (A.rowIndicesOfCol c).countP p := by
  unfold SparseQ.entriesOfCol
  rw [show (fun pr : ℕ × Fr => p pr.1) = (p ∘ Prod.fst) from rfl, ← List.countP_map,
    List.map_fst_zip _ _ hlen]

/-- A bounded count decomposes into a sum of per-value occurrence
counts. -/
theorem countP_sum_count (n : ℕ) (p : ℕ → Bool) :
    ∀ (l : List ℕ), (∀ x ∈ l, x < n) →
      l.countP p = ((List.range n).map (fun c => if p c = true then l.count c else 0)).sum := by
  intro l
  induction l with
  | nil =>
    intro _
    rw [List.countP_nil, show ((List.range n).map
      (fun c => if p c = true then List.count c ([] : List ℕ) else 0)) =
        (List.range n).map (fun _ => 0) from List.map_congr_left (by intro c _; simp),
      sumMapZero]
  | cons a t ih =>
    intro hb
    have ha : a < n := hb a (List.mem_cons_self a t)
    rw [List.countP_cons, ih (fun x hx => hb x (List.mem_cons_of_mem a hx))]
    have hpt : ∀ c ∈ List.range n,
        (if p c = true then (a :: t).count c else 0) =
          (if p c = true then t.count c else 0) +
            (if c = a then (if p a = true then 1 else 0) else 0) := by
      intro c _
      by_cases hca : c = a
      · subst hca
        by_cases hp : p c = true
        · rw [if_pos hp, if_pos hp, if_pos rfl, if_pos hp]
          simp [List.count_cons]
        · rw [if_neg hp, if_neg hp, if_pos rfl, if_neg hp]
      · by_cases hp : p c = true
        · rw [if_pos hp, if_pos hp, if_neg hca]
          simp [List.count_cons, hca]
        · rw [if_neg hp, if_neg hp, if_neg hca]
    have han : 0 ≤ a ∧ a < 0 + n := by omega
    rw [List.map_congr_left hpt, sumMapAdd, List.range_eq_range' n,
      sumIndicatorRange (if p a = true then 1 else 0), if_pos han]

/-- Summing the occurrence counts of the pivoted rows over a position
window counts the elements whose inverse-permutation position lies in the
window. -/
theorem sum_count_perm (mv sb se : ℕ) (rp rpi : List ℕ)
    (hI : permPairInv mv rp rpi) (hse : se ≤ mv) (hsbse : sb ≤ se) :
    ∀ (l : List ℕ), (∀ r ∈ l, r < mv) →
      ((List.range' sb (se - sb)).map (fun i => l.count (rp.getD i 0))).sum =
        l.countP (fun r => decide (sb ≤ rpi.getD r 0) && decide (rpi.getD r 0 < se)) := by
  intro l
  induction l with
  | nil =>
    intro _
    rw [List.countP_nil, show ((List.range' sb (se - sb)).map
      (fun i => List.count (rp.getD i 0) ([] : List ℕ))) =
        (List.range' sb (se - sb)).map (fun _ => 0) from
          List.map_congr_left (by intro i _; simp), sumMapZero]
  | cons r t ih =>
    intro hb
    have hr : r < mv := hb r (List.mem_cons_self r t)
    have hstep : ∀ i ∈ List.range' sb (se - sb),
        List.count (rp.getD i 0) (r :: t) =
          List.count (rp.getD i 0) t + (if i = rpi.getD r 0 then 1 else 0) := by
      intro i hi
      have hir := List.mem_range'_1.mp hi
      have him : i < mv := by omega
      simp only [List.count_cons, beq_iff_eq]
      have hiff : (r = rp.getD i 0) ↔ (i = rpi.getD r 0) := by
        constructor
        · intro h
          rw [h, hI.2.2.2.2.2 i him]
        · intro h
          rw [h, hI.2.2.2.2.1 r hr]
      split_ifs with h1 h2 <;> first
        | rfl
        | exact absurd (hiff.mp h1) h2
        | exact absurd (hiff.mpr (by assumption)) h1
    rw [List.map_congr_left hstep, sumMapAdd, ih (fun x hx => hb x (List.mem_cons_of_mem r hx)),
      sumIndicatorRange 1, List.countP_cons]
    simp only [Bool.and_eq_true, decide_eq_true_eq]
    split_ifs <;> omega

/-- A count above a lower threshold splits at a higher threshold into the
part above it and the part in between. -/
theorem countP_interval (rpi : List ℕ) (sb se : ℕ) (hs : sb ≤ se) :
    ∀ (l : List ℕ),
      l.countP (fun x => !decide (rpi.getD x 0 < sb)) =
        l.countP (fun x => !decide (rpi.getD x 0 < se)) +
          l.countP (fun x => decide (sb ≤ rpi.getD x 0) && decide (rpi.getD x 0 < se)) := by
  intro l
  induction l with
  | nil => rfl
  | cons a t ih =>
    simp only [List.countP_cons, ih]
    split_ifs <;> simp_all <;> omega

end FaerLu

namespace FaerLu

/-! ### Counting the scatter placements -/

/-- The placement count of one L-scatter column: entries of
`A[:, Pc[j]]` whose row is not yet eliminated. -/
def lColCnt (ctx : FactCtx) (rpi : List ℕ) (sb j : ℕ) : ℕ :=
  (ctx.A.entriesOfCol (ctx.pc j)).countP (fun pr => !decide (rpi.getD pr.1 0 < sb))

/-- The placement count of one U-scatter pivoted row: entries of
`A^T[:, Pr[i]]` whose column maps at or beyond `se`. -/
def uColCnt (ctx : FactCtx) (rp : List ℕ) (se i : ℕ) : ℕ :=
  (ctx.AT.entriesOfCol (rp.getD i 0)).countP (fun pr => !decide (ctx.pcInv pr.1 < se))

/-- The inner entry loop of `scatterLPanel`, named. -/
def lScatStep (rpi : List ℕ) (rgtl : List (Option ℕ)) (sb h j : ℕ)
    (acc : List Fr × ℕ) (pr : ℕ × Fr) : Except EmbErr (List Fr × ℕ) := do
  if rpi.getD pr.1 0 < sb then pure acc
  else do
    if acc.2 = 0 then throw (.assertFail .leftoverL)
    pure (mset h acc.1 ((rgtl.getD pr.1 none).getD 0) (j - sb) pr.2, acc.2 - 1)

/-- The per-column loop of `scatterLPanel`, named. -/
def lScatCol (ctx : FactCtx) (rpi : List ℕ) (rgtl : List (Option ℕ)) (sb h : ℕ)
    (acc : List Fr × ℕ) (j : ℕ) : Except EmbErr (List Fr × ℕ) :=
  (ctx.A.entriesOfCol (ctx.pc j)).foldlM (lScatStep rpi rgtl sb h j) acc

theorem scatterLPanel_eq (ctx : FactCtx) (rpi : List ℕ) (rgtl : List (Option ℕ))
    (sb se h : ℕ) (sL : List Fr) (leftover : ℕ) :
    scatterLPanel ctx rpi rgtl sb se h sL leftover =
      (List.range' sb (se - sb)).foldlM (lScatCol ctx rpi rgtl sb h) (sL, leftover) := rfl

/-- The inner entry loop of `scatterUPanel`, named. -/
def uScatStep (ctx : FactCtx) (cgtl : List (Option ℕ)) (sb se w i : ℕ)
    (acc : List Fr × ℕ) (pr : ℕ × Fr) : Except EmbErr (List Fr × ℕ) := do
  let pj := ctx.pcInv pr.1
  if pj < se then pure acc
  else do
    if acc.2 = 0 then throw (.assertFail .leftoverU)
    pure (uset w acc.1 (i - sb) ((cgtl.getD pj none).getD 0) pr.2, acc.2 - 1)

/-- The per-pivoted-row loop of `scatterUPanel`, named. -/
def uScatCol (ctx : FactCtx) (rp : List ℕ) (cgtl : List (Option ℕ)) (sb se w : ℕ)
    (acc : List Fr × ℕ) (i : ℕ) : Except EmbErr (List Fr × ℕ) :=
  (ctx.AT.entriesOfCol (rp.getD i 0)).foldlM (uScatStep ctx cgtl sb se w i) acc

theorem scatterUPanel_eq (ctx : FactCtx) (rp : List ℕ) (cgtl : List (Option ℕ))
    (sb se w : ℕ) (sU : List Fr) (leftover : ℕ) :
    scatterUPanel ctx rp cgtl sb se w sU leftover =
      (List.range' sb (se - sb)).foldlM (uScatCol ctx rp cgtl sb se w) (sU, leftover) := rfl

theorem lScat_inner_count (rpi : List ℕ) (rgtl : List (Option ℕ)) (sb h j : ℕ) :
    ∀ (l : List (ℕ × Fr)) (v : List Fr) (c : ℕ),
      l.countP (fun pr => !decide (rpi.getD pr.1 0 < sb)) ≤ c →
      ∃ v', l.foldlM (lScatStep rpi rgtl sb h j) (v, c) =
        .ok (v', c - l.countP (fun pr => !decide (rpi.getD pr.1 0 < sb))) := by
  intro l
  induction l with
  | nil =>
    intro v c _
    refine ⟨v, ?_⟩
    rw [List.foldlM_nil, List.countP_nil]
    rfl
  | cons pr t ih =>
    intro v c hc
    by_cases hskip : rpi.getD pr.1 0 < sb
    · have hp2 : (!decide (rpi.getD pr.1 0 < sb)) = false := by
        rw [decide_eq_true hskip]
        rfl
      have hcnt : (pr :: t).countP (fun q => !decide (rpi.getD q.1 0 < sb)) =
          t.countP (fun q => !decide (rpi.getD q.1 0 < sb)) := by
        rw [List.countP_cons]
        show t.countP _ + (if (!decide (rpi.getD pr.1 0 < sb)) = true then 1 else 0) = _
        rw [hp2]
        simp
      rw [hcnt] at hc
      obtain ⟨v', hv'⟩ := ih v c hc
      refine ⟨v', ?_⟩
      rw [List.foldlM_cons, hcnt]
      have hstep : lScatStep rpi rgtl sb h j (v, c) pr = pure (v, c) := by
        unfold lScatStep
        rw [if_pos hskip]
      rw [hstep]
      simp only [bind, Except.bind, pure, Except.pure]
      exact hv'
    · have hp2 : (!decide (rpi.getD pr.1 0 < sb)) = true := by
        rw [decide_eq_false hskip]
        rfl
      have hcnt : (pr :: t).countP (fun q => !decide (rpi.getD q.1 0 < sb)) =
          t.countP (fun q => !decide (rpi.getD q.1 0 < sb)) + 1 := by
        rw [List.countP_cons]
        show t.countP _ + (if (!decide (rpi.getD pr.1 0 < sb)) = true then 1 else 0) = _
        rw [hp2]
        simp
      rw [hcnt] at hc
      have hc0 : c ≠ 0 := by omega
      obtain ⟨v', hv'⟩ := ih (mset h v ((rgtl.getD pr.1 none).getD 0) (j - sb) pr.2) (c - 1)
        (by omega)
      rw [show c - 1 - t.countP (fun q => !decide (rpi.getD q.1 0 < sb)) =
        c - (t.countP (fun q => !decide (rpi.getD q.1 0 < sb)) + 1) from by omega] at hv'
      refine ⟨v', ?_⟩
      rw [List.foldlM_cons, hcnt]
      have hstep : lScatStep rpi rgtl sb h j (v, c) pr =
          .ok (mset h v ((rgtl.getD pr.1 none).getD 0) (j - sb) pr.2, c - 1) := by
        unfold lScatStep
        rw [if_neg hskip]
        simp only [bind, Except.bind, pure, Except.pure]
        rw [if_neg hc0]
      rw [hstep]
      simp only [bind, Except.bind]
      exact hv'

theorem uScat_inner_count (ctx : FactCtx) (cgtl : List (Option ℕ)) (sb se w i : ℕ) :
    ∀ (l : List (ℕ × Fr)) (v : List Fr) (c : ℕ),
      l.countP (fun pr => !decide (ctx.pcInv pr.1 < se)) ≤ c →
      ∃ v', l.foldlM (uScatStep ctx cgtl sb se w i) (v, c) =
        .ok (v', c - l.countP (fun pr => !decide (ctx.pcInv pr.1 < se))) := by
  intro l
  induction l with
  | nil =>
    intro v c _
    refine ⟨v, ?_⟩
    rw [List.foldlM_nil, List.countP_nil]
    rfl
  | cons pr t ih =>
    intro v c hc
    by_cases hskip : ctx.pcInv pr.1 < se
    · have hp2 : (!decide (ctx.pcInv pr.1 < se)) = false := by
        rw [decide_eq_true hskip]
        rfl
      have hcnt : (pr :: t).countP (fun q => !decide (ctx.pcInv q.1 < se)) =
          t.countP (fun q => !decide (ctx.pcInv q.1 < se)) := by
        rw [List.countP_cons]
        show t.countP _ + (if (!decide (ctx.pcInv pr.1 < se)) = true then 1 else 0) = _
        rw [hp2]
        simp
      rw [hcnt] at hc
      obtain ⟨v', hv'⟩ := ih v c hc
      refine ⟨v', ?_⟩
      rw [List.foldlM_cons, hcnt]
      have hstep : uScatStep ctx cgtl sb se w i (v, c) pr = pure (v, c) := by
        unfold uScatStep
        rw [if_pos hskip]
      rw [hstep]
      simp only [bind, Except.bind, pure, Except.pure]
      exact hv'
    · have hp2 : (!decide (ctx.pcInv pr.1 < se)) = true := by
        rw [decide_eq_false hskip]
        rfl
      have hcnt : (pr :: t).countP (fun q => !decide (ctx.pcInv q.1 < se)) =
          t.countP (fun q => !decide (ctx.pcInv q.1 < se)) + 1 := by
        rw [List.countP_cons]
        show t.countP _ + (if (!decide (ctx.pcInv pr.1 < se)) = true then 1 else 0) = _
        rw [hp2]
        simp
      rw [hcnt] at hc
      have hc0 : c ≠ 0 := by omega
      obtain ⟨v', hv'⟩ := ih (uset w v (i - sb) ((cgtl.getD (ctx.pcInv pr.1) none).getD 0) pr.2)
        (c - 1) (by omega)
      rw [show c - 1 - t.countP (fun q => !decide (ctx.pcInv q.1 < se)) =
        c - (t.countP (fun q => !decide (ctx.pcInv q.1 < se)) + 1) from by omega] at hv'
      refine ⟨v', ?_⟩
      rw [List.foldlM_cons, hcnt]
      have hstep : uScatStep ctx cgtl sb se w i (v, c) pr =
          .ok (uset w v (i - sb) ((cgtl.getD (ctx.pcInv pr.1) none).getD 0) pr.2, c - 1) := by
        unfold uScatStep
        rw [if_neg hskip]
        simp only [bind, Except.bind, pure, Except.pure]
        rw [if_neg hc0]
      rw [hstep]
      simp only [bind, Except.bind]
      exact hv'

theorem lScat_outer_count (ctx : FactCtx) (rpi : List ℕ) (rgtl : List (Option ℕ)) (sb h : ℕ) :
    ∀ (cols : List ℕ) (v : List Fr) (c : ℕ),
      (cols.map (lColCnt ctx rpi sb)).sum ≤ c →
      ∃ v', cols.foldlM (lScatCol ctx rpi rgtl sb h) (v, c) =
        .ok (v', c - (cols.map (lColCnt ctx rpi sb)).sum) := by
  intro cols
  induction cols with
  | nil =>
    intro v c _
    refine ⟨v, ?_⟩
    rw [List.foldlM_nil]
    rfl
  | cons j t ih =>
    intro v c hc
    rw [List.map_cons, List.sum_cons] at hc
    obtain ⟨v1, hv1⟩ := lScat_inner_count rpi rgtl sb h j (ctx.A.entriesOfCol (ctx.pc j)) v c
      (by
        have hlk : lColCnt ctx rpi sb j =
          (ctx.A.entriesOfCol (ctx.pc j)).countP
            (fun pr => !decide (rpi.getD pr.1 0 < sb)) := rfl
        omega)
    obtain ⟨v2, hv2⟩ := ih v1 (c - lColCnt ctx rpi sb j) (by omega)
    rw [show c - lColCnt ctx rpi sb j - (t.map (lColCnt ctx rpi sb)).sum =
      c - (lColCnt ctx rpi sb j + (t.map (lColCnt ctx rpi sb)).sum) from by omega] at hv2
    refine ⟨v2, ?_⟩
    rw [List.foldlM_cons, List.map_cons, List.sum_cons]
    have hcol : lScatCol ctx rpi rgtl sb h (v, c) j = .ok (v1, c - lColCnt ctx rpi sb j) := hv1
    rw [hcol]
    simp only [bind, Except.bind]
    exact hv2

theorem uScat_outer_count (ctx : FactCtx) (rp : List ℕ) (cgtl : List (Option ℕ))
    (sb se w : ℕ) :
    ∀ (cols : List ℕ) (v : List Fr) (c : ℕ),
      (cols.map (uColCnt ctx rp se)).sum ≤ c →
      ∃ v', cols.foldlM (uScatCol ctx rp cgtl sb se w) (v, c) =
        .ok (v', c - (cols.map (uColCnt ctx rp se)).sum) := by
  intro cols
  induction cols with
  | nil =>
    intro v c _
    refine ⟨v, ?_⟩
    rw [List.foldlM_nil]
    rfl
  | cons i t ih =>
    intro v c hc
    rw [List.map_cons, List.sum_cons] at hc
    obtain ⟨v1, hv1⟩ := uScat_inner_count ctx cgtl sb se w i
      (ctx.AT.entriesOfCol (rp.getD i 0)) v c
      (by
        have hlk : uColCnt ctx rp se i =
          (ctx.AT.entriesOfCol (rp.getD i 0)).countP
            (fun pr => !decide (ctx.pcInv pr.1 < se)) := rfl
        omega)
    obtain ⟨v2, hv2⟩ := ih v1 (c - uColCnt ctx rp se i) (by omega)
    rw [show c - uColCnt ctx rp se i - (t.map (uColCnt ctx rp se)).sum =
      c - (uColCnt ctx rp se i + (t.map (uColCnt ctx rp se)).sum) from by omega] at hv2
    refine ⟨v2, ?_⟩
    rw [List.foldlM_cons, List.map_cons, List.sum_cons]
    have hcol : uScatCol ctx rp cgtl sb se w (v, c) i = .ok (v1, c - uColCnt ctx rp se i) := hv1
    rw [hcol]
    simp only [bind, Except.bind]
    exact hv2

end FaerLu

namespace FaerLu

/-! ### Bounds on the kernel transpositions and the bookkeeping walk -/

theorem pivotRow_bounds (h : ℕ) (M : List Fr) (kk : ℕ) (hk : kk < h) :
    kk ≤ pivotRow h M kk ∧ pivotRow h M kk < h := by
  unfold pivotRow
  have hgen : ∀ (l : List ℕ) (best : ℕ),
      (∀ i ∈ l, kk ≤ i ∧ i < h) → kk ≤ best ∧ best < h →
      kk ≤ l.foldl (fun best i => if Fr.absLtB (mget h M best kk) (mget h M i kk) then i
        else best) best ∧
      l.foldl (fun best i => if Fr.absLtB (mget h M best kk) (mget h M i kk) then i
        else best) best < h := by
    intro l
    induction l with
    | nil => intro best _ hb; exact hb
    | cons a t ih =>
      intro best hl hb
      rw [List.foldl_cons]
      refine ih _ (fun i hi => hl i (List.mem_cons_of_mem a hi)) ?_
      split_ifs
      · exact hl a (List.mem_cons_self a t)
      · exact hb
  refine hgen _ kk ?_ ⟨Nat.le_refl kk, hk⟩
  intro i hi
  have := List.mem_range'_1.mp hi
  omega

/-- One column step of the panel kernel, named. -/
def kernelStep (h k : ℕ) (acc : List Fr × List ℕ) (kk : ℕ) : List Fr × List ℕ :=
  let M := acc.1
  let p := pivotRow h M kk
  let M1 := (List.range k).foldl (fun M c => swapLD Fr.zero M (c * h + kk) (c * h + p)) M
  let piv := mget h M1 kk kk
  let M2 :=
    if piv.isZero then M1
    else
      (List.range' (kk + 1) (h - (kk + 1))).foldl
        (fun M r => mset h M r kk ((mget h M r kk).div piv)) M1
  let M3 :=
    if piv.isZero then M2
    else
      (List.range' (kk + 1) (k - (kk + 1))).foldl
        (fun M c =>
          (List.range' (kk + 1) (h - (kk + 1))).foldl
            (fun M r =>
              mset h M r c ((mget h M r c).sub ((mget h M r kk).mul (mget h M kk c))))
            M)
        M2
  (M3, acc.2 ++ [p - kk])

theorem luPanelKernel_eq (h k : ℕ) (M : List Fr) :
    luPanelKernel h k M = (List.range k).foldl (kernelStep h k) (M, []) := rfl

theorem kernel_t_bound_aux (h k : ℕ) :
    ∀ (c j : ℕ) (acc : List Fr × List ℕ),
      acc.2.length = j → j + c ≤ h →
      (∀ i, i < j → i + acc.2.getD i 0 < h) →
      (∀ i, i < j + c →
        i + ((List.range' j c).foldl (kernelStep h k) acc).2.getD i 0 < h) := by
  intro c
  induction c with
  | zero =>
    intro j acc _ _ hb i hi
    exact hb i (by omega)
  | succ c ih =>
    intro j acc hlen hjc hb i hi
    rw [List.range'_succ j c 1, List.foldl_cons]
    have hjh : j < h := by omega
    have hpv := pivotRow_bounds h acc.1 j hjh
    have hlen2 : (kernelStep h k acc j).2.length = j + 1 := by
      show (acc.2 ++ [_]).length = j + 1
      rw [List.length_append, hlen]
      rfl
    have hb2 : ∀ i2, i2 < j + 1 → i2 + (kernelStep h k acc j).2.getD i2 0 < h := by
      intro i2 hi2
      show i2 + (acc.2 ++ [pivotRow h acc.1 j - j]).getD i2 0 < h
      by_cases hij : i2 < j
      · rw [getD_append_lt _ _ _ _ (by omega)]
        exact hb i2 hij
      · have hij2 : i2 = j := by omega
        subst hij2
        rw [← hlen] at hpv ⊢
        rw [getD_append_self]
        omega
    have := ih (j + 1) (kernelStep h k acc j) hlen2 (by omega) hb2 i (by omega)
    exact this

theorem kernel_t_bound (h k : ℕ) (M : List Fr) (hk : k ≤ h) :
    ∀ i, i < k → i + (luPanelKernel h k M).2.getD i 0 < h := by
  intro i hi
  rw [luPanelKernel_eq, List.range_eq_range' k]
  exact kernel_t_bound_aux h k k 0 (M, []) rfl (by omega) (by intro i2 hi2; omega) i (by omega)

/-- One step of the transposition bookkeeping walk, named. -/
def transStep (sb : ℕ) (acc : (List ℕ × List ℕ) × List ℕ) (pr : ℕ × ℕ) :
    (List ℕ × List ℕ) × List ℕ :=
  let idx := pr.1
  let tv := pr.2
  let rp := acc.1.1
  let rpi := acc.1.2
  let ch := acc.2
  let it := ch.getD (idx + tv) 0
  let kk := rpi.getD it 0
  let rp1 := swapLD 0 rp (sb + idx) kk
  let rpi1 := swapLD 0 rpi (rp1.getD (sb + idx) 0) (rp1.getD kk 0)
  ((rp1, rpi1), swapLD 0 ch idx (idx + tv))

theorem applyTranspositions_eq (sb : ℕ) (t chunk rp rpi : List ℕ) :
    applyTranspositions sb t chunk rp rpi =
      t.enum.foldl (transStep sb) ((rp, rpi), chunk) := rfl

theorem swapLD_mem {l : List ℕ} {a b : ℕ} (ha : a < l.length) (hb : b < l.length) :
    ∀ v ∈ swapLD 0 l a b, v ∈ l := by
  intro v hv
  unfold swapLD at hv
  rcases List.mem_or_eq_of_mem_set hv with hv1 | hv1
  · rcases List.mem_or_eq_of_mem_set hv1 with hv2 | hv2
    · exact hv2
    · rw [hv2, List.getD_eq_getElem _ _ hb]
      exact List.getElem_mem hb
  · rw [hv1, List.getD_eq_getElem _ _ ha]
    exact List.getElem_mem ha

theorem transWalk_aux (mv sb chLen : ℕ) (rpi0 : List ℕ) :
    ∀ (l : List (ℕ × ℕ)) (rp rpi ch : List ℕ),
      (∀ pr ∈ l, pr.1 + pr.2 < chLen ∧ sb + pr.1 < mv) →
      permPairInv mv rp rpi → ch.length = chLen →
      (∀ v ∈ ch, v < mv ∧ sb ≤ rpi.getD v 0) →
      (∀ r, r < mv → (sb ≤ rpi.getD r 0 ↔ sb ≤ rpi0.getD r 0)) →
      permPairInv mv (l.foldl (transStep sb) ((rp, rpi), ch)).1.1
          (l.foldl (transStep sb) ((rp, rpi), ch)).1.2 ∧
        (l.foldl (transStep sb) ((rp, rpi), ch)).2.length = chLen ∧
        (∀ v ∈ (l.foldl (transStep sb) ((rp, rpi), ch)).2, v < mv ∧
          sb ≤ (l.foldl (transStep sb) ((rp, rpi), ch)).1.2.getD v 0) ∧
        (∀ r, r < mv →
          (sb ≤ (l.foldl (transStep sb) ((rp, rpi), ch)).1.2.getD r 0 ↔
            sb ≤ rpi0.getD r 0)) := by
  intro l
  induction l with
  | nil =>
    intro rp rpi ch _ hI hch hprop hequiv
    exact ⟨hI, hch, hprop, hequiv⟩
  | cons pr l ih =>
    intro rp rpi ch hl hI hch hprop hequiv
    obtain ⟨hpr1, hpr2⟩ := hl pr (List.mem_cons_self pr l)
    have hm : 0 < mv := by omega
    obtain ⟨hl1, hl2, hb1, hb2, h5, h6⟩ := hI
    have hitc : pr.1 + pr.2 < ch.length := by omega
    have hitm : ch.getD (pr.1 + pr.2) 0 ∈ ch := by
      rw [List.getD_eq_getElem _ _ hitc]
      exact List.getElem_mem hitc
    obtain ⟨hit, hitsb⟩ := hprop _ hitm
    set it := ch.getD (pr.1 + pr.2) 0 with hitd
    set kk := rpi.getD it 0 with hkkd
    have hkkm : kk < mv := hb2 it hit
    have ha : sb + pr.1 < mv := hpr2
    -- the new permutation pair of the step
    have hInew := permPairInv_swapStep mv rp rpi (sb + pr.1) it
      ⟨hl1, hl2, hb1, hb2, h5, h6⟩ ha hm
    -- explicit description of the new rpi
    set x := rp.getD kk 0 with hxd
    set y := rp.getD (sb + pr.1) 0 with hyd
    have hxm : x < mv := hb1 kk hkkm
    have hym : y < mv := hb1 (sb + pr.1) ha
    have hrp1a : (swapLD 0 rp (sb + pr.1) kk).getD (sb + pr.1) 0 = x := by
      rw [swapLD_getD _ (by omega) (by omega)]
      by_cases hak : sb + pr.1 = kk
      · rw [if_pos hak, hak]
      · rw [if_neg hak, if_pos rfl]
    have hrp1k : (swapLD 0 rp (sb + pr.1) kk).getD kk 0 = y := by
      rw [swapLD_getD _ (by omega) (by omega), if_pos rfl]
    have hrpix : rpi.getD x 0 = kk := h6 kk hkkm
    have hrpiy : rpi.getD y 0 = sb + pr.1 := h6 (sb + pr.1) ha
    have hrpi1 : ∀ r, (swapLD 0 rpi ((swapLD 0 rp (sb + pr.1) kk).getD (sb + pr.1) 0)
        ((swapLD 0 rp (sb + pr.1) kk).getD kk 0)).getD r 0 =
          if r = y then kk else if r = x then sb + pr.1 else rpi.getD r 0 := by
      intro r
      rw [hrp1a, hrp1k, swapLD_getD r (by omega) (by omega)]
      by_cases hry : r = y
      · rw [if_pos hry, if_pos hry, hrpix]
      · rw [if_neg hry, if_neg hry]
        by_cases hrx : r = x
        · rw [if_pos hrx, if_pos hrx, hrpiy]
        · rw [if_neg hrx, if_neg hrx]
    -- the step's new state, in named form
    rw [List.foldl_cons]
    have hstep : transStep sb ((rp, rpi), ch) pr =
        ((swapLD 0 rp (sb + pr.1) kk,
          swapLD 0 rpi ((swapLD 0 rp (sb + pr.1) kk).getD (sb + pr.1) 0)
            ((swapLD 0 rp (sb + pr.1) kk).getD kk 0)),
          swapLD 0 ch pr.1 (pr.1 + pr.2)) := rfl
    rw [hstep]
    -- the per-row threshold predicate is preserved by the step
    have hequiv1 : ∀ r, r < mv →
        (sb ≤ (swapLD 0 rpi ((swapLD 0 rp (sb + pr.1) kk).getD (sb + pr.1) 0)
          ((swapLD 0 rp (sb + pr.1) kk).getD kk 0)).getD r 0 ↔ sb ≤ rpi.getD r 0) := by
      intro r hrm
      rw [hrpi1 r]
      by_cases hry : r = y
      · rw [if_pos hry, hry, hrpiy]
        constructor
        · intro _
          omega
        · intro _
          exact hitsb
      · rw [if_neg hry]
        by_cases hrx : r = x
        · rw [if_pos hrx, hrx, hrpix]
          constructor
          · intro _
            exact hitsb
          · intro _
            omega
        · rw [if_neg hrx]
    refine ih (swapLD 0 rp (sb + pr.1) kk) _ (swapLD 0 ch pr.1 (pr.1 + pr.2))
      (fun q hq => hl q (List.mem_cons_of_mem pr hq)) hInew
      (by rw [length_swapLD, hch]) ?_ ?_
    · intro v hv
      have hvch : v ∈ ch := swapLD_mem (by omega) (by omega) v hv
      obtain ⟨hvm, hvsb⟩ := hprop v hvch
      exact ⟨hvm, (hequiv1 v hvm).mpr hvsb⟩
    · intro r hrm
      exact Iff.trans (hequiv1 r hrm) (hequiv r hrm)

/-- The transposition walk preserves the mutual-inverse pair, keeps the
row slice within bounds, and never moves a row across the `sb`
threshold. -/
theorem applyTrans_walk (mv sb : ℕ) (t ch rp rpi : List ℕ)
    (hI : permPairInv mv rp rpi)
    (hch : ∀ v ∈ ch, v < mv ∧ sb ≤ rpi.getD v 0)
    (htb : ∀ i, i < t.length → i + t.getD i 0 < ch.length)
    (hlen : sb + t.length ≤ mv) :
    permPairInv mv (applyTranspositions sb t ch rp rpi).1.1
        (applyTranspositions sb t ch rp rpi).1.2 ∧
      (applyTranspositions sb t ch rp rpi).2.length = ch.length ∧
      (∀ v ∈ (applyTranspositions sb t ch rp rpi).2, v < mv ∧
        sb ≤ (applyTranspositions sb t ch rp rpi).1.2.getD v 0) ∧
      (∀ r, r < mv →
        (sb ≤ (applyTranspositions sb t ch rp rpi).1.2.getD r 0 ↔
          sb ≤ rpi.getD r 0)) := by
  rw [applyTranspositions_eq]
  refine transWalk_aux mv sb ch.length rpi t.enum rp rpi ch ?_ hI rfl hch
    (fun r _ => Iff.rfl)
  intro q hq
  have hq1 : q.1 < t.length ∧ q.2 = t.getD q.1 0 := by
    have h2 := List.mem_enum_iff_getElem?.mp hq
    constructor
    · by_contra hc
      rw [List.getElem?_eq_none (by omega)] at h2
      cases h2
    · have hq1l : q.1 < t.length := by
        by_contra hc
        rw [List.getElem?_eq_none (by omega)] at h2
        cases h2
      rw [List.getElem?_eq_getElem hq1l] at h2
      have h3 := Option.some.inj h2
      rw [List.getD_eq_getElem _ _ hq1l]
      exact h3.symm
  obtain ⟨hq1l, hq2⟩ := hq1
  constructor
  · rw [hq2]
    exact htb q.1 hq1l
  · omega

end FaerLu

namespace FaerLu

/-! ### Well-formedness of the factorization inputs, and the remaining
entry count -/

/-- The structural contract of the inputs of the numeric factorization:
the supernode pointer partitions `[0, n)`, the column permutation pair is
a bounded mutual inverse, the matrix is at least as tall as wide, the
column slices of `A` and `A^T` are in range and fully valued, and `A^T`
stores the transposed entry multiset of `A`. -/
def CtxWF (ctx : FactCtx) : Prop :=
  ctx.sptr 0 = 0 ∧
  (∀ s, s < ctx.S → ctx.sptr s ≤ ctx.sptr (s + 1)) ∧
  ctx.sptr ctx.S = ctx.n ∧
  ctx.n ≤ ctx.m ∧
  (∀ j, j < ctx.n → ctx.pc j < ctx.n) ∧
  (∀ c, c < ctx.n → ctx.pcInv c < ctx.n) ∧
  (∀ j, j < ctx.n → ctx.pcInv (ctx.pc j) = j) ∧
  (∀ c, c < ctx.n → ctx.pc (ctx.pcInv c) = c) ∧
  (∀ c, c < ctx.n → ∀ r ∈ ctx.A.rowIndicesOfCol c, r < ctx.m) ∧
  (∀ c, c < ctx.n → (ctx.A.rowIndicesOfCol c).length ≤ (ctx.A.valuesOfCol c).length) ∧
  (∀ r, r < ctx.m → ∀ c ∈ ctx.AT.rowIndicesOfCol r, c < ctx.n) ∧
  (∀ r, r < ctx.m → (ctx.AT.rowIndicesOfCol r).length ≤ (ctx.AT.valuesOfCol r).length) ∧
  (∀ r, r < ctx.m → ∀ c, c < ctx.n →
    (ctx.AT.rowIndicesOfCol r).count c = (ctx.A.rowIndicesOfCol c).count r)

/-- The pending placements of the column at permuted position `j`, for
rows not eliminated before position `sb`. -/
def remCnt (ctx : FactCtx) (sb : ℕ) (rpi : List ℕ) (j : ℕ) : ℕ :=
  (ctx.A.rowIndicesOfCol (ctx.pc j)).countP (fun r => !decide (rpi.getD r 0 < sb))

/-- The total number of entries of `A` not yet scattered when the loop
reaches position `lo`: entries in columns at or beyond `lo` whose row is
not eliminated before `lo`. -/
def rem (ctx : FactCtx) (lo : ℕ) (rpi : List ℕ) : ℕ :=
  ((List.range' lo (ctx.n - lo)).map (remCnt ctx lo rpi)).sum

theorem rem_end (ctx : FactCtx) (lo : ℕ) (rpi : List ℕ) (h : ctx.n ≤ lo) :
    rem ctx lo rpi = 0 := by
  unfold rem
  rw [show ctx.n - lo = 0 from by omega]
  rfl

theorem rem_init (ctx : FactCtx) (hwf : CtxWF ctx) (rpi : List ℕ) :
    rem ctx 0 rpi = ctx.A.computeNnz := by
  obtain ⟨-, -, -, -, hpc, hpcInv, hpc1, hpc2, -, -, -, -, -⟩ := hwf
  unfold rem SparseQ.computeNnz
  rw [Nat.sub_zero, ← List.range_eq_range' ctx.n]
  have hcg : ∀ j ∈ List.range ctx.n,
      remCnt ctx 0 rpi j = (ctx.A.rowIndicesOfCol (ctx.pc j)).length := by
    intro j _
    unfold remCnt
    rw [show (fun r : ℕ => !decide (rpi.getD r 0 < 0)) = (fun _ => true) from by
      funext r
      simp]
    simp
  rw [List.map_congr_left hcg]
  exact sumRangePerm ctx.n (fun c => (ctx.A.rowIndicesOfCol c).length) ctx.pc ctx.pcInv
    hpc hpcInv hpc1 hpc2

theorem rem_split (ctx : FactCtx) (sb se : ℕ) (rpi : List ℕ)
    (h1 : sb ≤ se) (h2 : se ≤ ctx.n) :
    rem ctx sb rpi =
      ((List.range' sb (se - sb)).map (remCnt ctx sb rpi)).sum +
        ((List.range' se (ctx.n - se)).map (remCnt ctx sb rpi)).sum := by
  unfold rem
  rw [show ctx.n - sb = (se - sb) + (ctx.n - se) from by omega,
    rangeSplit sb (se - sb) (ctx.n - se), show sb + (se - sb) = se from by omega,
    List.map_append, List.sum_append]

theorem foldl_preserve_mem {α β : Type} (P : β → Prop) (f : β → α → β) :
    ∀ (l : List α), (∀ a ∈ l, ∀ b, P b → P (f b a)) →
      ∀ b, P b → P (l.foldl f b) := by
  intro l
  induction l with
  | nil => intro _ b hP; exact hP
  | cons a t ih =>
    intro hf b hP
    rw [List.foldl_cons]
    exact ih (fun x hx => hf x (List.mem_cons_of_mem a hx)) _
      (hf a (List.mem_cons_self a t) b hP)

theorem markAdd_mem (mk it : ℕ) (acc : List ℕ × List ℕ) (Q : ℕ → Prop)
    (hP : ∀ x ∈ acc.1, Q x) (hit : Q it) :
    ∀ x ∈ (markAdd mk it acc).1, Q x := by
  intro x hx
  unfold markAdd at hx
  by_cases hcond : acc.2.getD it 0 < mk
  · rw [if_pos hcond] at hx
    rcases List.mem_append.mp hx with hx1 | hx1
    · exact hP x hx1
    · rw [List.mem_singleton.mp hx1]
      exact hit
  · rw [if_neg hcond] at hx
    exact hP x hx

/-- Every row collected for a supernode's L-panel is in range and not yet
eliminated. -/
theorem collectLRows_mem (ctx : FactCtx) (st : NumState) (s : ℕ)
    (hA : ∀ c, c < ctx.n → ∀ r ∈ ctx.A.rowIndicesOfCol c, r < ctx.m)
    (hpc : ∀ j, j < ctx.n → ctx.pc j < ctx.n)
    (hrow : ∀ v ∈ st.lRow, v < ctx.m)
    (hsen : ctx.sptr (s + 1) ≤ ctx.n) :
    ∀ v ∈ (collectLRows ctx st s).1, v < ctx.m ∧ ctx.sptr s ≤ st.rpi.getD v 0 := by
  unfold collectLRows
  dsimp only
  refine foldl_preserve_mem
    (fun acc : List ℕ × List ℕ => ∀ x ∈ acc.1, x < ctx.m ∧ ctx.sptr s ≤ st.rpi.getD x 0)
    _ (ctx.descWindow s) ?_ _ ?_
  · intro d _ acc hP
    by_cases hcond : partPoint (ctx.sptr s) (dColIndOf st d) < (dColIndOf st d).length ∧
        (dColIndOf st d).getD (partPoint (ctx.sptr s) (dColIndOf st d)) 0 < ctx.sptr (s + 1)
    · rw [if_pos hcond]
      refine foldl_preserve_mem
        (fun acc : List ℕ × List ℕ => ∀ x ∈ acc.1, x < ctx.m ∧ ctx.sptr s ≤ st.rpi.getD x 0)
        _ (dRowIndOf ctx st d) ?_ acc hP
      intro i hi acc2 hP2
      by_cases hskip : st.rpi.getD i 0 < ctx.sptr s
      · rw [if_pos hskip]
        exact hP2
      · rw [if_neg hskip]
        refine markAdd_mem _ _ _ _ hP2 ?_
        have hiL : i ∈ st.lRow := by
          unfold dRowIndOf at hi
          exact List.mem_of_mem_drop (List.mem_of_mem_take (List.mem_of_mem_drop hi))
        exact ⟨hrow i hiL, by omega⟩
    · rw [if_neg hcond]
      exact hP
  · refine foldl_preserve_mem
      (fun acc : List ℕ × List ℕ => ∀ x ∈ acc.1, x < ctx.m ∧ ctx.sptr s ≤ st.rpi.getD x 0)
      _ (List.range' (ctx.sptr s) (ctx.sptr (s + 1) - ctx.sptr s)) ?_ _ ?_
    · intro j hj acc hP
      have hjn : j < ctx.n := by
        have := List.mem_range'_1.mp hj
        omega
      refine foldl_preserve_mem
        (fun acc : List ℕ × List ℕ => ∀ x ∈ acc.1, x < ctx.m ∧ ctx.sptr s ≤ st.rpi.getD x 0)
        _ (ctx.A.rowIndicesOfCol (ctx.pc j)) ?_ acc hP
      intro i hi acc2 hP2
      by_cases hskip : st.rpi.getD i 0 < ctx.sptr s
      · rw [if_pos hskip]
        exact hP2
      · rw [if_neg hskip]
        refine markAdd_mem _ _ _ _ hP2 ?_
        exact ⟨hA (ctx.pc j) (hpc j hjn) i hi, by omega⟩
    · intro x hx
      cases hx

end FaerLu

namespace FaerLu

/-- The U-scatter of a supernode places exactly the entries of `A` in
columns beyond the supernode whose row was pivoted into the supernode:
transposing the per-row iteration of `A^T` into a per-column count of
`A`. -/
theorem uSum_eq (ctx : FactCtx) (sb se : ℕ) (rp rpi : List ℕ)
    (hI : permPairInv ctx.m rp rpi)
    (hsbse : sb ≤ se) (hsen : se ≤ ctx.n) (hnm : ctx.n ≤ ctx.m)
    (hATc : ∀ r, r < ctx.m → ∀ c ∈ ctx.AT.rowIndicesOfCol r, c < ctx.n)
    (hT : ∀ r, r < ctx.m → ∀ c, c < ctx.n →
      (ctx.AT.rowIndicesOfCol r).count c = (ctx.A.rowIndicesOfCol c).count r)
    (hAr : ∀ c, c < ctx.n → ∀ r ∈ ctx.A.rowIndicesOfCol c, r < ctx.m)
    (hpc : ∀ j, j < ctx.n → ctx.pc j < ctx.n)
    (hpcInv : ∀ c, c < ctx.n → ctx.pcInv c < ctx.n)
    (hpc1 : ∀ j, j < ctx.n → ctx.pcInv (ctx.pc j) = j)
    (hpc2 : ∀ c, c < ctx.n → ctx.pc (ctx.pcInv c) = c) :
    ((List.range' sb (se - sb)).map (fun i =>
      (ctx.AT.rowIndicesOfCol (rp.getD i 0)).countP
        (fun c => !decide (ctx.pcInv c < se)))).sum =
    ((List.range' se (ctx.n - se)).map (fun j =>
      (ctx.A.rowIndicesOfCol (ctx.pc j)).countP
        (fun r => decide (sb ≤ rpi.getD r 0) && decide (rpi.getD r 0 < se)))).sum := by
  have hstep1 : ∀ i ∈ List.range' sb (se - sb),
      (ctx.AT.rowIndicesOfCol (rp.getD i 0)).countP (fun c => !decide (ctx.pcInv c < se)) =
        ((List.range ctx.n).map (fun c => if (!decide (ctx.pcInv c < se)) = true then
          (ctx.A.rowIndicesOfCol c).count (rp.getD i 0) else 0)).sum := by
    intro i hi
    have hir := List.mem_range'_1.mp hi
    have him : i < ctx.m := by omega
    have hrpm : rp.getD i 0 < ctx.m := hI.2.2.1 i him
    rw [countP_sum_count ctx.n (fun c => !decide (ctx.pcInv c < se)) _ (hATc _ hrpm)]
    refine congrArg List.sum (List.map_congr_left ?_)
    intro c hc
    have hcn : c < ctx.n := List.mem_range.mp hc
    by_cases hq : (!decide (ctx.pcInv c < se)) = true
    · rw [if_pos hq, if_pos hq, hT _ hrpm c hcn]
    · rw [if_neg hq, if_neg hq]
  rw [List.map_congr_left hstep1,
    sumSwap (fun i c => if (!decide (ctx.pcInv c < se)) = true then
      (ctx.A.rowIndicesOfCol c).count (rp.getD i 0) else 0)
      (List.range' sb (se - sb)) (List.range ctx.n)]
  have hstep3 : ∀ c ∈ List.range ctx.n,
      ((List.range' sb (se - sb)).map (fun i =>
        if (!decide (ctx.pcInv c < se)) = true then
          (ctx.A.rowIndicesOfCol c).count (rp.getD i 0) else 0)).sum =
      (if (!decide (ctx.pcInv c < se)) = true then
        (ctx.A.rowIndicesOfCol c).countP
          (fun r => decide (sb ≤ rpi.getD r 0) && decide (rpi.getD r 0 < se)) else 0) := by
    intro c hc
    have hcn : c < ctx.n := List.mem_range.mp hc
    by_cases hq : (!decide (ctx.pcInv c < se)) = true
    · rw [if_pos hq,
        show ((List.range' sb (se - sb)).map (fun i =>
          if (!decide (ctx.pcInv c < se)) = true then
            (ctx.A.rowIndicesOfCol c).count (rp.getD i 0) else 0)) =
          ((List.range' sb (se - sb)).map (fun i =>
            (ctx.A.rowIndicesOfCol c).count (rp.getD i 0))) from
          List.map_congr_left (fun i _ => if_pos hq)]
      exact sum_count_perm ctx.m sb se rp rpi hI (by omega) hsbse _ (hAr c hcn)
    · rw [if_neg hq,
        show ((List.range' sb (se - sb)).map (fun i =>
          if (!decide (ctx.pcInv c < se)) = true then
            (ctx.A.rowIndicesOfCol c).count (rp.getD i 0) else 0)) =
          ((List.range' sb (se - sb)).map (fun _ => 0)) from
          List.map_congr_left (fun i _ => if_neg hq)]
      exact sumMapZero _
  rw [List.map_congr_left hstep3,
    ← sumRangePerm ctx.n (fun c => if (!decide (ctx.pcInv c < se)) = true then
      (ctx.A.rowIndicesOfCol c).countP
        (fun r => decide (sb ≤ rpi.getD r 0) && decide (rpi.getD r 0 < se)) else 0)
      ctx.pc ctx.pcInv hpc hpcInv hpc1 hpc2]
  have hstep5 : ∀ j ∈ List.range ctx.n,
      (if (!decide (ctx.pcInv (ctx.pc j) < se)) = true then
        (ctx.A.rowIndicesOfCol (ctx.pc j)).countP
          (fun r => decide (sb ≤ rpi.getD r 0) && decide (rpi.getD r 0 < se)) else 0) =
      (if se ≤ j then
        (ctx.A.rowIndicesOfCol (ctx.pc j)).countP
          (fun r => decide (sb ≤ rpi.getD r 0) && decide (rpi.getD r 0 < se)) else 0) := by
    intro j hj
    have hjn := List.mem_range.mp hj
    rw [hpc1 j hjn]
    by_cases hjse : se ≤ j
    · rw [show (!decide (j < se)) = true from by rw [decide_eq_false (by omega)]; rfl,
        if_pos rfl, if_pos hjse]
    · rw [show (!decide (j < se)) = false from by rw [decide_eq_true (by omega)]; rfl,
        if_neg hjse, if_neg (by simp)]
  rw [List.map_congr_left hstep5]
  have h0 := rangeSplit 0 se (ctx.n - se)
  rw [show se + (ctx.n - se) = ctx.n from by omega, Nat.zero_add se] at h0
  rw [List.range_eq_range' ctx.n, h0, List.map_append, List.sum_append]
  have hz : ∀ j ∈ List.range' 0 se,
      (if se ≤ j then
        (ctx.A.rowIndicesOfCol (ctx.pc j)).countP
          (fun r => decide (sb ≤ rpi.getD r 0) && decide (rpi.getD r 0 < se)) else 0) = 0 := by
    intro j hj
    have := List.mem_range'_1.mp hj
    rw [if_neg (by omega)]
  rw [List.map_congr_left hz, sumMapZero, Nat.zero_add]
  refine congrArg List.sum (List.map_congr_left ?_)
  intro j hj
  have := List.mem_range'_1.mp hj
  rw [if_pos (by omega)]

end FaerLu

namespace FaerLu

theorem sptr_mono_le (ctx : FactCtx)
    (hmono : ∀ s, s < ctx.S → ctx.sptr s ≤ ctx.sptr (s + 1)) :
    ∀ b a, a ≤ b → b ≤ ctx.S → ctx.sptr a ≤ ctx.sptr b := by
  intro b
  induction b with
  | zero =>
    intro a ha _
    rw [Nat.le_zero.mp ha]
  | succ b ih =>
    intro a ha hb
    rcases Nat.eq_or_lt_of_le ha with he | hlt
    · rw [he]
    · exact Nat.le_trans (ih a (by omega) (by omega)) (hmono b (by omega))

theorem sptr_le_n (ctx : FactCtx)
    (hmono : ∀ s, s < ctx.S → ctx.sptr s ≤ ctx.sptr (s + 1))
    (hend : ctx.sptr ctx.S = ctx.n) (k : ℕ) (hk : k ≤ ctx.S) : ctx.sptr k ≤ ctx.n := by
  rw [← hend]
  exact sptr_mono_le ctx hmono ctx.S k hk (Nat.le_refl _)

/-- The packaged facts about the pivot bookkeeping walk of one supernode:
the new pair is a mutual inverse, the final row chunk stays in range, and
no row moves across the `s_begin` threshold. -/
theorem walk_pack (ctx : FactCtx) (st : NumState) (s : ℕ)
    (hwf : CtxWF ctx) (hs : s < ctx.S)
    (hperm : permPairInv ctx.m st.rp st.rpi)
    (hrow : ∀ v ∈ st.lRow, v < ctx.m)
    (hh0 : ¬ (collectLRows ctx st s).1.length < ctx.sptr (s + 1) - ctx.sptr s)
    (M : List Fr) :
    permPairInv ctx.m
        (applyTranspositions (ctx.sptr s)
          (luPanelKernel (collectLRows ctx st s).1.length (ctx.sptr (s + 1) - ctx.sptr s) M).2
          (List.insertionSort (fun x1 x2 => x1 ≤ x2) (collectLRows ctx st s).1)
          st.rp st.rpi).1.1
        (applyTranspositions (ctx.sptr s)
          (luPanelKernel (collectLRows ctx st s).1.length (ctx.sptr (s + 1) - ctx.sptr s) M).2
          (List.insertionSort (fun x1 x2 => x1 ≤ x2) (collectLRows ctx st s).1)
          st.rp st.rpi).1.2 ∧
      (∀ v ∈ (applyTranspositions (ctx.sptr s)
          (luPanelKernel (collectLRows ctx st s).1.length (ctx.sptr (s + 1) - ctx.sptr s) M).2
          (List.insertionSort (fun x1 x2 => x1 ≤ x2) (collectLRows ctx st s).1)
          st.rp st.rpi).2, v < ctx.m) ∧
      (∀ r, r < ctx.m →
        (ctx.sptr s ≤ (applyTranspositions (ctx.sptr s)
          (luPanelKernel (collectLRows ctx st s).1.length (ctx.sptr (s + 1) - ctx.sptr s) M).2
          (List.insertionSort (fun x1 x2 => x1 ≤ x2) (collectLRows ctx st s).1)
          st.rp st.rpi).1.2.getD r 0 ↔ ctx.sptr s ≤ st.rpi.getD r 0)) := by
  obtain ⟨hsp0, hmono, hend, hnm, hpc, hpcInv, hpc1, hpc2, hAr, hAv, hATc, hATv, hT⟩ := hwf
  have hsbse : ctx.sptr s ≤ ctx.sptr (s + 1) := hmono s hs
  have hsen : ctx.sptr (s + 1) ≤ ctx.n := sptr_le_n ctx hmono hend (s + 1) (by omega)
  have hch0 : ∀ v ∈ List.insertionSort (fun x1 x2 => x1 ≤ x2) (collectLRows ctx st s).1,
      v < ctx.m ∧ ctx.sptr s ≤ st.rpi.getD v 0 := by
    intro v hv
    exact collectLRows_mem ctx st s hAr hpc hrow hsen v
      ((List.perm_insertionSort (fun x1 x2 => x1 ≤ x2) (collectLRows ctx st s).1).mem_iff.mp hv)
  have htlen : (luPanelKernel (collectLRows ctx st s).1.length
      (ctx.sptr (s + 1) - ctx.sptr s) M).2.length = ctx.sptr (s + 1) - ctx.sptr s :=
    luPanelKernel_t_length _ _ _
  have hchlen : (List.insertionSort (fun x1 x2 => x1 ≤ x2)
      (collectLRows ctx st s).1).length = (collectLRows ctx st s).1.length :=
    List.length_insertionSort _ _
  have htb : ∀ i, i < (luPanelKernel (collectLRows ctx st s).1.length
      (ctx.sptr (s + 1) - ctx.sptr s) M).2.length →
      i + (luPanelKernel (collectLRows ctx st s).1.length
        (ctx.sptr (s + 1) - ctx.sptr s) M).2.getD i 0 <
      (List.insertionSort (fun x1 x2 => x1 ≤ x2) (collectLRows ctx st s).1).length := by
    intro i hi
    rw [hchlen]
    exact kernel_t_bound _ _ M (by omega) i (by omega)
  have hwalk := applyTrans_walk ctx.m (ctx.sptr s)
    (luPanelKernel (collectLRows ctx st s).1.length (ctx.sptr (s + 1) - ctx.sptr s) M).2
    (List.insertionSort (fun x1 x2 => x1 ≤ x2) (collectLRows ctx st s).1)
    st.rp st.rpi hperm hch0 htb (by rw [htlen]; omega)
  exact ⟨hwalk.1, fun v hv => (hwalk.2.2.1 v hv).1, hwalk.2.2.2⟩

/-- With the counting invariant, the L-scatter of supernode `s` succeeds
and leaves exactly the count of pending entries in later columns. -/
theorem scatterL_val (ctx : FactCtx) (st : NumState) (s : ℕ)
    (hwf : CtxWF ctx) (hs : s < ctx.S)
    (hleft : st.leftover = rem ctx (ctx.sptr s) st.rpi)
    (rgtl : List (Option ℕ)) (hp : ℕ) (sL : List Fr) :
    ∃ v, scatterLPanel ctx st.rpi rgtl (ctx.sptr s) (ctx.sptr (s + 1)) hp sL st.leftover =
      .ok (v, ((List.range' (ctx.sptr (s + 1)) (ctx.n - ctx.sptr (s + 1))).map
        (remCnt ctx (ctx.sptr s) st.rpi)).sum) := by
  obtain ⟨hsp0, hmono, hend, hnm, hpc, hpcInv, hpc1, hpc2, hAr, hAv, hATc, hATv, hT⟩ := hwf
  have hsbse : ctx.sptr s ≤ ctx.sptr (s + 1) := hmono s hs
  have hsen : ctx.sptr (s + 1) ≤ ctx.n := sptr_le_n ctx hmono hend (s + 1) (by omega)
  have hbr : ∀ j ∈ List.range' (ctx.sptr s) (ctx.sptr (s + 1) - ctx.sptr s),
      lColCnt ctx st.rpi (ctx.sptr s) j = remCnt ctx (ctx.sptr s) st.rpi j := by
    intro j hj
    have hjr := List.mem_range'_1.mp hj
    have hjn : j < ctx.n := by omega
    show (ctx.A.entriesOfCol (ctx.pc j)).countP
        (fun pr => !decide (st.rpi.getD pr.1 0 < ctx.sptr s)) =
      (ctx.A.rowIndicesOfCol (ctx.pc j)).countP
        (fun r => !decide (st.rpi.getD r 0 < ctx.sptr s))
    exact countP_entries ctx.A (ctx.pc j)
      (fun r => !decide (st.rpi.getD r 0 < ctx.sptr s)) (hAv _ (hpc j hjn))
  have hX : ((List.range' (ctx.sptr s) (ctx.sptr (s + 1) - ctx.sptr s)).map
      (lColCnt ctx st.rpi (ctx.sptr s))).sum =
      ((List.range' (ctx.sptr s) (ctx.sptr (s + 1) - ctx.sptr s)).map
        (remCnt ctx (ctx.sptr s) st.rpi)).sum :=
    congrArg List.sum (List.map_congr_left hbr)
  have hsplit := rem_split ctx (ctx.sptr s) (ctx.sptr (s + 1)) st.rpi hsbse hsen
  obtain ⟨v, hv⟩ := lScat_outer_count ctx st.rpi rgtl (ctx.sptr s) hp
    (List.range' (ctx.sptr s) (ctx.sptr (s + 1) - ctx.sptr s)) sL st.leftover
    (by rw [hX, hleft, hsplit]; omega)
  refine ⟨v, ?_⟩
  rw [scatterLPanel_eq, hv, hX]
  rw [show st.leftover - ((List.range' (ctx.sptr s) (ctx.sptr (s + 1) - ctx.sptr s)).map
    (remCnt ctx (ctx.sptr s) st.rpi)).sum =
    ((List.range' (ctx.sptr (s + 1)) (ctx.n - ctx.sptr (s + 1))).map
      (remCnt ctx (ctx.sptr s) st.rpi)).sum from by rw [hleft, hsplit]; omega]

/-- With the counting invariant, the L-scatter of supernode `s` never
fires the `A_leftover > 0` assert. -/
theorem scatterL_false (ctx : FactCtx) (st : NumState) (s : ℕ)
    (hwf : CtxWF ctx) (hs : s < ctx.S)
    (hleft : st.leftover = rem ctx (ctx.sptr s) st.rpi)
    (rgtl : List (Option ℕ)) (hp : ℕ) (sL : List Fr) (e : EmbErr)
    (hx : scatterLPanel ctx st.rpi rgtl (ctx.sptr s) (ctx.sptr (s + 1)) hp sL st.leftover =
      .error e) : False := by
  obtain ⟨v, hv⟩ := scatterL_val ctx st s hwf hs hleft rgtl hp sL
  rw [hv] at hx
  cases hx

end FaerLu

namespace FaerLu

/-- With the counting invariant, the U-scatter of supernode `s` succeeds
and leaves exactly the pending count at level `s_end`, stated for any
pivoted pair that is a mutual inverse and agrees with the pre-pivot
`row_perm_inv` about the `s_begin` threshold. -/
theorem scatterU_val_gen (ctx : FactCtx) (s : ℕ)
    (hsbse : ctx.sptr s ≤ ctx.sptr (s + 1)) (hsen : ctx.sptr (s + 1) ≤ ctx.n)
    (hnm : ctx.n ≤ ctx.m)
    (hpc : ∀ j, j < ctx.n → ctx.pc j < ctx.n)
    (hpcInv : ∀ c, c < ctx.n → ctx.pcInv c < ctx.n)
    (hpc1 : ∀ j, j < ctx.n → ctx.pcInv (ctx.pc j) = j)
    (hpc2 : ∀ c, c < ctx.n → ctx.pc (ctx.pcInv c) = c)
    (hAr : ∀ c, c < ctx.n → ∀ r ∈ ctx.A.rowIndicesOfCol c, r < ctx.m)
    (hATc : ∀ r, r < ctx.m → ∀ c ∈ ctx.AT.rowIndicesOfCol r, c < ctx.n)
    (hATv : ∀ r, r < ctx.m → (ctx.AT.rowIndicesOfCol r).length ≤ (ctx.AT.valuesOfCol r).length)
    (hT : ∀ r, r < ctx.m → ∀ c, c < ctx.n →
      (ctx.AT.rowIndicesOfCol r).count c = (ctx.A.rowIndicesOfCol c).count r)
    (rpi0 rp1 rpi1 : List ℕ)
    (hperm1 : permPairInv ctx.m rp1 rpi1)
    (hequiv : ∀ r, r < ctx.m →
      (ctx.sptr s ≤ rpi1.getD r 0 ↔ ctx.sptr s ≤ rpi0.getD r 0))
    (cgtl : List (Option ℕ)) (w : ℕ) (sU : List Fr) :
    ∃ v, scatterUPanel ctx rp1 cgtl (ctx.sptr s) (ctx.sptr (s + 1)) w sU
        (((List.range' (ctx.sptr (s + 1)) (ctx.n - ctx.sptr (s + 1))).map
          (remCnt ctx (ctx.sptr s) rpi0)).sum) =
      .ok (v, rem ctx (ctx.sptr (s + 1)) rpi1) := by
  have hcong : ∀ j ∈ List.range' (ctx.sptr (s + 1)) (ctx.n - ctx.sptr (s + 1)),
      remCnt ctx (ctx.sptr s) rpi0 j = remCnt ctx (ctx.sptr s) rpi1 j := by
    intro j hj
    have hjn : j < ctx.n := by
      have := List.mem_range'_1.mp hj
      omega
    refine countP_congrB _ _ _ ?_
    intro r hr
    have hrm : r < ctx.m := hAr _ (hpc j hjn) r hr
    show (!decide (rpi0.getD r 0 < ctx.sptr s)) = (!decide (rpi1.getD r 0 < ctx.sptr s))
    by_cases h1 : ctx.sptr s ≤ rpi0.getD r 0
    · have h2 : ctx.sptr s ≤ rpi1.getD r 0 := (hequiv r hrm).mpr h1
      rw [decide_eq_false (by omega : ¬ rpi0.getD r 0 < ctx.sptr s),
        decide_eq_false (by omega : ¬ rpi1.getD r 0 < ctx.sptr s)]
    · have h2 : ¬ ctx.sptr s ≤ rpi1.getD r 0 := fun hcon => h1 ((hequiv r hrm).mp hcon)
      rw [decide_eq_true (by omega : rpi0.getD r 0 < ctx.sptr s),
        decide_eq_true (by omega : rpi1.getD r 0 < ctx.sptr s)]
  have hintv : ∀ j ∈ List.range' (ctx.sptr (s + 1)) (ctx.n - ctx.sptr (s + 1)),
      remCnt ctx (ctx.sptr s) rpi1 j =
        remCnt ctx (ctx.sptr (s + 1)) rpi1 j +
          (ctx.A.rowIndicesOfCol (ctx.pc j)).countP
            (fun r => decide (ctx.sptr s ≤ rpi1.getD r 0) &&
              decide (rpi1.getD r 0 < ctx.sptr (s + 1))) := by
    intro j _
    exact countP_interval rpi1 (ctx.sptr s) (ctx.sptr (s + 1)) hsbse _
  have hY : ((List.range' (ctx.sptr (s + 1)) (ctx.n - ctx.sptr (s + 1))).map
      (remCnt ctx (ctx.sptr s) rpi0)).sum =
      rem ctx (ctx.sptr (s + 1)) rpi1 +
        ((List.range' (ctx.sptr (s + 1)) (ctx.n - ctx.sptr (s + 1))).map
          (fun j => (ctx.A.rowIndicesOfCol (ctx.pc j)).countP
            (fun r => decide (ctx.sptr s ≤ rpi1.getD r 0) &&
              decide (rpi1.getD r 0 < ctx.sptr (s + 1))))).sum := by
    rw [List.map_congr_left hcong, List.map_congr_left hintv,
      sumMapAdd (remCnt ctx (ctx.sptr (s + 1)) rpi1)
        (fun j => (ctx.A.rowIndicesOfCol (ctx.pc j)).countP
          (fun r => decide (ctx.sptr s ≤ rpi1.getD r 0) &&
            decide (rpi1.getD r 0 < ctx.sptr (s + 1))))]
    rfl
  have hUcnt : ∀ i ∈ List.range' (ctx.sptr s) (ctx.sptr (s + 1) - ctx.sptr s),
      uColCnt ctx rp1 (ctx.sptr (s + 1)) i =
        (ctx.AT.rowIndicesOfCol (rp1.getD i 0)).countP
          (fun c => !decide (ctx.pcInv c < ctx.sptr (s + 1))) := by
    intro i hi
    have him : i < ctx.m := by
      have := List.mem_range'_1.mp hi
      omega
    exact countP_entries ctx.AT (rp1.getD i 0)
      (fun c => !decide (ctx.pcInv c < ctx.sptr (s + 1)))
      (hATv _ (hperm1.2.2.1 i him))
  have hUS : ((List.range' (ctx.sptr s) (ctx.sptr (s + 1) - ctx.sptr s)).map
      (uColCnt ctx rp1 (ctx.sptr (s + 1)))).sum =
      ((List.range' (ctx.sptr (s + 1)) (ctx.n - ctx.sptr (s + 1))).map
        (fun j => (ctx.A.rowIndicesOfCol (ctx.pc j)).countP
          (fun r => decide (ctx.sptr s ≤ rpi1.getD r 0) &&
            decide (rpi1.getD r 0 < ctx.sptr (s + 1))))).sum := by
    rw [List.map_congr_left hUcnt]
    exact uSum_eq ctx (ctx.sptr s) (ctx.sptr (s + 1)) rp1 rpi1 hperm1 hsbse hsen hnm
      hATc hT hAr hpc hpcInv hpc1 hpc2
  obtain ⟨v, hv⟩ := uScat_outer_count ctx rp1 cgtl (ctx.sptr s) (ctx.sptr (s + 1)) w
    (List.range' (ctx.sptr s) (ctx.sptr (s + 1) - ctx.sptr s)) sU
    (((List.range' (ctx.sptr (s + 1)) (ctx.n - ctx.sptr (s + 1))).map
      (remCnt ctx (ctx.sptr s) rpi0)).sum)
    (by rw [hUS.symm] at hY; omega)
  refine ⟨v, ?_⟩
  rw [scatterUPanel_eq, hv]
  rw [show (((List.range' (ctx.sptr (s + 1)) (ctx.n - ctx.sptr (s + 1))).map
      (remCnt ctx (ctx.sptr s) rpi0)).sum -
      ((List.range' (ctx.sptr s) (ctx.sptr (s + 1) - ctx.sptr s)).map
        (uColCnt ctx rp1 (ctx.sptr (s + 1)))).sum) =
    rem ctx (ctx.sptr (s + 1)) rpi1 from by rw [hUS, hY]; omega]

end FaerLu

namespace FaerLu

/-- The counting invariant of the `A_leftover` accounting: the
permutation pair is a mutual inverse, the stored rows are in range, and
the counter equals the number of entries of `A` not yet scattered. -/
def C3Inv (ctx : FactCtx) (k : ℕ) (st : NumState) : Prop :=
  permPairInv ctx.m st.rp st.rpi ∧
  (∀ v ∈ st.lRow, v < ctx.m) ∧
  st.leftover = rem ctx (ctx.sptr k) st.rpi

/-- A successful supernode step preserves the counting invariant. -/
theorem processSupernode_c3 (ctx : FactCtx) (st st' : NumState) (s : ℕ)
    (hwf : CtxWF ctx) (hs : s < ctx.S) (hI : C3Inv ctx s st)
    (h : processSupernode ctx st s = .ok st') : C3Inv ctx (s + 1) st' := by
  obtain ⟨hperm, hrow, hleft⟩ := hI
  obtain ⟨sc1, ab1, sc2, ab2, H⟩ := processSupernode_ok_elim ctx st s st' h
  obtain ⟨hv1, hv2, hsc1, hab1, hh0, hrg, hv3, hv4, hsc2, hab2, hst⟩ := H
  obtain ⟨vL, hvL⟩ := scatterL_val ctx st s hwf hs hleft _ _ _
  have hsc12 : sc1 = (vL, ((List.range' (ctx.sptr (s + 1)) (ctx.n - ctx.sptr (s + 1))).map
      (remCnt ctx (ctx.sptr s) st.rpi)).sum) := Except.ok.inj (hsc1.symm.trans hvL)
  obtain ⟨hperm1, hchF, hequiv⟩ := walk_pack ctx st s hwf hs hperm hrow hh0 ab1.1
  obtain ⟨hsp0, hmono, hend, hnm, hpcd, hpcInvd, hpc1d, hpc2d, hAr, hAv, hATc, hATv, hT⟩ := hwf
  have hsbse := hmono s hs
  have hsen := sptr_le_n ctx hmono hend (s + 1) (by omega)
  obtain ⟨vU, hvU⟩ := scatterU_val_gen ctx s hsbse hsen hnm hpcd hpcInvd hpc1d hpc2d hAr
    hATc hATv hT st.rpi _ _ hperm1 hequiv _ _ _
  have hcc : sc1.2 = ((List.range' (ctx.sptr (s + 1)) (ctx.n - ctx.sptr (s + 1))).map
      (remCnt ctx (ctx.sptr s) st.rpi)).sum := by
    rw [hsc12]
  rw [hcc] at hsc2
  have hsc22 := Except.ok.inj (hsc2.symm.trans hvU)
  subst hst
  refine ⟨hperm1, ?_, ?_⟩
  · intro v hv
    rcases List.mem_append.mp hv with h1 | h1
    · exact hrow v h1
    · exact hchF v h1
  · exact congrArg Prod.snd hsc22

/-- The counting invariant holds at every state of the supernode loop. -/
theorem runUpTo_c3 (ctx : FactCtx) (hwf : CtxWF ctx) :
    ∀ k, k ≤ ctx.S → ∀ st, runUpTo ctx k = .ok st → C3Inv ctx k st := by
  intro k
  induction k with
  | zero =>
    intro _ st h
    simp only [runUpTo, List.range_zero, List.foldlM_nil, pure, Except.pure] at h
    cases h
    refine ⟨initState_permPairInv ctx, ?_, ?_⟩
    · intro v hv
      rw [show (initState ctx).lRow = [] from rfl] at hv
      cases hv
    · show ctx.A.computeNnz = rem ctx (ctx.sptr 0) (List.range ctx.m)
      rw [hwf.1, rem_init ctx hwf]
  | succ k ih =>
    intro hk st h
    rw [runUpTo_succ] at h
    obtain ⟨st1, hst1, hstep⟩ := exceptBind_ok h
    exact processSupernode_c3 ctx st1 st k hwf (by omega) (ih (by omega) st1 hst1) hstep

end FaerLu

namespace FaerLu

/-- Every error of `lPanelPass` is one of its two `d_active` asserts. -/
theorem lPanelPass_err_site {ctx : FactCtx} {st : NumState}
    {rgtl : List (Option ℕ)} {s h : ℕ} {sL : List Fr} {e : EmbErr}
    (hx : lPanelPass ctx st rgtl s h sL = .error e) :
    e = EmbErr.assertFail .activeTakenL ∨ e = EmbErr.assertFail .activeCountL := by
  refine foldlM_err_shape (fun e => e = EmbErr.assertFail .activeTakenL ∨
    e = EmbErr.assertFail .activeCountL) _ ?_ _ _ _ hx
  intro b d e1 h1
  simp only [bind, Except.bind, pure, Except.pure] at h1
  repeat' split at h1
  all_goals cases h1
  all_goals refine foldlM_err_shape (fun e => e = EmbErr.assertFail .activeTakenL ∨
    e = EmbErr.assertFail .activeCountL) _ ?_ _ _ _ (by assumption)
  all_goals intro b2 pr e2 h2
  all_goals simp only [bind, Except.bind, pure, Except.pure] at h2
  all_goals repeat' split at h2
  all_goals cases h2
  all_goals first | exact Or.inl rfl | exact Or.inr rfl

/-- Every error of `uPanelPass` is one of its two `d_active` asserts. -/
theorem uPanelPass_err_site {ctx : FactCtx} {st : NumState} {rpi : List ℕ}
    {rgtl cgtl : List (Option ℕ)} {s w : ℕ} {sU : List Fr}
    {contrib : List Contrib} {e : EmbErr}
    (hx : uPanelPass ctx st rpi rgtl cgtl s w sU contrib = .error e) :
    e = EmbErr.assertFail .activeTakenU ∨ e = EmbErr.assertFail .activeCountU := by
  refine foldlM_err_shape (fun e => e = EmbErr.assertFail .activeTakenU ∨
    e = EmbErr.assertFail .activeCountU) _ ?_ _ _ _ hx
  intro b d e1 h1
  simp only [bind, Except.bind, pure, Except.pure] at h1
  repeat' split at h1
  all_goals cases h1
  all_goals refine foldlM_err_shape (fun e => e = EmbErr.assertFail .activeTakenU ∨
    e = EmbErr.assertFail .activeCountU) _ ?_ _ _ _ (by assumption)
  all_goals intro b2 pr e2 h2
  all_goals simp only [bind, Except.bind, pure, Except.pure] at h2
  all_goals repeat' split at h2
  all_goals cases h2
  all_goals first | exact Or.inl rfl | exact Or.inr rfl

/-- With the counting invariant, the U-scatter of supernode `s` never
fires the `A_leftover > 0` assert. -/
theorem scatterU_false (ctx : FactCtx) (st : NumState) (s : ℕ)
    (hwf : CtxWF ctx) (hs : s < ctx.S)
    (hperm : permPairInv ctx.m st.rp st.rpi)
    (hrow : ∀ v ∈ st.lRow, v < ctx.m)
    (hleft : st.leftover = rem ctx (ctx.sptr s) st.rpi)
    (hh0 : ¬ (collectLRows ctx st s).1.length < ctx.sptr (s + 1) - ctx.sptr s)
    (rgtl : List (Option ℕ)) (hp : ℕ) (sL : List Fr) (scL : List Fr × ℕ)
    (hL : scatterLPanel ctx st.rpi rgtl (ctx.sptr s) (ctx.sptr (s + 1)) hp sL st.leftover =
      .ok scL)
    (M : List Fr) (cgtl : List (Option ℕ)) (w : ℕ) (sU : List Fr) (e : EmbErr)
    (hU : scatterUPanel ctx
        (applyTranspositions (ctx.sptr s)
          (luPanelKernel (collectLRows ctx st s).1.length (ctx.sptr (s + 1) - ctx.sptr s) M).2
          (List.insertionSort (fun x1 x2 => x1 ≤ x2) (collectLRows ctx st s).1)
          st.rp st.rpi).1.1
        cgtl (ctx.sptr s) (ctx.sptr (s + 1)) w sU scL.2 = .error e) : False := by
  obtain ⟨vL, hvL⟩ := scatterL_val ctx st s hwf hs hleft rgtl hp sL
  have hscL : scL = (vL, ((List.range' (ctx.sptr (s + 1)) (ctx.n - ctx.sptr (s + 1))).map
      (remCnt ctx (ctx.sptr s) st.rpi)).sum) := Except.ok.inj (hL.symm.trans hvL)
  obtain ⟨hperm1, hchF, hequiv⟩ := walk_pack ctx st s hwf hs hperm hrow hh0 M
  obtain ⟨hsp0, hmono, hend, hnm, hpcd, hpcInvd, hpc1d, hpc2d, hAr, hAv, hATc, hATv, hT⟩ := hwf
  obtain ⟨vU, hvU⟩ := scatterU_val_gen ctx s (hmono s hs)
    (sptr_le_n ctx hmono hend (s + 1) (by omega)) hnm hpcd hpcInvd hpc1d hpc2d hAr
    hATc hATv hT st.rpi _ _ hperm1 hequiv cgtl w sU
  rw [show scL.2 = ((List.range' (ctx.sptr (s + 1)) (ctx.n - ctx.sptr (s + 1))).map
    (remCnt ctx (ctx.sptr s) st.rpi)).sum from by rw [hscL]] at hU
  rw [hvU] at hU
  cases hU

/-- With the counting invariant, one supernode step never fails with an
`A_leftover` assert. -/
theorem processSupernode_no_lo (ctx : FactCtx) (st : NumState) (s : ℕ)
    (hwf : CtxWF ctx) (hs : s < ctx.S)
    (hperm : permPairInv ctx.m st.rp st.rpi)
    (hrow : ∀ v ∈ st.lRow, v < ctx.m)
    (hleft : st.leftover = rem ctx (ctx.sptr s) st.rpi)
    (e : EmbErr) (hx : processSupernode ctx st s = .error e) :
    e ≠ EmbErr.assertFail .leftoverL ∧ e ≠ EmbErr.assertFail .leftoverU ∧
      e ≠ EmbErr.assertFail .leftoverEnd := by
  unfold processSupernode at hx
  simp only [bind, Except.bind, pure, Except.pure] at hx
  repeat' split at hx
  all_goals cases hx
  all_goals try (refine ⟨?_, ?_, ?_⟩ <;> (intro hcon; cases hcon); done)
  all_goals try (have hperr := lPanelPass_err_site (by assumption); rcases hperr with hsite | hsite <;> subst hsite <;> refine ⟨?_, ?_, ?_⟩ <;> (intro hcon; cases hcon); done)
  all_goals try (have hperr := uPanelPass_err_site (by assumption); rcases hperr with hsite | hsite <;> subst hsite <;> refine ⟨?_, ?_, ?_⟩ <;> (intro hcon; cases hcon); done)
  all_goals try (rename_i hscat; exact (scatterL_false ctx st s hwf hs hleft _ _ _ _ hscat).elim)
  all_goals (rename_i hLok xPan vPan hPanOk hh0x hrgx hiur hiuv xu hUerr; exact (scatterU_false ctx st s hwf hs hperm hrow hleft hh0x _ _ _ _ hLok _ _ _ _ _ hUerr).elim)

/-- The factorization never fails with an `A_leftover` assert. -/
theorem factorize_no_lo_asserts (ctx : FactCtx) (hwf : CtxWF ctx) (rp0 rpi0 : List ℕ)
    (e : EmbErr) (hx : factorize_supernodal_numeric_lu ctx rp0 rpi0 = .error e) :
    e ≠ EmbErr.assertFail .leftoverL ∧ e ≠ EmbErr.assertFail .leftoverU ∧
      e ≠ EmbErr.assertFail .leftoverEnd := by
  unfold factorize_supernodal_numeric_lu at hx
  simp only [bind, Except.bind, pure, Except.pure] at hx
  split at hx
  · cases hx
    exact ⟨by simp, by simp, by simp⟩
  · split at hx
    · rename_i e1 heq
      cases hx
      obtain ⟨s2, hs2, st2, hok2, herr2⟩ := runUpTo_err_elim ctx ctx.S e heq
      obtain ⟨hperm2, hrow2, hleft2⟩ := runUpTo_c3 ctx hwf s2 (by omega) st2 hok2
      exact processSupernode_no_lo ctx st2 s2 hwf (by omega) hperm2 hrow2 hleft2 e herr2
    · rename_i st heq
      have h0 : st.leftover = 0 := by
        rw [(runUpTo_c3 ctx hwf ctx.S (Nat.le_refl _) st heq).2.2,
          rem_end ctx _ _ (by rw [hwf.2.2.1])]
      unfold finalizeLu at hx
      simp only [bind, Except.bind, pure, Except.pure] at hx
      split at hx
      · rename_i hcond
        exact absurd h0 hcond
      · cases hx

end FaerLu

namespace FaerLu

/-- C3: the `A_leftover` counter accounting of
`factorize_supernodal_numeric_lu` is exact.  On a well-formed input, at
every loop state the counter equals the number of entries of `A` not yet
scattered (initialized to `nnz(A)` and decremented once per placed entry);
after the last supernode the counter is exactly zero; and the
factorization never fails with either `A_leftover` assert (the
`A_leftover > 0` check at the two scatter sites and the final
`A_leftover == 0` check), i.e. every stored nonzero of `A` is placed
exactly once over the whole factorization. -/
theorem C3_a_leftover_exact_accounting (ctx : FactCtx) (hwf : CtxWF ctx) :
    (∀ k st, k ≤ ctx.S → runUpTo ctx k = .ok st →
      st.leftover = rem ctx (ctx.sptr k) st.rpi) ∧
    (∀ st, runUpTo ctx ctx.S = .ok st → st.leftover = 0) ∧
    (∀ rp0 rpi0 e, factorize_supernodal_numeric_lu ctx rp0 rpi0 = .error e →
      e ≠ EmbErr.assertFail .leftoverL ∧ e ≠ EmbErr.assertFail .leftoverU ∧
        e ≠ EmbErr.assertFail .leftoverEnd) := by
  refine ⟨?_, ?_, ?_⟩
  · intro k st hk hok
    exact (runUpTo_c3 ctx hwf k hk st hok).2.2
  · intro st hok
    rw [(runUpTo_c3 ctx hwf ctx.S (Nat.le_refl _) st hok).2.2,
      rem_end ctx _ _ (by rw [hwf.2.2.1])]
  · intro rp0 rpi0 e hx
    exact factorize_no_lo_asserts ctx hwf rp0 rpi0 e hx

/-- The state after all three supernodes of the concrete 3×3 pivoting
example: all contribution blocks freed and `A_leftover = 0`. -/
def exSt3 : NumState :=
  ⟨[0, 2, 1], [0, 2, 1], [1, 5, 4], [none, none, none], [none, none, none],
    [0, 3, 5, 6], [0, 3, 5, 6], [0, 1, 2, 2, 1, 1],
    [⟨4, 1⟩, ⟨1, 4⟩, ⟨1, 4⟩, ⟨3, 1⟩, ⟨2, 3⟩, ⟨44, 48⟩],
    [0, 1, 2, 2], [0, 1, 2, 2], [2, 2], [⟨1, 1⟩, ⟨-1, 4⟩],
    [Contrib.empty, Contrib.empty, Contrib.empty], 0⟩

/-- Witness for C3 at the concrete 3×3 example: the input is well formed,
the loop finishes in state `exSt3`, and the theorem yields
`A_leftover = 0` there. -/
theorem C3_a_leftover_exact_accounting_witness :
    CtxWF exCtx ∧ runUpTo exCtx exCtx.S = .ok exSt3 ∧ exSt3.leftover = 0 :=
  ⟨by unfold CtxWF; decide, by decide,
    (C3_a_leftover_exact_accounting exCtx (by unfold CtxWF; decide)).2.1 exSt3 (by decide)⟩

end FaerLu
